import Mathlib

/-!
# EE450 socket project: bit-string AND/OR servers, edge router, client

A shallow embedding of `server_and.c`, `server_or.c`, `edge.c` and `client.c`.

Conventions of the embedding:

* a C string is the `List Char` of its characters before the terminating NUL;
  buffer capacities are not part of the model, the theorems state the length
  bounds under which the C buffers (`OPERAND_BYTES + 1`, `RESULT_BYTES + 1`, ...)
  are large enough;
* a `for` loop over an index is a function recursing on a fuel argument that
  repeats the loop test of the source; the caller passes a fuel that is at least
  the number of iterations;
* `EXIT_SUCCESS` is `0`, `EXIT_FAILURE` is `1`.
-/

/-! ## C library pieces shared by the four programs -/

/-- The character `s[i]` of a C string: the terminating NUL at `i = strlen s`. -/
def CStr.at (s : List Char) (i : Nat) : Char := s.getD i (Char.ofNat 0)

/-- Value of `EXIT_SUCCESS`. -/
def EXIT_SUCCESS : Nat := 0

/-- Value of `EXIT_FAILURE`. -/
def EXIT_FAILURE : Nat := 1

/-! ### `sscanf` and `sprintf` conversions

Only the conversions the programs use. Numbers are exact integers: every number
the programs format or expect fits three decimal digits, and a `%d` whose value
does not fit an `int` is outside what C defines. The model of `%d` is the source
only for numbers that fit an `int` (`fits_int`), and the model of `%s` only for
fields that fit the array they are read into; the theorems state these bounds
for the input they admit. -/

namespace LibC

/-- The predicate `isspace` in the C locale: space, `\t`, `\n`, `\v`, `\f`, `\r`. -/
def isspace (c : Char) : Bool := c.toNat = 32 || (9 ≤ c.toNat && c.toNat ≤ 13)

/-- The predicate `isdigit`. -/
def isdigit (c : Char) : Bool := 48 ≤ c.toNat && c.toNat ≤ 57

/-- The C string a buffer holds: the characters before the first NUL. -/
def cstr (buffer : List Char) : List Char := buffer.takeWhile (fun c => c.toNat ≠ 0)

/-- Skipping of white space, done by a blank in a format and before `%s`, `%d`. -/
def skip_space (s : List Char) : List Char := s.dropWhile isspace

/-- The conversion `%s` of `sscanf`: skip white space, then take the longest run
of non-space characters; fails at the end of the input. Returns the field and
the rest of the input. -/
def scan_s (s : List Char) : Option (List Char × List Char) :=
  let t := skip_space s
  if t = [] then none
  else some (t.takeWhile (fun c => !isspace c), t.dropWhile (fun c => !isspace c))

/-- The number a run of decimal digits denotes. -/
def digits_value (ds : List Char) : Nat := ds.foldl (fun acc c => 10 * acc + (c.toNat - 48)) 0

/-- The digits of a `%d` field after the optional sign. -/
def scan_digits (negative : Bool) (u : List Char) : Option (Int × List Char) :=
  let ds := u.takeWhile isdigit
  if ds = [] then none
  else some (if negative then -(digits_value ds : Int) else (digits_value ds : Int),
    u.dropWhile isdigit)

/-- The conversion `%d` of `sscanf`: skip white space, an optional sign, then at
least one decimal digit. Returns the number and the rest of the input. -/
def scan_d (s : List Char) : Option (Int × List Char) :=
  match skip_space s with
  | '-' :: u => scan_digits true u
  | '+' :: u => scan_digits false u
  | t => scan_digits false t

/-- The numbers an `int` of 32 bits holds: what `%d` can store into an `int`
as it reads it. -/
def fits_int (n : Int) : Prop := -2147483648 ≤ n ∧ n ≤ 2147483647

instance (n : Int) : Decidable (fits_int n) := by unfold fits_int; infer_instance

/-- Right-justification in a field of width `w`, as `sprintf` does for `%ws` and
`%wd`: padded on the left with blanks, never truncated. -/
def justify (w : Nat) (s : List Char) : List Char := List.replicate (w - s.length) ' ' ++ s

/-- The conversion `%ws` of `sprintf`. -/
def fmt_s (w : Nat) (s : List Char) : List Char := justify w s

/-- The decimal numeral `sprintf` writes for `%d`. -/
def decimal (n : Int) : List Char :=
  if n < 0 then '-' :: Nat.toDigits 10 n.natAbs else Nat.toDigits 10 n.natAbs

/-- The conversion `%wd` of `sprintf`. -/
def fmt_d (w : Nat) (n : Int) : List Char := justify w (decimal n)

end LibC

/-! ## server_and.c -/

namespace ServerAnd

/-- Maximum number of bytes used by an operand (`OPERAND_BYTES`). -/
def OPERAND_BYTES : Nat := 10

/-- Maximum number of bytes used by a result (`RESULT_BYTES`). -/
def RESULT_BYTES : Nat := 10

/-- The struct `and_job` of server_and.c. -/
structure and_job where
  job_number : Int
  operand1 : List Char
  operand2 : List Char
  result : List Char
deriving DecidableEq, Repr

/-- The inner loop of `andcalculation` (lines 249-262): `j` runs while
`j < strlen(large_op)`; `result` is the string built by `strcat`. -/
def and_loop (large_op small_op : List Char) :
    Nat → Nat → List Char → Bool → List Char × Bool
  | 0, _, result, msb_found => (result, msb_found)
  | fuel + 1, j, result, msb_found =>
    if j < large_op.length then
      if CStr.at large_op j = '1' ∧
          CStr.at small_op (j - (large_op.length - small_op.length)) = '1' then
        and_loop large_op small_op fuel (j + 1) (result ++ ['1']) true
      else if msb_found then
        and_loop large_op small_op fuel (j + 1) (result ++ ['0']) msb_found
      else
        and_loop large_op small_op fuel (j + 1) result msb_found
    else (result, msb_found)

/-- The body of the outer loop of `andcalculation` (lines 233-269) for one job:
the string copied into the job's `result`. -/
def and_result (operand1 operand2 : List Char) : List Char :=
  let large_op := if operand1.length ≥ operand2.length then operand1 else operand2
  let small_op := if operand1.length ≥ operand2.length then operand2 else operand1
  let r := and_loop large_op small_op large_op.length
    (large_op.length - small_op.length) [] false
  if !r.2 then r.1 ++ ['0'] else r.1

/-- The function `andcalculation`: the first `num_and_jobs` jobs of the array get
their `result` computed, in place. (The array has at least `num_and_jobs`
entries in the source; the model stops at the end of the list.) -/
def andcalculation : List and_job → Nat → List and_job
  | [], _ => []
  | jobs, 0 => jobs
  | job :: jobs, n + 1 =>
    { job with result := and_result job.operand1 job.operand2 } :: andcalculation jobs n

/-- Number of bytes received from the edge server (`RECV_BYTES`). -/
def RECV_BYTES : Nat := 29

/-- Number of bytes sent to the edge server (`SEND_BYTES`). -/
def SEND_BYTES : Nat := 14

/-- The function `recvandjob`, given the datagram `recvfrom` delivers (cut to
`RECV_BYTES` bytes by `recvfrom`) and the previous contents of `*and_job_ptr`.
Returns the value returned (`-1` on failure, the parsed count otherwise) and
the contents of `*and_job_ptr` afterwards: `sscanf` assigns the fields it
converts before it fails. -/
def recvandjob (datagram : List Char) (slot : and_job) : Int × and_job :=
  let received := datagram.take RECV_BYTES
  if received.length ≠ RECV_BYTES then (-1, slot)
  else
    match LibC.scan_s (LibC.cstr received) with
    | none => (-1, slot)
    | some (operand1, r1) =>
      match LibC.scan_s r1 with
      | none => (-1, { slot with operand1 := operand1 })
      | some (operand2, r2) =>
        match LibC.scan_d r2 with
        | none => (-1, { slot with operand1 := operand1, operand2 := operand2 })
        | some (job_number, r3) =>
          match LibC.scan_d r3 with
          | none =>
            (-1, { slot with operand1 := operand1, operand2 := operand2,
                             job_number := job_number })
          | some (num_and_jobs, _) =>
            (num_and_jobs, { slot with operand1 := operand1, operand2 := operand2,
                                       job_number := job_number })

/-- The function `sendresults` of server_and.c: one datagram per job, in array
order; returns the status and the datagrams handed to `sendto`. `sendto`
returns the number of bytes it was given. -/
def sendresults : List and_job → Nat → Nat × List (List Char)
  | [], _ => (EXIT_SUCCESS, [])
  | _, 0 => (EXIT_SUCCESS, [])
  | job :: jobs, n + 1 =>
    let payload := LibC.fmt_d 3 job.job_number ++ [' '] ++ LibC.fmt_s 10 job.result
    if payload.length ≠ SEND_BYTES then (EXIT_FAILURE, [payload])
    else
      let r := sendresults jobs n
      (r.1, payload :: r.2)

/-- The loop of `main` receiving the remaining jobs (lines 134-141), `n`
iterations left. Every array slot starts as `uninit`. The test against
`EXIT_FAILURE` leads to `continue`, which goes on with the next `i`.
`none`: `recvfrom` waits for a datagram that never comes. -/
def recv_remaining (uninit : and_job) :
    Nat → List (List Char) → List and_job → Option (List and_job × List (List Char))
  | 0, inbox, and_jobs => some (and_jobs, inbox)
  | _ + 1, [], _ => none
  | n + 1, datagram :: inbox, and_jobs =>
    let r := recvandjob datagram uninit
    if r.1 = (EXIT_FAILURE : Int) then recv_remaining uninit n inbox (and_jobs ++ [r.2])
    else recv_remaining uninit n inbox (and_jobs ++ [r.2])

/-- What one turn of the `while (1)` loop of `main` does. -/
inductive Cycle where
  /-- `recvfrom` waits for a datagram that never comes. -/
  | blocked
  /-- The first `recvandjob` returned `-1`: `continue` (line 120). -/
  | skipped (inbox : List (List Char))
  /-- The count is below 1: `and_jobs[0]` is outside the array of `num_and_jobs`
  elements. -/
  | undefined
  /-- The jobs were computed and `sendresults` was called: its status, the job
  array, the datagrams sent and the datagrams left in the socket. -/
  | served (status : Nat) (and_jobs : List and_job) (sent : List (List Char))
      (inbox : List (List Char))
deriving DecidableEq, Repr

/-- One turn of the `while (1)` loop of `main` (lines 114-152) on the datagrams
waiting in the socket. -/
def main_cycle (uninit : and_job) : List (List Char) → Cycle
  | [] => Cycle.blocked
  | datagram :: inbox =>
    let r := recvandjob datagram uninit
    let num_and_jobs := r.1
    if num_and_jobs = -1 then Cycle.skipped inbox
    else if num_and_jobs < 1 then Cycle.undefined
    else
      match recv_remaining uninit (num_and_jobs.toNat - 1) inbox [r.2] with
      | none => Cycle.blocked
      | some (and_jobs, inbox) =>
        let and_jobs := andcalculation and_jobs num_and_jobs.toNat
        let s := sendresults and_jobs num_and_jobs.toNat
        Cycle.served s.1 and_jobs s.2 inbox

end ServerAnd

/-! ## server_or.c -/

namespace ServerOr

/-- Maximum number of bytes used by an operand (`OPERAND_BYTES`). -/
def OPERAND_BYTES : Nat := 10

/-- Maximum number of bytes used by a result (`RESULT_BYTES`). -/
def RESULT_BYTES : Nat := 10

/-- The struct `or_job` of server_or.c. -/
structure or_job where
  job_number : Int
  operand1 : List Char
  operand2 : List Char
  result : List Char
deriving DecidableEq, Repr

/-- The first inner loop of `orcalculation` (lines 249-260): the positions that
only `large_op` has, `j < strlen(large_op) - strlen(small_op)`. -/
def or_lead_loop (large_op small_op : List Char) :
    Nat → Nat → List Char → Bool → List Char × Bool
  | 0, _, result, msb_found => (result, msb_found)
  | fuel + 1, j, result, msb_found =>
    if j < large_op.length - small_op.length then
      if CStr.at large_op j = '1' then
        or_lead_loop large_op small_op fuel (j + 1) (result ++ ['1']) true
      else if msb_found then
        or_lead_loop large_op small_op fuel (j + 1) (result ++ ['0']) msb_found
      else
        or_lead_loop large_op small_op fuel (j + 1) result msb_found
    else (result, msb_found)

/-- The second inner loop of `orcalculation` (lines 262-275): the aligned
suffix, `j < strlen(large_op)`. -/
def or_loop (large_op small_op : List Char) :
    Nat → Nat → List Char → Bool → List Char × Bool
  | 0, _, result, msb_found => (result, msb_found)
  | fuel + 1, j, result, msb_found =>
    if j < large_op.length then
      if CStr.at large_op j = '1' ∨
          CStr.at small_op (j - (large_op.length - small_op.length)) = '1' then
        or_loop large_op small_op fuel (j + 1) (result ++ ['1']) true
      else if msb_found then
        or_loop large_op small_op fuel (j + 1) (result ++ ['0']) msb_found
      else
        or_loop large_op small_op fuel (j + 1) result msb_found
    else (result, msb_found)

/-- The body of the outer loop of `orcalculation` (lines 233-282) for one job:
the string copied into the job's `result`. -/
def or_result (operand1 operand2 : List Char) : List Char :=
  let large_op := if operand1.length ≥ operand2.length then operand1 else operand2
  let small_op := if operand1.length ≥ operand2.length then operand2 else operand1
  let r0 := or_lead_loop large_op small_op (large_op.length - small_op.length) 0 [] false
  let r := or_loop large_op small_op large_op.length
    (large_op.length - small_op.length) r0.1 r0.2
  if !r.2 then r.1 ++ ['0'] else r.1

/-- The function `orcalculation`: the first `num_or_jobs` jobs of the array get
their `result` computed, in place. -/
def orcalculation : List or_job → Nat → List or_job
  | [], _ => []
  | jobs, 0 => jobs
  | job :: jobs, n + 1 =>
    { job with result := or_result job.operand1 job.operand2 } :: orcalculation jobs n

/-- Number of bytes received from the edge server (`RECV_BYTES`). -/
def RECV_BYTES : Nat := 29

/-- Number of bytes sent to the edge server (`SEND_BYTES`). -/
def SEND_BYTES : Nat := 14

/-- The function `recvorjob`, given the datagram `recvfrom` delivers (cut to
`RECV_BYTES` bytes by `recvfrom`) and the previous contents of `*or_job_ptr`.
Returns the value returned (`-1` on failure, the parsed count otherwise) and
the contents of `*or_job_ptr` afterwards: `sscanf` assigns the fields it
converts before it fails. -/
def recvorjob (datagram : List Char) (slot : or_job) : Int × or_job :=
  let received := datagram.take RECV_BYTES
  if received.length ≠ RECV_BYTES then (-1, slot)
  else
    match LibC.scan_s (LibC.cstr received) with
    | none => (-1, slot)
    | some (operand1, r1) =>
      match LibC.scan_s r1 with
      | none => (-1, { slot with operand1 := operand1 })
      | some (operand2, r2) =>
        match LibC.scan_d r2 with
        | none => (-1, { slot with operand1 := operand1, operand2 := operand2 })
        | some (job_number, r3) =>
          match LibC.scan_d r3 with
          | none =>
            (-1, { slot with operand1 := operand1, operand2 := operand2,
                             job_number := job_number })
          | some (num_or_jobs, _) =>
            (num_or_jobs, { slot with operand1 := operand1, operand2 := operand2,
                                       job_number := job_number })

/-- The function `sendresults` of server_or.c: one datagram per job, in array
order; returns the status and the datagrams handed to `sendto`. `sendto`
returns the number of bytes it was given. -/
def sendresults : List or_job → Nat → Nat × List (List Char)
  | [], _ => (EXIT_SUCCESS, [])
  | _, 0 => (EXIT_SUCCESS, [])
  | job :: jobs, n + 1 =>
    let payload := LibC.fmt_d 3 job.job_number ++ [' '] ++ LibC.fmt_s 10 job.result
    if payload.length ≠ SEND_BYTES then (EXIT_FAILURE, [payload])
    else
      let r := sendresults jobs n
      (r.1, payload :: r.2)

/-- The loop of `main` receiving the remaining jobs (lines 134-141), `n`
iterations left. Every array slot starts as `uninit`. The test against
`EXIT_FAILURE` leads to `continue`, which goes on with the next `i`.
`none`: `recvfrom` waits for a datagram that never comes. -/
def recv_remaining (uninit : or_job) :
    Nat → List (List Char) → List or_job → Option (List or_job × List (List Char))
  | 0, inbox, or_jobs => some (or_jobs, inbox)
  | _ + 1, [], _ => none
  | n + 1, datagram :: inbox, or_jobs =>
    let r := recvorjob datagram uninit
    if r.1 = (EXIT_FAILURE : Int) then recv_remaining uninit n inbox (or_jobs ++ [r.2])
    else recv_remaining uninit n inbox (or_jobs ++ [r.2])

/-- What one turn of the `while (1)` loop of `main` does. -/
inductive Cycle where
  /-- `recvfrom` waits for a datagram that never comes. -/
  | blocked
  /-- The first `recvorjob` returned `-1`: `continue` (line 120). -/
  | skipped (inbox : List (List Char))
  /-- The count is below 1: `or_jobs[0]` is outside the array of `num_or_jobs`
  elements. -/
  | undefined
  /-- The jobs were computed and `sendresults` was called: its status, the job
  array, the datagrams sent and the datagrams left in the socket. -/
  | served (status : Nat) (or_jobs : List or_job) (sent : List (List Char))
      (inbox : List (List Char))
deriving DecidableEq, Repr

/-- One turn of the `while (1)` loop of `main` (lines 114-152) on the datagrams
waiting in the socket. -/
def main_cycle (uninit : or_job) : List (List Char) → Cycle
  | [] => Cycle.blocked
  | datagram :: inbox =>
    let r := recvorjob datagram uninit
    let num_or_jobs := r.1
    if num_or_jobs = -1 then Cycle.skipped inbox
    else if num_or_jobs < 1 then Cycle.undefined
    else
      match recv_remaining uninit (num_or_jobs.toNat - 1) inbox [r.2] with
      | none => Cycle.blocked
      | some (or_jobs, inbox) =>
        let or_jobs := orcalculation or_jobs num_or_jobs.toNat
        let s := sendresults or_jobs num_or_jobs.toNat
        Cycle.served s.1 or_jobs s.2 inbox

end ServerOr

/-! ## edge.c -/

namespace Edge

/-- Number of bytes received from the client (`CLIENT_RECV_BYTES`). -/
def CLIENT_RECV_BYTES : Nat := 29

/-- Number of bytes sent to a backend server (`BACKEND_SEND_BYTES`). -/
def BACKEND_SEND_BYTES : Nat := 29

/-- Number of bytes received from a backend server (`BACKEND_RECV_BYTES`). -/
def BACKEND_RECV_BYTES : Nat := 14

/-- Number of bytes sent to the client (`CLIENT_SEND_BYTES`). -/
def CLIENT_SEND_BYTES : Nat := 10

/-- Maximum number of bytes used by the operator (`OPERATOR_BYTES`). -/
def OPERATOR_BYTES : Nat := 3

/-- Maximum number of bytes used by an operand (`OPERAND_BYTES`). -/
def OPERAND_BYTES : Nat := 10

/-- Maximum number of bytes used by a result (`RESULT_BYTES`). -/
def RESULT_BYTES : Nat := 10

/-- The struct `job` of edge.c. -/
structure job where
  operator : List Char
  operand1 : List Char
  operand2 : List Char
  result : List Char
deriving DecidableEq, Repr

/-- The two addresses `sendjobs` sends to: `and_addr_ptr` and `or_addr_ptr`. -/
inductive Backend where
  | and_addr
  | or_addr
deriving DecidableEq, Repr

/-- The function `recvjob`, given the bytes `recv` delivers, the previous
contents of `*job_ptr` and the two counters. Returns the value returned (`-1`
on failure, the parsed batch size otherwise), the contents of `*job_ptr`
afterwards (`sscanf` assigns the fields it converts before it fails) and the
counters. The strings and the number are kept as read: this is what the source
holds when the operator has at most `OPERATOR_BYTES` characters, the operands
at most `OPERAND_BYTES` and the batch size fits the `int num_jobs`. -/
def recvjob (received : List Char) (slot : job) (num_and_jobs num_or_jobs : Int) :
    Int × job × Int × Int :=
  if received.length ≠ CLIENT_RECV_BYTES then (-1, slot, num_and_jobs, num_or_jobs)
  else
    match LibC.scan_s (LibC.cstr received) with
    | none => (-1, slot, num_and_jobs, num_or_jobs)
    | some (operator, r1) =>
      match LibC.scan_s r1 with
      | none => (-1, { slot with operator := operator }, num_and_jobs, num_or_jobs)
      | some (operand1, r2) =>
        match LibC.scan_s r2 with
        | none =>
          (-1, { slot with operator := operator, operand1 := operand1 },
            num_and_jobs, num_or_jobs)
        | some (operand2, r3) =>
          let filled : job :=
            { slot with operator := operator, operand1 := operand1, operand2 := operand2 }
          match LibC.scan_d r3 with
          | none => (-1, filled, num_and_jobs, num_or_jobs)
          | some (num_jobs, _) =>
            if operator = ['a', 'n', 'd'] then (num_jobs, filled, num_and_jobs + 1, num_or_jobs)
            else if operator = ['o', 'r'] then (num_jobs, filled, num_and_jobs, num_or_jobs + 1)
            else (-1, filled, num_and_jobs, num_or_jobs)

/-- The loop of `sendjobs` (lines 457-494) from index `i` on, over the jobs
`jobs[i], jobs[i+1], ...`. Returns the status and the datagrams handed to
`sendto`, in order. `sendto` returns the number of bytes it was given. -/
def sendjobs_from (num_and_jobs num_or_jobs : Int) :
    List job → Int → Nat × List (Backend × List Char)
  | [], _ => (EXIT_SUCCESS, [])
  | job :: jobs, i =>
    if job.operator = ['a', 'n', 'd'] then
      let payload := LibC.fmt_s 10 job.operand1 ++ [' '] ++ LibC.fmt_s 10 job.operand2 ++ [' ']
        ++ LibC.fmt_d 3 i ++ [' '] ++ LibC.fmt_d 3 num_and_jobs
      if payload.length ≠ BACKEND_SEND_BYTES then (EXIT_FAILURE, [(Backend.and_addr, payload)])
      else
        let r := sendjobs_from num_and_jobs num_or_jobs jobs (i + 1)
        (r.1, (Backend.and_addr, payload) :: r.2)
    else if job.operator = ['o', 'r'] then
      let payload := LibC.fmt_s 10 job.operand1 ++ [' '] ++ LibC.fmt_s 10 job.operand2 ++ [' ']
        ++ LibC.fmt_d 3 i ++ [' '] ++ LibC.fmt_d 3 num_or_jobs
      if payload.length ≠ BACKEND_SEND_BYTES then (EXIT_FAILURE, [(Backend.or_addr, payload)])
      else
        let r := sendjobs_from num_and_jobs num_or_jobs jobs (i + 1)
        (r.1, (Backend.or_addr, payload) :: r.2)
    else (EXIT_FAILURE, [])

/-- The function `sendjobs` of edge.c. -/
def sendjobs (jobs : List job) (num_jobs num_and_jobs num_or_jobs : Int) :
    Nat × List (Backend × List Char) :=
  sendjobs_from num_and_jobs num_or_jobs (jobs.take num_jobs.toNat) 0

/-- What a call of `recvresults` does. -/
inductive Received where
  /-- It returned: the status, the job array and the datagrams left in the socket. -/
  | returned (status : Nat) (jobs : List job) (inbox : List (List Char))
  /-- The function `recvfrom` waits for a datagram that never comes. -/
  | blocked (jobs : List job)
  /-- The `strcpy` target `jobs[job_number]` lies outside the job array. -/
  | out_of_bounds (job_number : Int) (result : List Char) (jobs : List job)
deriving DecidableEq, Repr

/-- The function `recvresults`: `n` iterations of its loop left, on the
datagrams waiting in the socket (`recvfrom` delivers the next one, whoever
sent it, cut to `BACKEND_RECV_BYTES` bytes) and the job array. -/
def recvresults_loop : Nat → List (List Char) → List job → Received
  | 0, inbox, jobs => Received.returned EXIT_SUCCESS jobs inbox
  | _ + 1, [], jobs => Received.blocked jobs
  | n + 1, datagram :: inbox, jobs =>
    let received := datagram.take BACKEND_RECV_BYTES
    if received.length ≠ BACKEND_RECV_BYTES then Received.returned EXIT_FAILURE jobs inbox
    else
      match LibC.scan_d (LibC.cstr received) with
      | none => Received.returned EXIT_FAILURE jobs inbox
      | some (job_number, r1) =>
        match LibC.scan_s r1 with
        | none => Received.returned EXIT_FAILURE jobs inbox
        | some (result, _) =>
          if 0 ≤ job_number ∧ job_number < jobs.length then
            recvresults_loop n inbox
              (jobs.modify (fun j => { j with result := result }) job_number.toNat)
          else Received.out_of_bounds job_number result jobs

/-- The function `recvresults` of edge.c. -/
def recvresults (num_backend_jobs : Int) (inbox : List (List Char)) (jobs : List job) :
    Received :=
  recvresults_loop num_backend_jobs.toNat inbox jobs

/-- The function `sendresults` of edge.c, over the jobs `jobs[i], jobs[i+1], ...`:
the status and the messages handed to `send`, in order. `send` returns the
number of bytes it was given. -/
def sendresults_from : List job → Nat × List (List Char)
  | [] => (EXIT_SUCCESS, [])
  | job :: jobs =>
    let payload := LibC.fmt_s 10 job.result
    if payload.length ≠ CLIENT_SEND_BYTES then (EXIT_FAILURE, [payload])
    else
      let r := sendresults_from jobs
      (r.1, payload :: r.2)

/-- The function `sendresults` of edge.c. -/
def sendresults (num_jobs : Int) (jobs : List job) : Nat × List (List Char) :=
  sendresults_from (jobs.take num_jobs.toNat)

/-- Where the child process of `main` stops. -/
inductive Ending where
  /-- A call of `recvjob` returned `-1`: `exit(EXIT_FAILURE)` at line 209 or 224. -/
  | recvjob_failed
  /-- The batch size is below 1: `jobs[0]` is outside the array of `num_jobs`
  elements. -/
  | undefined
  /-- The function `sendjobs` returned `EXIT_FAILURE`: exit at line 238. -/
  | sendjobs_failed
  /-- The first or second `recvresults` returned `EXIT_FAILURE`: exit at line 246 or 254. -/
  | recvresults_failed
  /-- The function `recvfrom` waits for a datagram that never comes. -/
  | blocked
  /-- A result was copied outside the job array. -/
  | out_of_bounds
  /-- The function `sendresults` returned `EXIT_FAILURE`: exit at line 280. -/
  | sendresults_failed
  /-- The end of the child is reached: exit at line 284. -/
  | finished
deriving DecidableEq, Repr

/-- What the child process serving one client did: where it stopped, the
datagrams it sent to the backend servers, the job array when it stopped, the
messages it sent to the client. -/
structure Child where
  ending : Ending
  sent : List (Backend × List Char)
  jobs : List job
  replies : List (List Char)
deriving DecidableEq, Repr

/-- The loop of `main` receiving the remaining jobs (lines 218-226), `n`
iterations left, on the messages `recv` will deliver (none left: the client
closed the connection and `recv` returns 0). Every array slot starts as
`uninit`. `none`: a `recvjob` returned `-1`. -/
def recv_remaining (uninit : job) :
    Nat → List (List Char) → List job → Int → Int → Option (List job × Int × Int)
  | 0, _, jobs, num_and_jobs, num_or_jobs => some (jobs, num_and_jobs, num_or_jobs)
  | n + 1, messages, jobs, num_and_jobs, num_or_jobs =>
    let r := recvjob (messages.headD []) uninit num_and_jobs num_or_jobs
    if r.1 = -1 then none
    else recv_remaining uninit n messages.tail (jobs ++ [r.2.1]) r.2.2.1 r.2.2.2

/-- The part of the child process after the jobs are received (lines 233-284):
`sendjobs`, `recvresults` for the AND server, `recvresults` for the OR server,
`sendresults`. `inbox` holds the datagrams that arrive at the datagram socket,
in order of arrival. -/
def route (jobs : List job) (num_jobs num_and_jobs num_or_jobs : Int)
    (inbox : List (List Char)) : Child :=
  let s := sendjobs jobs num_jobs num_and_jobs num_or_jobs
  if s.1 = EXIT_FAILURE then ⟨Ending.sendjobs_failed, s.2, jobs, []⟩
  else
    match recvresults num_and_jobs inbox jobs with
    | Received.blocked jobs => ⟨Ending.blocked, s.2, jobs, []⟩
    | Received.out_of_bounds _ _ jobs => ⟨Ending.out_of_bounds, s.2, jobs, []⟩
    | Received.returned status jobs inbox =>
      if status = EXIT_FAILURE then ⟨Ending.recvresults_failed, s.2, jobs, []⟩
      else
        match recvresults num_or_jobs inbox jobs with
        | Received.blocked jobs => ⟨Ending.blocked, s.2, jobs, []⟩
        | Received.out_of_bounds _ _ jobs => ⟨Ending.out_of_bounds, s.2, jobs, []⟩
        | Received.returned status jobs _ =>
          if status = EXIT_FAILURE then ⟨Ending.recvresults_failed, s.2, jobs, []⟩
          else
            let t := sendresults num_jobs jobs
            if t.1 = EXIT_FAILURE then ⟨Ending.sendresults_failed, s.2, jobs, t.2⟩
            else ⟨Ending.finished, s.2, jobs, t.2⟩

/-- The child process of `main` serving one client (lines 199-284): `messages`
are what the calls of `recv` on the connection deliver, `inbox` the datagrams
that arrive at the datagram socket, `uninit` the contents of a job not yet
written. -/
def child (uninit : job) (messages : List (List Char)) (inbox : List (List Char)) : Child :=
  let r := recvjob (messages.headD []) uninit 0 0
  let num_jobs := r.1
  if num_jobs = -1 then ⟨Ending.recvjob_failed, [], [], []⟩
  else if num_jobs < 1 then ⟨Ending.undefined, [], [], []⟩
  else
    match recv_remaining uninit (num_jobs.toNat - 1) messages.tail [r.2.1] r.2.2.1 r.2.2.2 with
    | none => ⟨Ending.recvjob_failed, [], [], []⟩
    | some (jobs, num_and_jobs, num_or_jobs) =>
      route jobs num_jobs num_and_jobs num_or_jobs inbox

/-- The exit status of the child process: every `exit` of the child, the one at
its end included (line 284), passes `EXIT_FAILURE`. -/
def exit_status : Ending → Option Nat
  | Ending.blocked => none
  | Ending.undefined => none
  | Ending.out_of_bounds => none
  | _ => some EXIT_FAILURE

end Edge

/-! ## client.c -/

namespace Client

/-- Maximum number of rows allowed (`MAX_ROWS`). -/
def MAX_ROWS : Nat := 100

/-- Maximum number of characters in a row allowed (`MAX_ROW_BYTES`). -/
def MAX_ROW_BYTES : Nat := 26

/-- Number of bytes sent to the edge server (`SEND_BYTES`). -/
def SEND_BYTES : Nat := 29

/-- Number of bytes received from the edge server (`RECV_BYTES`). -/
def RECV_BYTES : Nat := 10

/-- The newline character. -/
def newline : Char := Char.ofNat 10

/-- The characters `fgets` stores when it may still read `k` of them: up to
and including the first newline, or `k` characters, or what is left of the
file. Returns them and the rest of the file. -/
def fgets_chars : Nat → List Char → List Char × List Char
  | 0, stream => ([], stream)
  | _ + 1, [] => ([], [])
  | k + 1, c :: stream =>
    if c = newline then ([c], stream)
    else
      let r := fgets_chars k stream
      (c :: r.1, r.2)

/-- The call `fgets(s, n, stream)`: `none` for the NULL it returns at the end
of the file, otherwise the at most `n - 1` characters stored and the rest of
the file. -/
def fgets (n : Nat) (stream : List Char) : Option (List Char × List Char) :=
  if stream = [] then none else some (fgets_chars (n - 1) stream)

/-- The body of the loop of `readjobs` (lines 143-157) on the line `fgets`
stored: the last character of the string is overwritten with NUL, and when the
string is not empty its commas are replaced by spaces and it is kept as a row
(`some`, `i++`); otherwise the slot is reused (`none`). (For a string of length
0 the source writes at index -1; the model leaves the string empty.) -/
def store_row (line : List Char) : Option (List Char) :=
  let row := (LibC.cstr line).dropLast
  if row.length ≠ 0 then some (row.map (fun c => if c = ',' then ' ' else c)) else none

/-- The loop of `readjobs` (lines 141-158) on what is left of the file, with
the rows stored so far. Every turn reads at least one character, so a fuel
above the length of the file is never used up. (The source has no test of `i`
against `MAX_ROWS`; the model keeps every row.) -/
def readjobs_loop : Nat → List Char → List (List Char) → List (List Char)
  | 0, _, rows => rows
  | fuel + 1, stream, rows =>
    match fgets (MAX_ROW_BYTES + 1) stream with
    | none => rows
    | some (line, rest) =>
      match store_row line with
      | some row => readjobs_loop fuel rest (rows ++ [row])
      | none => readjobs_loop fuel rest rows

/-- The function `readjobs`: `none` is a file that cannot be opened. Returns
the value returned (`-1` or the number of jobs) and the rows stored. -/
def readjobs (file : Option (List Char)) : Int × List (List Char) :=
  match file with
  | none => (-1, [])
  | some contents =>
    let rows := readjobs_loop (contents.length + 1) contents []
    ((rows.length : Nat), rows)

/-- The message `sendjobs` of client.c builds with
`sprintf(payload, "%25s %3d", row, num_jobs)`. -/
def job_message (row : List Char) (num_jobs : Int) : List Char :=
  LibC.fmt_s 25 row ++ [' '] ++ LibC.fmt_d 3 num_jobs

/-- The loop of `sendjobs` of client.c over the rows `jobs[j], jobs[j+1], ...`:
the status and the messages handed to `send`, in order. `send` returns the
number of bytes it was given. -/
def sendjobs_from (num_jobs : Int) : List (List Char) → Nat × List (List Char)
  | [] => (EXIT_SUCCESS, [])
  | row :: rows =>
    let payload := job_message row num_jobs
    if payload.length ≠ SEND_BYTES then (EXIT_FAILURE, [payload])
    else
      let r := sendjobs_from num_jobs rows
      (r.1, payload :: r.2)

/-- The function `sendjobs` of client.c. -/
def sendjobs (rows : List (List Char)) (num_jobs : Int) : Nat × List (List Char) :=
  sendjobs_from num_jobs (rows.take num_jobs.toNat)

/-- The receiving loop of `recvresults` of client.c (lines 227-245), `n` turns
left, on what the calls of `recv` deliver (none left: the edge server closed
the connection and `recv` returns 0). Returns the status and the results
read so far. -/
def recvresults_loop : Nat → List (List Char) → List (List Char) → Nat × List (List Char)
  | 0, _, results => (EXIT_SUCCESS, results)
  | n + 1, received, results =>
    let buffer := received.headD []
    if buffer.length ≠ RECV_BYTES then (EXIT_FAILURE, results)
    else
      match LibC.scan_s (LibC.cstr buffer) with
      | none => (EXIT_FAILURE, results)
      | some (result, _) => recvresults_loop n received.tail (results ++ [result])

/-- The function `recvresults` of client.c: the status and the results it read
(it prints them when it reaches its end). -/
def recvresults (received : List (List Char)) (num_jobs : Int) : Nat × List (List Char) :=
  recvresults_loop num_jobs.toNat received []

end Client

/-! ## Reference semantics of the bit-string operations (section 4.1 of the specification) -/

namespace BitSpec

/-- A bit-string: every character is `0` or `1`. -/
def IsBits (s : List Char) : Prop := ∀ c ∈ s, c = '0' ∨ c = '1'

instance (s : List Char) : Decidable (IsBits s) := by unfold IsBits; infer_instance

/-- A bit-string of length 1 to 10, the operands the system accepts. -/
def IsOperand (s : List Char) : Prop := IsBits s ∧ 1 ≤ s.length ∧ s.length ≤ 10

instance (s : List Char) : Decidable (IsOperand s) := by unfold IsOperand; infer_instance

/-- Left-padding with `0` to a given width. -/
def padZeros (w : Nat) (s : List Char) : List Char := List.replicate (w - s.length) '0' ++ s

/-- Canonical form: leading zeros stripped, `"0"` when nothing is left. -/
def canonical (s : List Char) : List Char :=
  match s.dropWhile (· = '0') with
  | [] => ['0']
  | t => t

/-- Character-wise AND of two characters. -/
def charAnd (x y : Char) : Char := if x = '1' ∧ y = '1' then '1' else '0'

/-- Character-wise OR of two characters. -/
def charOr (x y : Char) : Char := if x = '1' ∨ y = '1' then '1' else '0'

/-- The AND of the specification: pad the shorter operand, AND character-wise,
canonicalise. -/
def computeAnd (a b : List Char) : List Char :=
  let w := max a.length b.length
  canonical (List.zipWith charAnd (padZeros w a) (padZeros w b))

/-- The OR of the specification: pad the shorter operand, OR character-wise,
canonicalise. -/
def computeOr (a b : List Char) : List Char :=
  let w := max a.length b.length
  canonical (List.zipWith charOr (padZeros w a) (padZeros w b))

/-- The number a bit-string denotes, most significant bit first. -/
def value (s : List Char) : Nat := s.foldl (fun acc c => 2 * acc + (if c = '1' then 1 else 0)) 0

/-- The binary numeral of a number: no leading zero, `"0"` for zero. -/
def binaryNumeral (n : Nat) : List Char :=
  if n = 0 then ['0'] else ((Nat.digits 2 n).reverse.map (fun d => if d = 1 then '1' else '0'))

end BitSpec

/-! ## Auxiliary definitions for the proofs -/

namespace Emit

/-- One step shared by the three loops of the calculators: given whether the
position holds a one, what is appended to `result` and the new `msb_found`. -/
def step (r : List Char × Bool) (one : Bool) : List Char × Bool :=
  if one then (r.1 ++ ['1'], true) else if r.2 then (r.1 ++ ['0'], r.2) else (r.1, r.2)

/-- The loops as a fold over the positions visited. -/
def run (bits : List Bool) (r : List Char × Bool) : List Char × Bool := bits.foldl step r

/-- The character written for a position. -/
def toChar (one : Bool) : Char := if one then '1' else '0'

/-- The statement after the loops: `"0"` when no one was found. -/
def finish (r : List Char × Bool) : List Char := if !r.2 then r.1 ++ ['0'] else r.1

end Emit

namespace Edge

/-- The four fields `sscanf(buffer, "%s %s %s %d", ...)` converts from a
received message when it returns 4; `none` when it returns anything else. -/
def job_fields (received : List Char) : Option (List Char × List Char × List Char × Int) :=
  match LibC.scan_s (LibC.cstr received) with
  | none => none
  | some (operator, r1) =>
    match LibC.scan_s r1 with
    | none => none
    | some (operand1, r2) =>
      match LibC.scan_s r2 with
      | none => none
      | some (operand2, r3) =>
        match LibC.scan_d r3 with
        | none => none
        | some (num_jobs, _) => some (operator, operand1, operand2, num_jobs)

/-- A job message the router does not accept: it is not a full message of
`CLIENT_RECV_BYTES` bytes, or it does not parse into operator, two operands and
a decimal batch size, or its operator is neither `and` nor `or`. -/
def Malformed (received : List Char) : Prop :=
  received.length ≠ CLIENT_RECV_BYTES ∨ job_fields received = none ∨
    ∃ f, job_fields received = some f ∧ f.1 ≠ ['a', 'n', 'd'] ∧ f.1 ≠ ['o', 'r']

/-- A job message whose fields, when it parses, fit where `recvjob` stores them:
the operator the `OPERATOR_BYTES + 1` bytes of `operator`, the operands the
`OPERAND_BYTES + 1` bytes of `operand1` and `operand2`, the batch size the
`int num_jobs`. -/
def FitsFields (received : List Char) : Prop :=
  match job_fields received with
  | none => True
  | some f =>
    f.1.length ≤ OPERATOR_BYTES ∧ f.2.1.length ≤ OPERAND_BYTES ∧
      f.2.2.1.length ≤ OPERAND_BYTES ∧ LibC.fits_int f.2.2.2

instance (received : List Char) : Decidable (FitsFields received) := by
  unfold FitsFields
  split <;> infer_instance

/-- A well-formed job message: a full message of `CLIENT_RECV_BYTES` bytes that
parses into operator, two operands and a decimal batch size, whose operator is
`and` or `or`, whose operands have at most `OPERAND_BYTES` characters and whose
batch size fits an `int`. -/
def WellFormed (received : List Char) : Prop :=
  received.length = CLIENT_RECV_BYTES ∧
    ∃ f, job_fields received = some f ∧ (f.1 = ['a', 'n', 'd'] ∨ f.1 = ['o', 'r']) ∧
      f.2.1.length ≤ OPERAND_BYTES ∧ f.2.2.1.length ≤ OPERAND_BYTES ∧ LibC.fits_int f.2.2.2

/-- A job message `recvjob` accepts: a full message of `CLIENT_RECV_BYTES` bytes
that parses, whose operator is `and` or `or` and whose batch size is not -1, the
value `recvjob` returns for a failure. -/
def Accepted (received : List Char) : Prop :=
  received.length = CLIENT_RECV_BYTES ∧
    ∃ f, job_fields received = some f ∧ (f.1 = ['a', 'n', 'd'] ∨ f.1 = ['o', 'r']) ∧
      f.2.2.2 ≠ -1

/-- The job a well-formed message becomes in the job array: operator and
operands from the message, the result not yet written. -/
def job_of_message (uninit : job) (received : List Char) : job :=
  match job_fields received with
  | some f => { uninit with operator := f.1, operand1 := f.2.1, operand2 := f.2.2.1 }
  | none => uninit

/-- A job of a valid batch: the operator is `and` or `or`, the operands are
bit-strings of length 1 to 10. -/
def ValidJob (j : job) : Prop :=
  (j.operator = ['a', 'n', 'd'] ∨ j.operator = ['o', 'r']) ∧
    BitSpec.IsOperand j.operand1 ∧ BitSpec.IsOperand j.operand2

instance (j : job) : Decidable (ValidJob j) := by unfold ValidJob; infer_instance

/-- The result the specification asks for a job: the AND or the OR of its
operands, per its operator. -/
def expected (j : job) : List Char :=
  if j.operator = ['a', 'n', 'd'] then BitSpec.computeAnd j.operand1 j.operand2
  else BitSpec.computeOr j.operand1 j.operand2

/-- The number of jobs of a batch with a given operator: what `recvjob` has
counted in `num_and_jobs` and `num_or_jobs` when the batch is received. -/
def count_operator (operator : List Char) (jobs : List job) : Int :=
  (jobs.countP (fun j => j.operator = operator) : Nat)

/-- The datagrams among those sent that went to one backend server, in the
order they were sent. -/
def datagrams_to (b : Backend) (sent : List (Backend × List Char)) : List (List Char) :=
  (sent.filter (fun p => p.1 = b)).map Prod.snd

/-- The two fields `sscanf(buffer, "%d %s", ...)` converts from the datagram
`recvfrom` delivers when it returns 2. -/
def response_fields (datagram : List Char) : Option (Int × List Char) :=
  match LibC.scan_d (LibC.cstr (datagram.take BACKEND_RECV_BYTES)) with
  | none => none
  | some (job_number, r1) =>
    match LibC.scan_s r1 with
    | none => none
    | some (result, _) => some (job_number, result)

/-- The effect of one in-range response on the job array: the `strcpy` of line 532. -/
def store (jobs : List job) (datagram : List Char) : List job :=
  match response_fields datagram with
  | none => jobs
  | some (job_number, result) =>
    jobs.modify (fun j => { j with result := result }) job_number.toNat

/-- The item `sendjobs` builds with `sprintf(payload, "%10s %10s %3d %3d", ...)`. -/
def item_payload (operand1 operand2 : List Char) (i n : Int) : List Char :=
  LibC.fmt_s 10 operand1 ++ [' '] ++ LibC.fmt_s 10 operand2 ++ [' ']
    ++ LibC.fmt_d 3 i ++ [' '] ++ LibC.fmt_d 3 n

/-- The datagram `sendjobs` sends for the job at index `i` of a valid batch. -/
def dispatch (num_and_jobs num_or_jobs : Int) (p : Nat × job) : Backend × List Char :=
  if p.2.operator = ['a', 'n', 'd'] then
    (Backend.and_addr, item_payload p.2.operand1 p.2.operand2 p.1 num_and_jobs)
  else (Backend.or_addr, item_payload p.2.operand1 p.2.operand2 p.1 num_or_jobs)

/-- The response a backend server builds with `sprintf(payload, "%3d %10s", ...)`. -/
def response (job_number : Int) (result : List Char) : List Char :=
  LibC.fmt_d 3 job_number ++ [' '] ++ LibC.fmt_s 10 result

/-- A response as the backend servers send it for a batch of `N` jobs whose
results are given by `R`: the index of a job with the result for that job. -/
def GoodResponse (N : Nat) (R : Nat → List Char) (d : List Char) : Prop :=
  ∃ k, k < N ∧ d = response k (R k)

/-- The jobs of a batch that carry the operator `and`, each with its index in
the batch. -/
def and_items (jobs : List job) : List (Nat × job) :=
  (jobs.enumFrom 0).filter (fun p => decide (p.2.operator = ['a', 'n', 'd']))

/-- The other jobs of a batch, each with its index in the batch. -/
def or_items (jobs : List job) : List (Nat × job) :=
  (jobs.enumFrom 0).filter (fun p => !decide (p.2.operator = ['a', 'n', 'd']))

/-- The results the specification asks for a batch, by index. -/
def expected_at (jobs : List job) (i : Nat) : List Char :=
  match jobs[i]? with
  | some j => expected j
  | none => []

end Edge

namespace ServerAnd

/-- The datagrams the AND server sends in one turn of its loop, given the
datagrams that arrive; none when it does not get to `sendresults`. -/
def responses (uninit : and_job) (inbox : List (List Char)) : List (List Char) :=
  match main_cycle uninit inbox with
  | Cycle.served _ _ sent _ => sent
  | _ => []

end ServerAnd

namespace ServerOr

/-- The datagrams the OR server sends in one turn of its loop, given the
datagrams that arrive; none when it does not get to `sendresults`. -/
def responses (uninit : or_job) (inbox : List (List Char)) : List (List Char) :=
  match main_cycle uninit inbox with
  | Cycle.served _ _ sent _ => sent
  | _ => []

end ServerOr

namespace Client

/-- The contents of a file whose lines are all terminated by a newline. -/
def file_of_lines : List (List Char) → List Char
  | [] => []
  | l :: ls => l ++ newline :: file_of_lines ls

/-- A line of text: no newline and no NUL in it, at most 25 characters. -/
def IsLine (l : List Char) : Prop :=
  (∀ c ∈ l, c ≠ newline) ∧ (∀ c ∈ l, c.toNat ≠ 0) ∧ l.length ≤ 25

instance (l : List Char) : Decidable (IsLine l) := by unfold IsLine; infer_instance

/-- The text of a line with every comma replaced by a space. -/
def commas_to_spaces (l : List Char) : List Char := l.map (fun c => if c = ',' then ' ' else c)

end Client

namespace Edge

/-- The index values the AND server reads (`recvandjob`) from the datagrams
sent to it, in the order they were sent. -/
def and_indices (u1 : ServerAnd.and_job) (sent : List (Backend × List Char)) : List Int :=
  (datagrams_to Backend.and_addr sent).map (fun d => (ServerAnd.recvandjob d u1).2.job_number)

/-- The index values the OR server reads (`recvorjob`) from the datagrams sent
to it, in the order they were sent. -/
def or_indices (u2 : ServerOr.or_job) (sent : List (Backend × List Char)) : List Int :=
  (datagrams_to Backend.or_addr sent).map (fun d => (ServerOr.recvorjob d u2).2.job_number)

/-- The job numbers `recvresults` reads from a list of responses: for each the
index of the job array its result is copied to, `none` for a response that
does not parse. -/
def response_targets (responses : List (List Char)) : List (Option Int) :=
  responses.map (fun d => (response_fields d).map Prod.fst)

end Edge

/-! ## Theorems -/

namespace Emit

theorem run_nil (r : List Char × Bool) : run [] r = r := rfl

theorem run_cons (b : Bool) (bits : List Bool) (r : List Char × Bool) :
    run (b :: bits) r = run bits (step r b) := rfl

theorem run_append (xs ys : List Bool) (r : List Char × Bool) :
    run (xs ++ ys) r = run ys (run xs r) := by
  simp [run, List.foldl_append]

theorem run_found (bits : List Bool) (res : List Char) :
    run bits (res, true) = (res ++ bits.map toChar, true) := by
  induction bits generalizing res with
  | nil => simp [run]
  | cons b bits ih =>
    rw [run_cons]
    cases b <;> simp [step, ih, toChar]

theorem run_not_found (bits : List Bool) (res : List Char) :
    run bits (res, false) =
      if bits.dropWhile (fun b => !b) = [] then (res, false)
      else (res ++ (bits.dropWhile (fun b => !b)).map toChar, true) := by
  induction bits generalizing res with
  | nil => simp [run]
  | cons b bits ih =>
    rw [run_cons]
    cases b
    · simp [step, ih]
    · simp [step, run_found, toChar]

theorem dropWhile_zero_map (bits : List Bool) :
    (bits.map toChar).dropWhile (· = '0') = (bits.dropWhile (fun b => !b)).map toChar := by
  induction bits with
  | nil => rfl
  | cons b bits ih =>
    cases b
    · simpa [toChar, List.dropWhile_cons] using ih
    · simp [toChar, List.dropWhile_cons]

theorem finish_run (bits : List Bool) :
    finish (run bits ([], false)) = BitSpec.canonical (bits.map toChar) := by
  rw [run_not_found, BitSpec.canonical, dropWhile_zero_map]
  cases h : bits.dropWhile (fun b => !b) with
  | nil => simp [finish]
  | cons b rest => simp [finish]

end Emit

namespace CStr

theorem at_eq (s : List Char) (i : Nat) (h : i < s.length) : CStr.at s i = s[i] := by
  simp [CStr.at, List.getD_eq_getElem, h]

theorem drop_eq_at_cons (s : List Char) (i : Nat) (h : i < s.length) :
    s.drop i = CStr.at s i :: s.drop (i + 1) := by
  rw [at_eq s i h]
  exact List.drop_eq_getElem_cons h

end CStr

namespace ServerAnd

theorem and_loop_eq_run (large_op small_op : List Char)
    (hle : small_op.length ≤ large_op.length) :
    ∀ (fuel j : Nat) (result : List Char) (msb_found : Bool),
      large_op.length - small_op.length ≤ j → large_op.length - j ≤ fuel →
      and_loop large_op small_op fuel j result msb_found =
        Emit.run (List.zipWith (fun x y => decide (x = '1') && decide (y = '1'))
          (large_op.drop j) (small_op.drop (j - (large_op.length - small_op.length))))
          (result, msb_found) := by
  intro fuel
  induction fuel with
  | zero =>
    intro j result msb_found _ hf
    have : large_op.length ≤ j := by omega
    simp [and_loop, List.drop_eq_nil_of_le this, Emit.run]
  | succ fuel ih =>
    intro j result msb_found hj hf
    unfold and_loop
    by_cases hlt : j < large_op.length
    · have hs : j - (large_op.length - small_op.length) < small_op.length := by omega
      have hj1 : j + 1 - (large_op.length - small_op.length)
          = j - (large_op.length - small_op.length) + 1 := by omega
      rw [if_pos hlt, CStr.drop_eq_at_cons large_op j hlt, CStr.drop_eq_at_cons small_op _ hs,
        List.zipWith_cons_cons, Emit.run_cons]
      by_cases h1 : CStr.at large_op j = '1' ∧
          CStr.at small_op (j - (large_op.length - small_op.length)) = '1'
      · rw [if_pos h1, ih (j + 1) _ _ (by omega) (by omega), hj1]
        simp [Emit.step, h1.1, h1.2]
      · rw [if_neg h1]
        have hb : (decide (CStr.at large_op j = '1') &&
            decide (CStr.at small_op (j - (large_op.length - small_op.length)) = '1')) = false := by
          simpa using h1
        cases msb_found
        · simp only [Bool.false_eq_true, if_false]
          rw [ih (j + 1) _ _ (by omega) (by omega), hj1]
          simp [Emit.step, hb]
        · simp only [if_true]
          rw [ih (j + 1) _ _ (by omega) (by omega), hj1]
          simp [Emit.step, hb]
    · have : large_op.length ≤ j := by omega
      simp [hlt, List.drop_eq_nil_of_le this, Emit.run]

end ServerAnd

namespace BitSpec

theorem canonical_zeros_append (n : Nat) (t : List Char) :
    canonical (List.replicate n '0' ++ t) = canonical t := by
  induction n with
  | zero => simp
  | succ n ih =>
    have : canonical ('0' :: (List.replicate n '0' ++ t)) = canonical (List.replicate n '0' ++ t) := by
      simp [canonical, List.dropWhile_cons]
    simpa [List.replicate_succ] using this.trans ih

theorem padZeros_of_le (w : Nat) (s : List Char) (h : w ≤ s.length) : padZeros w s = s := by
  simp [padZeros, Nat.sub_eq_zero_of_le h]

theorem length_padZeros (w : Nat) (s : List Char) (h : s.length ≤ w) :
    (padZeros w s).length = w := by
  simp [padZeros]; omega

theorem charAnd_comm (x y : Char) : charAnd x y = charAnd y x := by
  simp [charAnd, and_comm]

theorem charOr_comm (x y : Char) : charOr x y = charOr y x := by
  simp [charOr, or_comm]

theorem zipWith_charAnd_zeros (xs : List Char) (n : Nat) (h : xs.length = n) :
    List.zipWith charAnd xs (List.replicate n '0') = List.replicate n '0' := by
  induction xs generalizing n with
  | nil => subst h; rfl
  | cons x xs ih =>
    subst h
    simp [List.replicate_succ, ih xs.length rfl, charAnd]

theorem zipWith_charOr_zeros (xs : List Char) (n : Nat) (h : xs.length = n) :
    List.zipWith charOr xs (List.replicate n '0') =
      xs.map (fun x => Emit.toChar (decide (x = '1'))) := by
  induction xs generalizing n with
  | nil => subst h; rfl
  | cons x xs ih =>
    subst h
    simp [List.replicate_succ, ih xs.length rfl, charOr, Emit.toChar]

theorem zipWith_comm_of (f : Char → Char → Char) (hf : ∀ x y, f x y = f y x)
    (xs ys : List Char) : List.zipWith f xs ys = List.zipWith f ys xs := by
  induction xs generalizing ys with
  | nil => cases ys <;> rfl
  | cons x xs ih =>
    cases ys with
    | nil => rfl
    | cons y ys => simp [hf x y, ih ys]

/-- The padded AND when the first operand is at least as long as the second. -/
theorem computeAnd_of_ge (a b : List Char) (h : b.length ≤ a.length) :
    computeAnd a b =
      canonical (List.zipWith charAnd (a.drop (a.length - b.length)) b) := by
  have hw : max a.length b.length = a.length := max_eq_left h
  have hsplit : List.zipWith charAnd a (List.replicate (a.length - b.length) '0' ++ b) =
      List.zipWith charAnd (a.take (a.length - b.length)) (List.replicate (a.length - b.length) '0')
        ++ List.zipWith charAnd (a.drop (a.length - b.length)) b := by
    have hd : a.length - b.length ≤ a.length := Nat.sub_le _ _
    generalize a.length - b.length = d at hd
    have hlen : (a.take d).length = (List.replicate d '0').length := by simp; omega
    have := List.zipWith_append charAnd (a.take d) (a.drop d) (List.replicate d '0') b hlen
    rwa [List.take_append_drop] at this
  simp only [computeAnd, hw, padZeros_of_le a.length a le_rfl]
  rw [padZeros, hsplit, zipWith_charAnd_zeros _ _ (by simp), canonical_zeros_append]

theorem computeAnd_comm (a b : List Char) : computeAnd a b = computeAnd b a := by
  simp only [computeAnd, max_comm a.length b.length]
  rw [zipWith_comm_of charAnd charAnd_comm]

/-- The padded OR when the first operand is at least as long as the second. -/
theorem computeOr_of_ge (a b : List Char) (h : b.length ≤ a.length) :
    computeOr a b =
      canonical ((a.take (a.length - b.length)).map (fun x => Emit.toChar (decide (x = '1')))
        ++ List.zipWith charOr (a.drop (a.length - b.length)) b) := by
  have hw : max a.length b.length = a.length := max_eq_left h
  have hsplit : List.zipWith charOr a (List.replicate (a.length - b.length) '0' ++ b) =
      List.zipWith charOr (a.take (a.length - b.length)) (List.replicate (a.length - b.length) '0')
        ++ List.zipWith charOr (a.drop (a.length - b.length)) b := by
    have hd : a.length - b.length ≤ a.length := Nat.sub_le _ _
    generalize a.length - b.length = d at hd
    have hlen : (a.take d).length = (List.replicate d '0').length := by simp; omega
    have := List.zipWith_append charOr (a.take d) (a.drop d) (List.replicate d '0') b hlen
    rwa [List.take_append_drop] at this
  simp only [computeOr, hw, padZeros_of_le a.length a le_rfl]
  rw [padZeros, hsplit, zipWith_charOr_zeros _ _ (by simp)]

theorem computeOr_comm (a b : List Char) : computeOr a b = computeOr b a := by
  simp only [computeOr, max_comm a.length b.length]
  rw [zipWith_comm_of charOr charOr_comm]

end BitSpec

namespace ServerAnd

theorem map_toChar_zipWith_and (xs ys : List Char) :
    (List.zipWith (fun x y => decide (x = '1') && decide (y = '1')) xs ys).map Emit.toChar =
      List.zipWith BitSpec.charAnd xs ys := by
  induction xs generalizing ys with
  | nil => simp
  | cons x xs ih =>
    cases ys with
    | nil => simp
    | cons y ys =>
      simp only [List.zipWith_cons_cons, List.map_cons, ih ys]
      by_cases hx : x = '1' <;> by_cases hy : y = '1' <;> simp [Emit.toChar, BitSpec.charAnd, hx, hy]

theorem and_result_of_ge (a b : List Char) (h : b.length ≤ a.length) :
    and_result a b =
      BitSpec.canonical (List.zipWith BitSpec.charAnd (a.drop (a.length - b.length)) b) := by
  have h1 : a.length ≥ b.length := h
  simp only [and_result, if_pos h1]
  rw [and_loop_eq_run a b h _ _ _ _ le_rfl (by omega)]
  simp only [Nat.sub_self, List.drop_zero]
  exact (Emit.finish_run _).trans (by rw [map_toChar_zipWith_and])

theorem and_result_of_lt (a b : List Char) (h : a.length < b.length) :
    and_result a b =
      BitSpec.canonical (List.zipWith BitSpec.charAnd (b.drop (b.length - a.length)) a) := by
  have h1 : ¬ a.length ≥ b.length := by omega
  simp only [and_result, if_neg h1]
  rw [and_loop_eq_run b a (by omega) _ _ _ _ le_rfl (by omega)]
  simp only [Nat.sub_self, List.drop_zero]
  exact (Emit.finish_run _).trans (by rw [map_toChar_zipWith_and])

/-- The result of the AND loop is the padded, canonicalised character-wise AND,
for all strings. -/
theorem and_result_eq_computeAnd (a b : List Char) :
    and_result a b = BitSpec.computeAnd a b := by
  by_cases h : b.length ≤ a.length
  · rw [and_result_of_ge a b h, BitSpec.computeAnd_of_ge a b h]
  · have h2 : a.length < b.length := by omega
    rw [and_result_of_lt a b h2, BitSpec.computeAnd_comm, BitSpec.computeAnd_of_ge b a (by omega)]

end ServerAnd

namespace CStr

theorem at_take (s : List Char) (d i : Nat) (h : i < d) (hd : d ≤ s.length) :
    CStr.at (s.take d) i = CStr.at s i := by
  rw [at_eq _ _ (by simp; omega), at_eq _ _ (by omega)]
  simp

end CStr

namespace ServerOr

theorem or_lead_loop_eq_run (large_op small_op : List Char) :
    ∀ (fuel j : Nat) (result : List Char) (msb_found : Bool),
      large_op.length - small_op.length - j ≤ fuel →
      or_lead_loop large_op small_op fuel j result msb_found =
        Emit.run ((((large_op.take (large_op.length - small_op.length)).drop j)).map
          (fun x => decide (x = '1'))) (result, msb_found) := by
  have hd : large_op.length - small_op.length ≤ large_op.length := Nat.sub_le _ _
  intro fuel
  induction fuel with
  | zero =>
    intro j result msb_found hf
    have : (large_op.take (large_op.length - small_op.length)).length ≤ j := by simp; omega
    simp [or_lead_loop, List.drop_eq_nil_of_le this, Emit.run]
  | succ fuel ih =>
    intro j result msb_found hf
    unfold or_lead_loop
    by_cases hlt : j < large_op.length - small_op.length
    · have hl : j < (large_op.take (large_op.length - small_op.length)).length := by simp; omega
      rw [if_pos hlt, CStr.drop_eq_at_cons _ j hl, CStr.at_take _ _ _ hlt hd, List.map_cons,
        Emit.run_cons]
      by_cases h1 : CStr.at large_op j = '1'
      · rw [if_pos h1, ih (j + 1) _ _ (by omega)]
        simp [Emit.step, h1]
      · rw [if_neg h1]
        cases msb_found
        · simp only [Bool.false_eq_true, if_false]
          rw [ih (j + 1) _ _ (by omega)]
          simp [Emit.step, h1]
        · simp only [if_true]
          rw [ih (j + 1) _ _ (by omega)]
          simp [Emit.step, h1]
    · have : (large_op.take (large_op.length - small_op.length)).length ≤ j := by simp; omega
      simp [hlt, List.drop_eq_nil_of_le this, Emit.run]

theorem or_loop_eq_run (large_op small_op : List Char)
    (hle : small_op.length ≤ large_op.length) :
    ∀ (fuel j : Nat) (result : List Char) (msb_found : Bool),
      large_op.length - small_op.length ≤ j → large_op.length - j ≤ fuel →
      or_loop large_op small_op fuel j result msb_found =
        Emit.run (List.zipWith (fun x y => decide (x = '1') || decide (y = '1'))
          (large_op.drop j) (small_op.drop (j - (large_op.length - small_op.length))))
          (result, msb_found) := by
  intro fuel
  induction fuel with
  | zero =>
    intro j result msb_found _ hf
    have : large_op.length ≤ j := by omega
    simp [or_loop, List.drop_eq_nil_of_le this, Emit.run]
  | succ fuel ih =>
    intro j result msb_found hj hf
    unfold or_loop
    by_cases hlt : j < large_op.length
    · have hs : j - (large_op.length - small_op.length) < small_op.length := by omega
      have hj1 : j + 1 - (large_op.length - small_op.length)
          = j - (large_op.length - small_op.length) + 1 := by omega
      rw [if_pos hlt, CStr.drop_eq_at_cons large_op j hlt, CStr.drop_eq_at_cons small_op _ hs,
        List.zipWith_cons_cons, Emit.run_cons]
      by_cases h1 : CStr.at large_op j = '1' ∨
          CStr.at small_op (j - (large_op.length - small_op.length)) = '1'
      · rw [if_pos h1, ih (j + 1) _ _ (by omega) (by omega), hj1]
        have hb : (decide (CStr.at large_op j = '1') ||
            decide (CStr.at small_op (j - (large_op.length - small_op.length)) = '1')) = true := by
          simpa using h1
        simp [Emit.step, hb]
      · rw [if_neg h1]
        have hb : (decide (CStr.at large_op j = '1') ||
            decide (CStr.at small_op (j - (large_op.length - small_op.length)) = '1')) = false := by
          simpa using h1
        cases msb_found
        · simp only [Bool.false_eq_true, if_false]
          rw [ih (j + 1) _ _ (by omega) (by omega), hj1]
          simp [Emit.step, hb]
        · simp only [if_true]
          rw [ih (j + 1) _ _ (by omega) (by omega), hj1]
          simp [Emit.step, hb]
    · have : large_op.length ≤ j := by omega
      simp [hlt, List.drop_eq_nil_of_le this, Emit.run]

theorem map_toChar_zipWith_or (xs ys : List Char) :
    (List.zipWith (fun x y => decide (x = '1') || decide (y = '1')) xs ys).map Emit.toChar =
      List.zipWith BitSpec.charOr xs ys := by
  induction xs generalizing ys with
  | nil => simp
  | cons x xs ih =>
    cases ys with
    | nil => simp
    | cons y ys =>
      simp only [List.zipWith_cons_cons, List.map_cons, ih ys]
      by_cases hx : x = '1' <;> by_cases hy : y = '1' <;> simp [Emit.toChar, BitSpec.charOr, hx, hy]

theorem or_loops_of_ge (a b : List Char) (h : b.length ≤ a.length) :
    Emit.finish (or_loop a b a.length (a.length - b.length)
      (or_lead_loop a b (a.length - b.length) 0 [] false).1
      (or_lead_loop a b (a.length - b.length) 0 [] false).2) =
    BitSpec.canonical ((a.take (a.length - b.length)).map (fun x => Emit.toChar (decide (x = '1')))
        ++ List.zipWith BitSpec.charOr (a.drop (a.length - b.length)) b) := by
  rw [or_loop_eq_run a b h _ _ _ _ le_rfl (by omega), Prod.mk.eta,
    or_lead_loop_eq_run a b _ _ _ _ (by omega), ← Emit.run_append]
  simp only [Nat.sub_self, List.drop_zero]
  rw [Emit.finish_run, List.map_append, map_toChar_zipWith_or, List.map_map]
  rfl

/-- The result of the OR loops is the padded, canonicalised character-wise OR,
for all strings. -/
theorem or_result_eq_computeOr (a b : List Char) :
    or_result a b = BitSpec.computeOr a b := by
  by_cases h : b.length ≤ a.length
  · have h1 : a.length ≥ b.length := h
    rw [BitSpec.computeOr_of_ge a b h, ← or_loops_of_ge a b h]
    simp only [or_result, if_pos h1, Emit.finish]
  · have h1 : ¬ a.length ≥ b.length := h
    rw [BitSpec.computeOr_comm, BitSpec.computeOr_of_ge b a (by omega),
      ← or_loops_of_ge b a (by omega)]
    simp only [or_result, if_neg h1, Emit.finish]

end ServerOr

namespace BitSpec

/-- The numeric weight of a character: 1 for `1`, 0 otherwise. -/
theorem value_step_eq_bit (acc : Nat) (c : Char) :
    2 * acc + (if c = '1' then 1 else 0) = Nat.bit (decide (c = '1')) acc := by
  rw [Nat.bit_val]
  by_cases h : c = '1' <;> simp [h]

theorem foldl_value_zipWith_and (x y : List Char) (h : x.length = y.length) (ax ay : Nat) :
    (List.zipWith charAnd x y).foldl (fun acc c => 2 * acc + (if c = '1' then 1 else 0))
        (ax &&& ay) =
      x.foldl (fun acc c => 2 * acc + (if c = '1' then 1 else 0)) ax &&&
      y.foldl (fun acc c => 2 * acc + (if c = '1' then 1 else 0)) ay := by
  induction x generalizing y ax ay with
  | nil => cases y <;> simp_all
  | cons c x ih =>
    cases y with
    | nil => simp at h
    | cons e y =>
      simp only [List.zipWith_cons_cons, List.foldl_cons]
      rw [← ih y (by simpa using h)]
      congr 1
      rw [value_step_eq_bit, value_step_eq_bit, value_step_eq_bit, Nat.land_bit]
      congr 1
      by_cases hc : c = '1' <;> by_cases he : e = '1' <;> simp [charAnd, hc, he]

theorem foldl_value_zipWith_or (x y : List Char) (h : x.length = y.length) (ax ay : Nat) :
    (List.zipWith charOr x y).foldl (fun acc c => 2 * acc + (if c = '1' then 1 else 0))
        (ax ||| ay) =
      x.foldl (fun acc c => 2 * acc + (if c = '1' then 1 else 0)) ax |||
      y.foldl (fun acc c => 2 * acc + (if c = '1' then 1 else 0)) ay := by
  induction x generalizing y ax ay with
  | nil => cases y <;> simp_all
  | cons c x ih =>
    cases y with
    | nil => simp at h
    | cons e y =>
      simp only [List.zipWith_cons_cons, List.foldl_cons]
      rw [← ih y (by simpa using h)]
      congr 1
      rw [value_step_eq_bit, value_step_eq_bit, value_step_eq_bit, Nat.lor_bit]
      congr 1
      by_cases hc : c = '1' <;> by_cases he : e = '1' <;> simp [charOr, hc, he]

theorem value_zipWith_and (x y : List Char) (h : x.length = y.length) :
    value (List.zipWith charAnd x y) = value x &&& value y := by
  have := foldl_value_zipWith_and x y h 0 0
  simpa [value] using this

theorem value_zipWith_or (x y : List Char) (h : x.length = y.length) :
    value (List.zipWith charOr x y) = value x ||| value y := by
  have := foldl_value_zipWith_or x y h 0 0
  simpa [value] using this

theorem value_zeros_append (n : Nat) (s : List Char) :
    value (List.replicate n '0' ++ s) = value s := by
  induction n with
  | zero => simp
  | succ n ih =>
    rw [List.replicate_succ, List.cons_append]
    simpa [value] using ih

theorem value_padZeros (w : Nat) (s : List Char) : value (padZeros w s) = value s :=
  value_zeros_append _ _

theorem value_append_singleton (s : List Char) (c : Char) :
    value (s ++ [c]) = 2 * value s + (if c = '1' then 1 else 0) := by
  simp [value, List.foldl_append]

/-- The value of a string as `Nat.ofDigits` of its reversed digits. -/
theorem value_eq_ofDigits (s : List Char) :
    value s = Nat.ofDigits 2 ((s.map (fun c => if c = '1' then 1 else 0)).reverse) := by
  induction s using List.reverseRecOn with
  | nil => simp [value]
  | append_singleton s c ih =>
    rw [value_append_singleton, ih]
    simp [Nat.ofDigits_cons]
    omega

theorem isBits_cons {c : Char} {s : List Char} :
    IsBits (c :: s) ↔ (c = '0' ∨ c = '1') ∧ IsBits s := by
  simp [IsBits]

theorem canonical_cons_zero (s : List Char) : canonical ('0' :: s) = canonical s := by
  simp [canonical, List.dropWhile_cons]

theorem canonical_cons_one (s : List Char) : canonical ('1' :: s) = '1' :: s := by
  simp [canonical, List.dropWhile_cons]

theorem value_cons_zero (s : List Char) : value ('0' :: s) = value s := by
  simp [value]

theorem binaryNumeral_value_one_cons (s : List Char) (h : IsBits s) :
    binaryNumeral (value ('1' :: s)) = '1' :: s := by
  have hd : Nat.digits 2 (value ('1' :: s)) =
      ((('1' :: s).map (fun c => if c = '1' then 1 else 0)).reverse) := by
    rw [value_eq_ofDigits]
    apply Nat.digits_ofDigits 2 (by norm_num)
    · intro l hl
      simp only [List.mem_reverse, List.mem_map] at hl
      obtain ⟨c, _, rfl⟩ := hl
      split <;> norm_num
    · intro _
      simp [List.getLast_reverse]
  have hne : value ('1' :: s) ≠ 0 := by
    intro h0
    rw [h0] at hd
    simp at hd
  rw [binaryNumeral, if_neg hne, hd, List.reverse_reverse, List.map_map]
  have : ∀ t : List Char, IsBits t →
      t.map ((fun d : Nat => if d = 1 then '1' else '0') ∘ (fun c => if c = '1' then 1 else 0)) = t := by
    intro t ht
    induction t with
    | nil => rfl
    | cons c t ih =>
      rw [isBits_cons] at ht
      rw [List.map_cons, ih ht.2]
      rcases ht.1 with rfl | rfl <;> simp
  exact this _ (isBits_cons.mpr ⟨Or.inr rfl, h⟩)

/-- The binary numeral of the value of a bit-string is its canonical form. -/
theorem binaryNumeral_value (s : List Char) (h : IsBits s) :
    binaryNumeral (value s) = canonical s := by
  induction s with
  | nil => simp [value, binaryNumeral, canonical]
  | cons c s ih =>
    rw [isBits_cons] at h
    rcases h.1 with rfl | rfl
    · rw [value_cons_zero, canonical_cons_zero, ih h.2]
    · rw [canonical_cons_one, binaryNumeral_value_one_cons s h.2]

theorem isBits_zipWith_charAnd (x y : List Char) : IsBits (List.zipWith charAnd x y) := by
  intro c hc
  rw [List.mem_iff_getElem] at hc
  obtain ⟨i, hi, rfl⟩ := hc
  simp only [List.getElem_zipWith, charAnd]
  split <;> simp

theorem isBits_zipWith_charOr (x y : List Char) : IsBits (List.zipWith charOr x y) := by
  intro c hc
  rw [List.mem_iff_getElem] at hc
  obtain ⟨i, hi, rfl⟩ := hc
  simp only [List.getElem_zipWith, charOr]
  split <;> simp

/-- The padded AND is the binary numeral of the AND of the values. -/
theorem computeAnd_eq_numeral (a b : List Char) :
    computeAnd a b = binaryNumeral (value a &&& value b) := by
  have hl : (padZeros (max a.length b.length) a).length
      = (padZeros (max a.length b.length) b).length := by
    rw [length_padZeros _ _ (le_max_left _ _), length_padZeros _ _ (le_max_right _ _)]
  rw [computeAnd, ← binaryNumeral_value _ (isBits_zipWith_charAnd _ _),
    value_zipWith_and _ _ hl, value_padZeros, value_padZeros]

/-- The padded OR is the binary numeral of the OR of the values. -/
theorem computeOr_eq_numeral (a b : List Char) :
    computeOr a b = binaryNumeral (value a ||| value b) := by
  have hl : (padZeros (max a.length b.length) a).length
      = (padZeros (max a.length b.length) b).length := by
    rw [length_padZeros _ _ (le_max_left _ _), length_padZeros _ _ (le_max_right _ _)]
  rw [computeOr, ← binaryNumeral_value _ (isBits_zipWith_charOr _ _),
    value_zipWith_or _ _ hl, value_padZeros, value_padZeros]

end BitSpec

namespace ServerAnd

theorem andcalculation_getElem? (and_jobs : List and_job) (num_and_jobs i : Nat)
    (hi : i < num_and_jobs) :
    (andcalculation and_jobs num_and_jobs)[i]? =
      and_jobs[i]?.map (fun job => { job with result := and_result job.operand1 job.operand2 }) := by
  induction and_jobs generalizing num_and_jobs i with
  | nil => simp [andcalculation]
  | cons job jobs ih =>
    cases num_and_jobs with
    | zero => omega
    | succ n =>
      cases i with
      | zero => simp [andcalculation]
      | succ i => simpa [andcalculation] using ih n i (by omega)

theorem length_andcalculation (and_jobs : List and_job) (num_and_jobs : Nat) :
    (andcalculation and_jobs num_and_jobs).length = and_jobs.length := by
  induction and_jobs generalizing num_and_jobs with
  | nil => simp [andcalculation]
  | cons job jobs ih =>
    cases num_and_jobs with
    | zero => simp [andcalculation]
    | succ n => simp [andcalculation, ih]

end ServerAnd

namespace ServerOr

theorem orcalculation_getElem? (or_jobs : List or_job) (num_or_jobs i : Nat)
    (hi : i < num_or_jobs) :
    (orcalculation or_jobs num_or_jobs)[i]? =
      or_jobs[i]?.map (fun job => { job with result := or_result job.operand1 job.operand2 }) := by
  induction or_jobs generalizing num_or_jobs i with
  | nil => simp [orcalculation]
  | cons job jobs ih =>
    cases num_or_jobs with
    | zero => omega
    | succ n =>
      cases i with
      | zero => simp [orcalculation]
      | succ i => simpa [orcalculation] using ih n i (by omega)

theorem length_orcalculation (or_jobs : List or_job) (num_or_jobs : Nat) :
    (orcalculation or_jobs num_or_jobs).length = or_jobs.length := by
  induction or_jobs generalizing num_or_jobs with
  | nil => simp [orcalculation]
  | cons job jobs ih =>
    cases num_or_jobs with
    | zero => simp [orcalculation]
    | succ n => simp [orcalculation, ih]

end ServerOr

/-! ### The calculators compute the padded, canonical AND and OR -/

/-- C1: for a job with operands `a`, `b` that are bit-strings of length 1 to 10,
`andcalculation` stores as result the canonical form of the character-wise AND
of the operands padded on the left with `0` to a common length, which is also
the binary numeral of `value a AND value b`; the other fields of the job are
left as they were. -/
theorem andcalculation_stores_padded_and (and_jobs : List ServerAnd.and_job)
    (num_and_jobs i : Nat) (job : ServerAnd.and_job)
    (hi : i < num_and_jobs) (hjob : and_jobs[i]? = some job)
    (_ha : BitSpec.IsOperand job.operand1) (_hb : BitSpec.IsOperand job.operand2) :
    (ServerAnd.andcalculation and_jobs num_and_jobs)[i]? =
        some { job with result := BitSpec.computeAnd job.operand1 job.operand2 } ∧
      BitSpec.computeAnd job.operand1 job.operand2 =
        BitSpec.binaryNumeral (BitSpec.value job.operand1 &&& BitSpec.value job.operand2) := by
  refine ⟨?_, BitSpec.computeAnd_eq_numeral _ _⟩
  rw [ServerAnd.andcalculation_getElem? _ _ _ hi, hjob, Option.map_some',
    ServerAnd.and_result_eq_computeAnd]

/-- The scenario `and,1010101,100` of C1: the stored result is `100`. -/
theorem andcalculation_stores_padded_and_witness :
    (ServerAnd.andcalculation [⟨0, "1010101".toList, "100".toList, []⟩] 1)[0]? =
        some ⟨0, "1010101".toList, "100".toList, "100".toList⟩ ∧
      "100".toList = BitSpec.binaryNumeral
        (BitSpec.value "1010101".toList &&& BitSpec.value "100".toList) := by
  have h := andcalculation_stores_padded_and [⟨0, "1010101".toList, "100".toList, []⟩] 1 0
    ⟨0, "1010101".toList, "100".toList, []⟩ (by decide) rfl (by decide) (by decide)
  have hc : BitSpec.computeAnd "1010101".toList "100".toList = "100".toList := by decide
  simp only [hc] at h
  exact h

/-- C2: for a job with operands `a`, `b` that are bit-strings of length 1 to 10,
`orcalculation` stores as result the canonical form of the character-wise OR of
the operands padded on the left with `0` to a common length, which is also the
binary numeral of `value a OR value b`; the other fields of the job are left as
they were. -/
theorem orcalculation_stores_padded_or (or_jobs : List ServerOr.or_job)
    (num_or_jobs i : Nat) (job : ServerOr.or_job)
    (hi : i < num_or_jobs) (hjob : or_jobs[i]? = some job)
    (_ha : BitSpec.IsOperand job.operand1) (_hb : BitSpec.IsOperand job.operand2) :
    (ServerOr.orcalculation or_jobs num_or_jobs)[i]? =
        some { job with result := BitSpec.computeOr job.operand1 job.operand2 } ∧
      BitSpec.computeOr job.operand1 job.operand2 =
        BitSpec.binaryNumeral (BitSpec.value job.operand1 ||| BitSpec.value job.operand2) := by
  refine ⟨?_, BitSpec.computeOr_eq_numeral _ _⟩
  rw [ServerOr.orcalculation_getElem? _ _ _ hi, hjob, Option.map_some',
    ServerOr.or_result_eq_computeOr]

/-- The scenario `or,101,110` of C2: the stored result is `111`. -/
theorem orcalculation_stores_padded_or_witness :
    (ServerOr.orcalculation [⟨0, "101".toList, "110".toList, []⟩] 1)[0]? =
        some ⟨0, "101".toList, "110".toList, "111".toList⟩ ∧
      "111".toList = BitSpec.binaryNumeral
        (BitSpec.value "101".toList ||| BitSpec.value "110".toList) := by
  have h := orcalculation_stores_padded_or [⟨0, "101".toList, "110".toList, []⟩] 1 0
    ⟨0, "101".toList, "110".toList, []⟩ (by decide) rfl (by decide) (by decide)
  have hc : BitSpec.computeOr "101".toList "110".toList = "111".toList := by decide
  simp only [hc] at h
  exact h

namespace BitSpec

theorem canonical_ne_nil (s : List Char) : canonical s ≠ [] := by
  unfold canonical
  split <;> simp_all

theorem canonical_eq_or (s : List Char) :
    canonical s = ['0'] ∨
      (canonical s = s.dropWhile (· = '0') ∧ ∃ c t, canonical s = c :: t ∧ c ≠ '0') := by
  unfold canonical
  cases h : s.dropWhile (· = '0') with
  | nil => left; rfl
  | cons c t =>
    right
    refine ⟨rfl, c, t, rfl, ?_⟩
    have hne : s.dropWhile (· = '0') ≠ [] := by rw [h]; simp
    have := List.head_dropWhile_not (· = '0') s hne
    simpa [h] using this

theorem isBits_canonical (s : List Char) (h : IsBits s) : IsBits (canonical s) := by
  rcases canonical_eq_or s with h0 | ⟨hd, _⟩
  · rw [h0]; decide
  · rw [hd]
    intro c hc
    exact h c ((List.dropWhile_sublist _).subset hc)

theorem length_canonical_le (s : List Char) : (canonical s).length ≤ max 1 s.length := by
  rcases canonical_eq_or s with h0 | ⟨hd, _⟩
  · rw [h0]; simp
  · rw [hd]
    exact le_trans (List.dropWhile_sublist _).length_le (le_max_right _ _)

theorem canonical_leading_zero (s t : List Char) (h : canonical s = '0' :: t) : t = [] := by
  rcases canonical_eq_or s with h0 | ⟨_, c, u, hc, hne⟩
  · rw [h0] at h
    simpa using h.symm
  · rw [hc] at h
    simp only [List.cons.injEq] at h
    exact absurd h.1 hne

theorem canonical_idem (s : List Char) : canonical (canonical s) = canonical s := by
  rcases canonical_eq_or s with h0 | ⟨_, c, u, hc, hne⟩
  · rw [h0]; rfl
  · rw [hc]
    simp [canonical, List.dropWhile_cons, hne]

theorem canonical_zeros (n : Nat) : canonical (List.replicate n '0') = ['0'] := by
  have := canonical_zeros_append n []
  rw [List.append_nil] at this
  exact this.trans (by simp [canonical])

theorem zipWith_charAnd_ones (r : List Char) (h : IsBits r) :
    List.zipWith charAnd r (List.replicate r.length '1') = r := by
  induction r with
  | nil => rfl
  | cons c r ih =>
    rw [isBits_cons] at h
    simp only [List.length_cons, List.replicate_succ, List.zipWith_cons_cons, ih h.2]
    rcases h.1 with rfl | rfl <;> simp [charAnd]

theorem zipWith_charOr_ones (r : List Char) :
    List.zipWith charOr r (List.replicate r.length '1') = List.replicate r.length '1' := by
  induction r with
  | nil => rfl
  | cons c r ih =>
    simp only [List.length_cons, List.replicate_succ, List.zipWith_cons_cons, ih]
    simp [charOr]

theorem zipWith_charOr_zeros_bits (r : List Char) (h : IsBits r) :
    List.zipWith charOr r (List.replicate r.length '0') = r := by
  induction r with
  | nil => rfl
  | cons c r ih =>
    rw [isBits_cons] at h
    simp only [List.length_cons, List.replicate_succ, List.zipWith_cons_cons, ih h.2]
    rcases h.1 with rfl | rfl <;> simp [charOr]

/-- The padded operation on two strings of the same length: no padding. -/
theorem computeAnd_same_length (x y : List Char) (h : x.length = y.length) :
    computeAnd x y = canonical (List.zipWith charAnd x y) := by
  simp [computeAnd, h, padZeros]

theorem computeOr_same_length (x y : List Char) (h : x.length = y.length) :
    computeOr x y = canonical (List.zipWith charOr x y) := by
  simp [computeOr, h, padZeros]

theorem isBits_computeAnd (a b : List Char) : IsBits (computeAnd a b) :=
  isBits_canonical _ (isBits_zipWith_charAnd _ _)

theorem isBits_computeOr (a b : List Char) : IsBits (computeOr a b) :=
  isBits_canonical _ (isBits_zipWith_charOr _ _)

theorem length_computeAnd_le (a b : List Char) (ha : 1 ≤ a.length) (hb : 1 ≤ b.length) :
    (computeAnd a b).length ≤ min a.length b.length := by
  by_cases h : b.length ≤ a.length
  · rw [computeAnd_of_ge a b h]
    refine le_trans (length_canonical_le _) ?_
    simp only [List.length_zipWith, List.length_drop]
    omega
  · rw [computeAnd_comm, computeAnd_of_ge b a (by omega)]
    refine le_trans (length_canonical_le _) ?_
    simp only [List.length_zipWith, List.length_drop]
    omega

theorem length_computeOr_le (a b : List Char) (ha : 1 ≤ a.length) :
    (computeOr a b).length ≤ max a.length b.length := by
  rw [computeOr]
  refine le_trans (length_canonical_le _) ?_
  simp only [List.length_zipWith, length_padZeros _ _ (le_max_left a.length b.length),
    length_padZeros _ _ (le_max_right a.length b.length)]
  have : 1 ≤ max a.length b.length := le_trans ha (le_max_left _ _)
  omega

theorem length_canonical_pos (s : List Char) : 1 ≤ (canonical s).length :=
  List.length_pos.mpr (canonical_ne_nil s)

end BitSpec

/-! ### Shape of the results -/

/-- C4: for bit-strings `a`, `b` of length 1 to 10 the AND result is a non-empty
string over `0`, `1`, has no leading `0` unless it is exactly `"0"`, and its
length is between 1 and `min (len a) (len b)`. -/
theorem and_result_shape (a b : List Char)
    (ha : BitSpec.IsOperand a) (hb : BitSpec.IsOperand b) :
    ServerAnd.and_result a b ≠ [] ∧
      BitSpec.IsBits (ServerAnd.and_result a b) ∧
      (∀ t, ServerAnd.and_result a b = '0' :: t → ServerAnd.and_result a b = ['0']) ∧
      1 ≤ (ServerAnd.and_result a b).length ∧
      (ServerAnd.and_result a b).length ≤ min a.length b.length := by
  rw [ServerAnd.and_result_eq_computeAnd]
  refine ⟨BitSpec.canonical_ne_nil _, BitSpec.isBits_computeAnd a b, ?_,
    BitSpec.length_canonical_pos _, BitSpec.length_computeAnd_le a b ha.2.1 hb.2.1⟩
  intro t ht
  rw [ht, BitSpec.canonical_leading_zero _ t ht]

/-- An instance of C4: `1111111111` and `1` give a result of one character. -/
theorem and_result_shape_witness :
    ServerAnd.and_result "1111111111".toList "1".toList ≠ [] ∧
      BitSpec.IsBits (ServerAnd.and_result "1111111111".toList "1".toList) ∧
      (∀ t, ServerAnd.and_result "1111111111".toList "1".toList = '0' :: t →
        ServerAnd.and_result "1111111111".toList "1".toList = ['0']) ∧
      1 ≤ (ServerAnd.and_result "1111111111".toList "1".toList).length ∧
      (ServerAnd.and_result "1111111111".toList "1".toList).length ≤
        min "1111111111".toList.length "1".toList.length :=
  and_result_shape "1111111111".toList "1".toList (by decide) (by decide)

/-- C5: for bit-strings `a`, `b` of length 1 to 10 the OR result is a non-empty
string over `0`, `1`, has no leading `0` unless it is exactly `"0"`, and its
length is between 1 and `max (len a) (len b)`; with its terminating NUL it fits
the result buffer of `RESULT_BYTES + 1 = 11` bytes. -/
theorem or_result_shape (a b : List Char)
    (ha : BitSpec.IsOperand a) (hb : BitSpec.IsOperand b) :
    ServerOr.or_result a b ≠ [] ∧
      BitSpec.IsBits (ServerOr.or_result a b) ∧
      (∀ t, ServerOr.or_result a b = '0' :: t → ServerOr.or_result a b = ['0']) ∧
      1 ≤ (ServerOr.or_result a b).length ∧
      (ServerOr.or_result a b).length ≤ max a.length b.length ∧
      (ServerOr.or_result a b).length + 1 ≤ ServerOr.RESULT_BYTES + 1 := by
  rw [ServerOr.or_result_eq_computeOr]
  have hlen := BitSpec.length_computeOr_le a b ha.2.1
  refine ⟨BitSpec.canonical_ne_nil _, BitSpec.isBits_computeOr a b, ?_,
    BitSpec.length_canonical_pos _, hlen, ?_⟩
  · intro t ht
    rw [ht, BitSpec.canonical_leading_zero _ t ht]
  · have h1 := ha.2.2
    have h2 := hb.2.2
    have : max a.length b.length ≤ 10 := max_le h1 h2
    simp only [ServerOr.RESULT_BYTES]
    omega

/-- The boundary case of C5: a 10-character operand against a 1-character one. -/
theorem or_result_shape_witness :
    ServerOr.or_result "1000000000".toList "1".toList = "1000000001".toList ∧
      (ServerOr.or_result "1000000000".toList "1".toList).length + 1 ≤
        ServerOr.RESULT_BYTES + 1 :=
  ⟨by decide,
    (or_result_shape "1000000000".toList "1".toList (by decide) (by decide)).2.2.2.2.2⟩

/-! ### Re-running a calculator on its own output -/

/-- C6: for bit-strings `a`, `b` of length 1 to 10, with `r` the AND result of
`(a, b)` and `u` the all-ones string of the length of `r`, the AND result of
`(r, u)` is `r` again. -/
theorem and_result_with_ones (a b : List Char)
    (_ha : BitSpec.IsOperand a) (_hb : BitSpec.IsOperand b) :
    ServerAnd.and_result (ServerAnd.and_result a b)
        (List.replicate (ServerAnd.and_result a b).length '1') =
      ServerAnd.and_result a b := by
  simp only [ServerAnd.and_result_eq_computeAnd]
  rw [BitSpec.computeAnd_same_length _ _ (by simp),
    BitSpec.zipWith_charAnd_ones _ (BitSpec.isBits_computeAnd a b)]
  exact BitSpec.canonical_idem _

/-- An instance of C6: the result `100` of `and,1010101,100` against `111`. -/
theorem and_result_with_ones_witness :
    ServerAnd.and_result "1010101".toList "100".toList = "100".toList ∧
      ServerAnd.and_result "100".toList "111".toList = "100".toList := by
  have h := and_result_with_ones "1010101".toList "100".toList (by decide) (by decide)
  have hr : ServerAnd.and_result "1010101".toList "100".toList = "100".toList := by decide
  rw [hr] at h
  exact ⟨hr, h⟩

/-- C7 fails as stated: the OR result of `(10, 0)` is `r = 10`, and the OR
result of `(r, 11)` is `11`, not `r`. -/
theorem or_result_with_ones_counterexample :
    BitSpec.IsOperand "10".toList ∧ BitSpec.IsOperand "0".toList ∧
      ServerOr.or_result "10".toList "0".toList = "10".toList ∧
      ServerOr.or_result (ServerOr.or_result "10".toList "0".toList)
          (List.replicate (ServerOr.or_result "10".toList "0".toList).length '1') ≠
        ServerOr.or_result "10".toList "0".toList := by
  decide

/-- C7, amended: for bit-strings `a`, `b` of length 1 to 10, with `r` the OR
result of `(a, b)`, `u` the all-ones string and `z` the all-zeros string of the
length of `r`: the OR result of `(r, u)` is `u`, so it is `r` again exactly when
`r` is all ones; the OR result of `(r, z)` is `r` again. -/
theorem or_result_with_ones_amended (a b : List Char)
    (_ha : BitSpec.IsOperand a) (_hb : BitSpec.IsOperand b) :
    ServerOr.or_result (ServerOr.or_result a b)
        (List.replicate (ServerOr.or_result a b).length '1') =
      List.replicate (ServerOr.or_result a b).length '1' ∧
    (ServerOr.or_result (ServerOr.or_result a b)
        (List.replicate (ServerOr.or_result a b).length '1') = ServerOr.or_result a b ↔
      ServerOr.or_result a b = List.replicate (ServerOr.or_result a b).length '1') ∧
    ServerOr.or_result (ServerOr.or_result a b)
        (List.replicate (ServerOr.or_result a b).length '0') =
      ServerOr.or_result a b := by
  have hne : ServerOr.or_result a b ≠ [] := by
    rw [ServerOr.or_result_eq_computeOr]; exact BitSpec.canonical_ne_nil _
  have hu : ServerOr.or_result (ServerOr.or_result a b)
        (List.replicate (ServerOr.or_result a b).length '1') =
      List.replicate (ServerOr.or_result a b).length '1' := by
    generalize ServerOr.or_result a b = r at hne
    rw [ServerOr.or_result_eq_computeOr, BitSpec.computeOr_same_length _ _ (by simp),
      BitSpec.zipWith_charOr_ones]
    cases r with
    | nil => exact absurd rfl hne
    | cons c r => simp [List.replicate_succ, BitSpec.canonical_cons_one]
  refine ⟨hu, ?_, ?_⟩
  · rw [hu]
    exact eq_comm
  · simp only [ServerOr.or_result_eq_computeOr]
    rw [BitSpec.computeOr_same_length _ _ (by simp),
      BitSpec.zipWith_charOr_zeros_bits _ (BitSpec.isBits_computeOr a b)]
    exact BitSpec.canonical_idem _

/-- An instance of the amended C7: `r = 10`, against `11` and against `00`. -/
theorem or_result_with_ones_amended_witness :
    ServerOr.or_result "10".toList "0".toList = "10".toList ∧
      ServerOr.or_result "10".toList "11".toList = "11".toList ∧
      ServerOr.or_result "10".toList "00".toList = "10".toList := by
  have h := or_result_with_ones_amended "10".toList "0".toList (by decide) (by decide)
  have hr : ServerOr.or_result "10".toList "0".toList = "10".toList := by decide
  rw [hr] at h
  exact ⟨hr, h.1, h.2.2⟩

/-! ### Edge cases of the calculators -/

/-- C8: for an all-ones string `a` and a strictly shorter all-zeros string `b`
(lengths 1 to 10) the AND result of `(a, b)` is the single character `"0"`; and
for the operands `("0", "0")` the AND result and the OR result are both `"0"`. -/
theorem and_ones_zeros_is_zero (m n : Nat) (_hn : 1 ≤ n) (hnm : n < m) (_hm : m ≤ 10) :
    ServerAnd.and_result (List.replicate m '1') (List.replicate n '0') = ['0'] ∧
      ServerAnd.and_result ['0'] ['0'] = ['0'] ∧
      ServerOr.or_result ['0'] ['0'] = ['0'] := by
  refine ⟨?_, by decide, by decide⟩
  rw [ServerAnd.and_result_eq_computeAnd,
    BitSpec.computeAnd_of_ge _ _ (by simp; omega)]
  have hlen : ((List.replicate m '1').drop
      ((List.replicate m '1').length - (List.replicate n '0').length)).length = n := by
    simp; omega
  have := BitSpec.zipWith_charAnd_zeros _ n hlen
  rw [this, BitSpec.canonical_zeros]

/-- An instance of C8: `1111` against `00` gives `0`, not `00`. -/
theorem and_ones_zeros_is_zero_witness :
    ServerAnd.and_result "1111".toList "00".toList = "0".toList ∧
      ServerAnd.and_result "0".toList "0".toList = "0".toList ∧
      ServerOr.or_result "0".toList "0".toList = "0".toList :=
  and_ones_zeros_is_zero 4 2 (by decide) (by decide) (by decide)

/-! ### Rejection of malformed job messages -/

namespace Edge

theorem recvjob_of_malformed (received : List Char) (slot : job) (num_and_jobs num_or_jobs : Int)
    (h : Malformed received) : (recvjob received slot num_and_jobs num_or_jobs).1 = -1 := by
  unfold recvjob
  by_cases hlen : received.length ≠ CLIENT_RECV_BYTES
  · rw [if_pos hlen]
  · rw [if_neg hlen]
    rcases h with h | h | ⟨f, hf, hand, hor⟩
    · exact absurd h hlen
    · unfold job_fields at h
      cases h1 : LibC.scan_s (LibC.cstr received) with
      | none => rfl
      | some p1 =>
        obtain ⟨operator, r1⟩ := p1
        simp only [h1] at h ⊢
        cases h2 : LibC.scan_s r1 with
        | none => rfl
        | some p2 =>
          obtain ⟨operand1, r2⟩ := p2
          simp only [h2] at h ⊢
          cases h3 : LibC.scan_s r2 with
          | none => rfl
          | some p3 =>
            obtain ⟨operand2, r3⟩ := p3
            simp only [h3] at h ⊢
            cases h4 : LibC.scan_d r3 with
            | none => rfl
            | some p4 =>
              obtain ⟨n, r4⟩ := p4
              simp only [h4] at h
              exact absurd h (by simp)
    · unfold job_fields at hf
      cases h1 : LibC.scan_s (LibC.cstr received) with
      | none => simp [h1] at hf
      | some p1 =>
        obtain ⟨operator, r1⟩ := p1
        simp only [h1] at hf ⊢
        cases h2 : LibC.scan_s r1 with
        | none => simp [h2] at hf
        | some p2 =>
          obtain ⟨operand1, r2⟩ := p2
          simp only [h2] at hf ⊢
          cases h3 : LibC.scan_s r2 with
          | none => simp [h3] at hf
          | some p3 =>
            obtain ⟨operand2, r3⟩ := p3
            simp only [h3] at hf ⊢
            cases h4 : LibC.scan_d r3 with
            | none => simp [h4] at hf
            | some p4 =>
              obtain ⟨n, r4⟩ := p4
              simp only [h4, Option.some.injEq] at hf ⊢
              subst hf
              simp only at hand hor
              rw [if_neg hand, if_neg hor]

theorem recv_remaining_of_malformed (uninit : job) :
    ∀ (n : Nat) (messages : List (List Char)) (jobs : List job) (num_and_jobs num_or_jobs : Int)
      (k : Nat), k < n → Malformed (messages.getD k []) →
      recv_remaining uninit n messages jobs num_and_jobs num_or_jobs = none := by
  intro n
  induction n with
  | zero => intro _ _ _ _ k hk; omega
  | succ n ih =>
    intro messages jobs num_and_jobs num_or_jobs k hk hbad
    unfold recv_remaining
    by_cases hr : (recvjob (messages.headD []) uninit num_and_jobs num_or_jobs).1 = -1
    · simp only [hr, if_true]
    · simp only [hr, if_false]
      cases k with
      | zero =>
        exfalso
        apply hr
        apply recvjob_of_malformed
        cases messages <;> simpa using hbad
      | succ k =>
        apply ih _ _ _ _ k (by omega)
        cases messages with
        | nil => simpa using hbad
        | cons m ms => simpa using hbad

theorem recvjob_fst_of_fields (received : List Char) (slot : job) (num_and_jobs num_or_jobs : Int)
    (f : List Char × List Char × List Char × Int) (hf : job_fields received = some f) :
    (recvjob received slot num_and_jobs num_or_jobs).1 = -1 ∨
      (recvjob received slot num_and_jobs num_or_jobs).1 = f.2.2.2 := by
  unfold recvjob
  by_cases hlen : received.length ≠ CLIENT_RECV_BYTES
  · rw [if_pos hlen]; left; trivial
  · rw [if_neg hlen]
    unfold job_fields at hf
    cases h1 : LibC.scan_s (LibC.cstr received) with
    | none => simp [h1] at hf
    | some p1 =>
      obtain ⟨operator, r1⟩ := p1
      simp only [h1] at hf ⊢
      cases h2 : LibC.scan_s r1 with
      | none => simp [h2] at hf
      | some p2 =>
        obtain ⟨operand1, r2⟩ := p2
        simp only [h2] at hf ⊢
        cases h3 : LibC.scan_s r2 with
        | none => simp [h3] at hf
        | some p3 =>
          obtain ⟨operand2, r3⟩ := p3
          simp only [h3] at hf ⊢
          cases h4 : LibC.scan_d r3 with
          | none => simp [h4] at hf
          | some p4 =>
            obtain ⟨n, r4⟩ := p4
            simp only [h4, Option.some.injEq] at hf ⊢
            subst hf
            by_cases hand : operator = ['a', 'n', 'd']
            · right; simp [hand]
            · by_cases hor : operator = ['o', 'r']
              · right; simp [hor]
              · left; simp [hand, hor]

end Edge

/-- C9: if a job message of a session is malformed (it does not parse into
operator, two operands and a decimal batch size, or is not a full message) or
carries an operator other than `and`, `or`, the child process serving the
session stops at a failed `recvjob` with `exit(EXIT_FAILURE)`: `sendjobs` is not
reached, no datagram is sent to a backend server and nothing is sent to the
client. The messages of a session are the first one and, when the first one
declares the batch size `n`, the `n - 1` that follow. The messages received
before the malformed one are those the source stores as read: their fields fit
the arrays of `struct job` and their batch size fits the `int num_jobs`; in
particular the batch size `n` the first message declares is at most
2147483647. -/
theorem child_rejects_malformed_message (uninit : Edge.job) (messages inbox : List (List Char))
    (k : Nat)
    (hk : k = 0 ∨ ∃ f, Edge.job_fields (messages.headD []) = some f ∧ (k : Int) < f.2.2.2)
    (_hfit : ∀ i, i < k → Edge.FitsFields (messages.getD i []))
    (hbad : Edge.Malformed (messages.getD k [])) :
    Edge.child uninit messages inbox = ⟨Edge.Ending.recvjob_failed, [], [], []⟩ ∧
      Edge.exit_status (Edge.child uninit messages inbox).ending = some EXIT_FAILURE := by
  have key : Edge.child uninit messages inbox = ⟨Edge.Ending.recvjob_failed, [], [], []⟩ := by
    unfold Edge.child
    by_cases h0 : (Edge.recvjob (messages.headD []) uninit 0 0).1 = -1
    · simp only [h0, if_true]
    · simp only [h0, if_false]
      have hk0 : k ≠ 0 := by
        rintro rfl
        apply h0
        apply Edge.recvjob_of_malformed
        cases messages <;> simpa using hbad
      rcases hk with hk | ⟨f, hf, hlt⟩
      · exact absurd hk hk0
      · have hn : (Edge.recvjob (messages.headD []) uninit 0 0).1 = f.2.2.2 := by
          rcases Edge.recvjob_fst_of_fields _ uninit 0 0 f hf with h | h
          · exact absurd h h0
          · exact h
        obtain ⟨k, rfl⟩ := Nat.exists_eq_succ_of_ne_zero hk0
        have h1 : ¬ (Edge.recvjob (messages.headD []) uninit 0 0).1 < 1 := by
          rw [hn]; omega
        simp only [h1, if_false]
        have hbad2 : Edge.Malformed (messages.tail.getD k []) := by
          cases messages with
          | nil => simpa using hbad
          | cons m ms => simpa using hbad
        rw [Edge.recv_remaining_of_malformed uninit _ _ _ _ _ k (by rw [hn]; omega) hbad2]
  rw [key]
  exact ⟨rfl, rfl⟩

/-- An instance of C9: a batch of three whose third message carries the
operator `xor` is rejected before anything is sent to a backend server. -/
theorem child_rejects_malformed_message_witness :
    Edge.child ⟨[], [], [], []⟩
        [Client.job_message "and 1111 1".toList 3, Client.job_message "or 0 0".toList 3,
          Client.job_message "xor 1 1".toList 3] [] =
      ⟨Edge.Ending.recvjob_failed, [], [], []⟩ ∧
    Edge.exit_status (Edge.child ⟨[], [], [], []⟩
        [Client.job_message "and 1111 1".toList 3, Client.job_message "or 0 0".toList 3,
          Client.job_message "xor 1 1".toList 3] []).ending = some EXIT_FAILURE :=
  child_rejects_malformed_message ⟨[], [], [], []⟩
    [Client.job_message "and 1111 1".toList 3, Client.job_message "or 0 0".toList 3,
      Client.job_message "xor 1 1".toList 3] [] 2
    (Or.inr ⟨("and".toList, "1111".toList, "1".toList, 3), by decide, by decide⟩)
    (fun i hi =>
      match i, hi with
      | 0, _ => by decide
      | 1, _ => by decide
      | i + 2, h => absurd h (by omega))
    (Or.inr (Or.inr ⟨("xor".toList, "1".toList, "1".toList, 3), by decide, by decide, by decide⟩))

/-! ### Scanning what was formatted -/

namespace LibC

theorem takeWhile_append_stop (p : Char → Bool) (w rest : List Char)
    (hw : ∀ c ∈ w, p c = true) (hrest : ∀ c, rest.head? = some c → p c = false) :
    (w ++ rest).takeWhile p = w ∧ (w ++ rest).dropWhile p = rest := by
  induction w with
  | nil =>
    cases rest with
    | nil => simp
    | cons c rest =>
      have := hrest c rfl
      simp [List.takeWhile_cons, List.dropWhile_cons, this]
  | cons c w ih =>
    have hc : p c = true := hw c (List.mem_cons_self _ _)
    have := ih (fun d hd => hw d (List.mem_cons_of_mem _ hd))
    simp [List.takeWhile_cons, List.dropWhile_cons, hc, this.1, this.2]

theorem skip_space_blanks (k : Nat) (t : List Char) :
    skip_space (List.replicate k ' ' ++ t) = skip_space t := by
  induction k with
  | zero => simp
  | succ k ih =>
    have hs : isspace ' ' = true := by decide
    unfold skip_space at ih ⊢
    rw [List.replicate_succ, List.cons_append, List.dropWhile_cons, hs]
    exact ih

theorem skip_space_of_head (c : Char) (t : List Char) (h : isspace c = false) :
    skip_space (c :: t) = c :: t := by
  simp [skip_space, List.dropWhile_cons, h]

/-- Scanning `%s` over blanks, a word without white space, and a rest that is
empty or starts with white space yields the word and the rest. -/
theorem scan_s_justified (k : Nat) (w rest : List Char) (hne : w ≠ [])
    (hw : ∀ c ∈ w, isspace c = false) (hrest : ∀ c, rest.head? = some c → isspace c = true) :
    scan_s (List.replicate k ' ' ++ (w ++ rest)) = some (w, rest) := by
  obtain ⟨c, w', rfl⟩ := List.exists_cons_of_ne_nil hne
  have hc : isspace c = false := hw c (List.mem_cons_self _ _)
  have h := takeWhile_append_stop (fun c => !isspace c) (c :: w') rest
    (by intro d hd; simp [hw d hd]) (by intro d hd; simp [hrest d hd])
  unfold scan_s
  rw [skip_space_blanks, List.cons_append, skip_space_of_head c _ hc]
  simp only [reduceCtorEq, if_false]
  rw [← List.cons_append, h.1, h.2]

theorem scan_d_justified (k : Nat) (ds rest : List Char) (hne : ds ≠ [])
    (hds : ∀ c ∈ ds, isdigit c = true) (hrest : ∀ c, rest.head? = some c → isdigit c = false) :
    scan_d (List.replicate k ' ' ++ (ds ++ rest)) = some ((digits_value ds : Int), rest) := by
  obtain ⟨c, ds', rfl⟩ := List.exists_cons_of_ne_nil hne
  have hc : isdigit c = true := hds c (List.mem_cons_self _ _)
  have hsp : isspace c = false := by
    simp only [isdigit, Bool.and_eq_true, decide_eq_true_eq] at hc
    simp only [isspace, Bool.or_eq_false_iff, Bool.and_eq_false_imp, decide_eq_true_eq,
      decide_eq_false_iff_not]
    omega
  have hminus : c ≠ '-' := by
    rintro rfl
    exact absurd hc (by decide)
  have hplus : c ≠ '+' := by
    rintro rfl
    exact absurd hc (by decide)
  have h := takeWhile_append_stop isdigit (c :: ds') rest hds hrest
  unfold scan_d
  rw [skip_space_blanks, List.cons_append, skip_space_of_head c _ hsp]
  have : (match c :: (ds' ++ rest) with
      | '-' :: u => scan_digits true u
      | '+' :: u => scan_digits false u
      | t => scan_digits false t) = scan_digits false (c :: (ds' ++ rest)) := by
    split
    · rename_i heq; simp only [List.cons.injEq] at heq; exact absurd heq.1 hminus
    · rename_i heq; simp only [List.cons.injEq] at heq; exact absurd heq.1 hplus
    · rfl
  rw [this, scan_digits, ← List.cons_append, h.1, h.2]
  simp

theorem cstr_append (x y : List Char) (hx : ∀ c ∈ x, c.toNat ≠ 0) :
    cstr (x ++ y) = x ++ cstr y := by
  induction x with
  | nil => rfl
  | cons c x ih =>
    have hc : c.toNat ≠ 0 := hx c (List.mem_cons_self _ _)
    have ih2 := ih (fun d hd => hx d (List.mem_cons_of_mem _ hd))
    simp only [cstr, List.cons_append, List.takeWhile_cons] at ih2 ⊢
    rw [ih2]
    simp [hc]

theorem cstr_of_no_nul (x : List Char) (hx : ∀ c ∈ x, c.toNat ≠ 0) : cstr x = x := by
  have := cstr_append x [] hx
  simpa [cstr] using this

set_option maxRecDepth 100000 in
/-- The decimal numerals of the numbers below 1000: at most three digits that
scan back to the number. -/
theorem toDigits_facts : ∀ n < 1000, (Nat.toDigits 10 n ≠ [] ∧ (Nat.toDigits 10 n).length ≤ 3 ∧
    (Nat.toDigits 10 n).all isdigit = true ∧ digits_value (Nat.toDigits 10 n) = n) := by
  decide

theorem decimal_natCast (n : Nat) : decimal (n : Int) = Nat.toDigits 10 n := by
  simp [decimal]

theorem length_justify (w : Nat) (s : List Char) (h : s.length ≤ w) :
    (justify w s).length = w := by
  simp [justify]; omega

theorem length_fmt_d (n : Nat) (h : n < 1000) : (fmt_d 3 (n : Int)).length = 3 := by
  rw [fmt_d, decimal_natCast]
  exact length_justify _ _ (toDigits_facts n h).2.1

theorem length_fmt_s (w : Nat) (s : List Char) (h : s.length ≤ w) : (fmt_s w s).length = w :=
  length_justify w s h

/-- Scanning `%d` over a number below 1000 written with `%3d`, followed by a
rest that is empty or starts with a non-digit. -/
theorem scan_d_fmt_d (n : Nat) (h : n < 1000) (rest : List Char)
    (hrest : ∀ c, rest.head? = some c → isdigit c = false) :
    scan_d (fmt_d 3 (n : Int) ++ rest) = some ((n : Int), rest) := by
  obtain ⟨hne, _, hall, hval⟩ := toDigits_facts n h
  rw [fmt_d, decimal_natCast, justify, List.append_assoc,
    scan_d_justified _ _ _ hne (by simpa using hall) hrest, hval]

/-- The same after the blank that separates two fields. -/
theorem scan_d_blank_fmt_d (n : Nat) (h : n < 1000) (rest : List Char)
    (hrest : ∀ c, rest.head? = some c → isdigit c = false) :
    scan_d (' ' :: (fmt_d 3 (n : Int) ++ rest)) = some ((n : Int), rest) := by
  obtain ⟨hne, _, hall, hval⟩ := toDigits_facts n h
  have := scan_d_justified (3 - (Nat.toDigits 10 n).length + 1) _ rest hne
    (by simpa using hall) hrest
  rw [hval] at this
  rw [← this, fmt_d, decimal_natCast, justify, List.replicate_succ]
  simp

theorem scan_s_fmt_s (w : Nat) (s rest : List Char) (hne : s ≠ [])
    (hs : ∀ c ∈ s, isspace c = false) (hrest : ∀ c, rest.head? = some c → isspace c = true) :
    scan_s (fmt_s w s ++ rest) = some (s, rest) := by
  rw [fmt_s, justify, List.append_assoc]
  exact scan_s_justified _ _ _ hne hs hrest

theorem scan_s_blank_fmt_s (w : Nat) (s rest : List Char) (hne : s ≠ [])
    (hs : ∀ c ∈ s, isspace c = false) (hrest : ∀ c, rest.head? = some c → isspace c = true) :
    scan_s (' ' :: (fmt_s w s ++ rest)) = some (s, rest) := by
  have := scan_s_justified (w - s.length + 1) s rest hne hs hrest
  rw [← this, fmt_s, justify, List.replicate_succ]
  simp

end LibC

/-! ### The wire formats -/

namespace BitSpec

theorem IsBits.not_space {s : List Char} (h : IsBits s) : ∀ c ∈ s, LibC.isspace c = false := by
  intro c hc
  rcases h c hc with rfl | rfl <;> decide

theorem IsBits.no_nul {s : List Char} (h : IsBits s) : ∀ c ∈ s, c.toNat ≠ 0 := by
  intro c hc
  rcases h c hc with rfl | rfl <;> decide

theorem IsOperand.ne_nil {s : List Char} (h : IsOperand s) : s ≠ [] := by
  intro h0
  have := h.2.1
  rw [h0] at this
  simp at this

end BitSpec

namespace LibC

theorem no_nul_justify (w : Nat) (s : List Char) (hs : ∀ c ∈ s, c.toNat ≠ 0) :
    ∀ c ∈ justify w s, c.toNat ≠ 0 := by
  intro c hc
  simp only [justify, List.mem_append, List.mem_replicate] at hc
  rcases hc with ⟨_, rfl⟩ | hc
  · decide
  · exact hs c hc

theorem no_nul_fmt_d (n : Nat) (h : n < 1000) : ∀ c ∈ fmt_d 3 (n : Int), c.toNat ≠ 0 := by
  rw [fmt_d, decimal_natCast]
  apply no_nul_justify
  intro c hc
  have hall := (toDigits_facts n h).2.2.1
  rw [List.all_eq_true] at hall
  have := hall c hc
  simp only [isdigit, Bool.and_eq_true, decide_eq_true_eq] at this
  omega

theorem head_blank_not_digit (t : List Char) :
    ∀ c, (' ' :: t).head? = some c → isdigit c = false := by
  intro c hc
  simp only [List.head?_cons, Option.some.injEq] at hc
  subst hc
  decide

theorem head_blank_space (t : List Char) :
    ∀ c, (' ' :: t).head? = some c → isspace c = true := by
  intro c hc
  simp only [List.head?_cons, Option.some.injEq] at hc
  subst hc
  decide

theorem head_nil_any (p : Char → Prop) : ∀ c, ([] : List Char).head? = some c → p c := by
  intro c hc
  simp at hc

end LibC

namespace Edge

theorem item_payload_eq (a b : List Char) (i n : Int) :
    item_payload a b i n =
      LibC.fmt_s 10 a ++ (' ' :: (LibC.fmt_s 10 b ++ (' ' :: (LibC.fmt_d 3 i ++
        (' ' :: (LibC.fmt_d 3 n ++ [])))))) := by
  simp [item_payload]

theorem length_item_payload (a b : List Char) (i n : Nat)
    (ha : a.length ≤ 10) (hb : b.length ≤ 10) (hi : i < 1000) (hn : n < 1000) :
    (item_payload a b i n).length = 29 := by
  simp only [item_payload, List.length_append, LibC.length_fmt_s 10 a ha,
    LibC.length_fmt_s 10 b hb, LibC.length_fmt_d i hi, LibC.length_fmt_d n hn,
    List.length_singleton]

theorem no_nul_item_payload (a b : List Char) (i n : Nat)
    (ha : BitSpec.IsBits a) (hb : BitSpec.IsBits b) (hi : i < 1000) (hn : n < 1000) :
    ∀ c ∈ item_payload a b i n, c.toNat ≠ 0 := by
  intro c hc
  simp only [item_payload, List.mem_append, List.mem_singleton] at hc
  rcases hc with (((((hc | rfl) | hc) | rfl) | hc) | rfl) | hc
  · exact LibC.no_nul_justify 10 a ha.no_nul c hc
  · decide
  · exact LibC.no_nul_justify 10 b hb.no_nul c hc
  · decide
  · exact LibC.no_nul_fmt_d i hi c hc
  · decide
  · exact LibC.no_nul_fmt_d n hn c hc

/-- The four conversions of `sscanf(buffer, "%s %s %d %d", ...)` on an item. -/
theorem scan_item_payload (a b : List Char) (i n : Nat)
    (ha : BitSpec.IsOperand a) (hb : BitSpec.IsOperand b) (hi : i < 1000) (hn : n < 1000) :
    ∃ r1 r2 r3,
      LibC.scan_s (LibC.cstr ((item_payload a b i n).take 29)) = some (a, r1) ∧
      LibC.scan_s r1 = some (b, r2) ∧
      LibC.scan_d r2 = some ((i : Int), r3) ∧
      LibC.scan_d r3 = some ((n : Int), []) := by
  have hlen := length_item_payload a b i n ha.2.2 hb.2.2 hi hn
  have htake : (item_payload a b i n).take 29 = item_payload a b i n :=
    List.take_of_length_le (by omega)
  rw [htake, LibC.cstr_of_no_nul _ (no_nul_item_payload a b i n ha.1 hb.1 hi hn), item_payload_eq]
  refine ⟨_, _, _, LibC.scan_s_fmt_s 10 a _ ha.ne_nil ha.1.not_space (LibC.head_blank_space _),
    LibC.scan_s_blank_fmt_s 10 b _ hb.ne_nil hb.1.not_space (LibC.head_blank_space _),
    LibC.scan_d_blank_fmt_d i hi _ (LibC.head_blank_not_digit _),
    LibC.scan_d_blank_fmt_d n hn _ (LibC.head_nil_any _)⟩

theorem length_response (i : Nat) (r : List Char) (hi : i < 1000) (hr : r.length ≤ 10) :
    (response i r).length = 14 := by
  simp only [response, List.length_append, LibC.length_fmt_s 10 r hr, LibC.length_fmt_d i hi,
    List.length_singleton]

end Edge

/-! ### One turn of the AND server on the items of a cohort -/

namespace ServerAnd

theorem recvandjob_item (a b : List Char) (i n : Nat) (slot : and_job)
    (ha : BitSpec.IsOperand a) (hb : BitSpec.IsOperand b) (hi : i < 1000) (hn : n < 1000) :
    recvandjob (Edge.item_payload a b i n) slot = ((n : Int), ⟨(i : Int), a, b, slot.result⟩) := by
  obtain ⟨r1, r2, r3, h1, h2, h3, h4⟩ := Edge.scan_item_payload a b i n ha hb hi hn
  have hlen : ((Edge.item_payload a b i n).take RECV_BYTES).length = RECV_BYTES := by
    rw [List.length_take, Edge.length_item_payload a b i n ha.2.2 hb.2.2 hi hn]
    decide
  unfold recvandjob
  simp only [hlen, ne_eq, not_true_eq_false, if_false]
  have h1' : LibC.scan_s (LibC.cstr ((Edge.item_payload a b i n).take RECV_BYTES))
      = some (a, r1) := h1
  rw [h1']
  simp only [h2, h3, h4]

/-- The job an item becomes in the array of the server. -/
theorem recv_remaining_and_items (uninit : and_job) (n : Nat) (hn : n < 1000) :
    ∀ (items : List (Nat × Edge.job)) (rest : List (List Char)) (acc : List and_job),
      (∀ p ∈ items, p.1 < 1000 ∧ BitSpec.IsOperand p.2.operand1 ∧
        BitSpec.IsOperand p.2.operand2) →
      recv_remaining uninit items.length
          (items.map (fun p => Edge.item_payload p.2.operand1 p.2.operand2 p.1 n) ++ rest) acc =
        some (acc ++ items.map
          (fun p => (⟨(p.1 : Int), p.2.operand1, p.2.operand2, uninit.result⟩ : and_job)), rest) := by
  intro items
  induction items with
  | nil => intro rest acc _; simp [recv_remaining]
  | cons p items ih =>
    intro rest acc h
    have hp := h p (List.mem_cons_self _ _)
    simp only [List.length_cons, List.map_cons, List.cons_append, recv_remaining]
    rw [recvandjob_item _ _ _ _ uninit hp.2.1 hp.2.2 hp.1 hn]
    simp only [ite_self, List.append_eq]
    rw [ih rest _ (fun q hq => h q (List.mem_cons_of_mem _ hq))]
    simp

theorem andcalculation_all (l : List and_job) :
    andcalculation l l.length =
      l.map (fun job => { job with result := and_result job.operand1 job.operand2 }) := by
  induction l with
  | nil => rfl
  | cons job l ih => simp [andcalculation, ih]

theorem sendresults_and_all (l : List and_job)
    (h : ∀ job ∈ l, ∃ i : Nat, i < 1000 ∧ job.job_number = (i : Int) ∧ job.result.length ≤ 10) :
    sendresults l l.length =
      (EXIT_SUCCESS, l.map (fun job => Edge.response job.job_number job.result)) := by
  induction l with
  | nil => rfl
  | cons job l ih =>
    obtain ⟨i, hi, hnum, hlen⟩ := h job (List.mem_cons_self _ _)
    have hl : (LibC.fmt_d 3 job.job_number ++ [' '] ++ LibC.fmt_s 10 job.result).length
        = SEND_BYTES := by
      have := Edge.length_response i job.result hi hlen
      rw [Edge.response, ← hnum] at this
      exact this
    simp only [List.length_cons, sendresults, hl, ne_eq, not_true_eq_false, if_false,
      ih (fun q hq => h q (List.mem_cons_of_mem _ hq)), List.map_cons, Edge.response]

/-- One turn of the server on the items of a cohort of `n >= 1` jobs, received
in the order given: one response per item, carrying the index of the item and
the result for its operands. -/
theorem main_cycle_and_items (uninit : and_job) (items : List (Nat × Edge.job))
    (hne : items ≠ []) (hn : items.length < 1000)
    (h : ∀ p ∈ items, p.1 < 1000 ∧ BitSpec.IsOperand p.2.operand1 ∧
        BitSpec.IsOperand p.2.operand2) :
    main_cycle uninit
        (items.map (fun p => Edge.item_payload p.2.operand1 p.2.operand2 p.1 items.length)) =
      Cycle.served EXIT_SUCCESS
        (items.map (fun p => (⟨(p.1 : Int), p.2.operand1, p.2.operand2,
          BitSpec.computeAnd p.2.operand1 p.2.operand2⟩ : and_job)))
        (items.map (fun p => Edge.response p.1 (BitSpec.computeAnd p.2.operand1 p.2.operand2)))
        [] := by
  obtain ⟨p, items', rfl⟩ := List.exists_cons_of_ne_nil hne
  have hp := h p (List.mem_cons_self _ _)
  have hrest := recv_remaining_and_items uninit (p :: items').length hn items' []
    [⟨(p.1 : Int), p.2.operand1, p.2.operand2, uninit.result⟩]
    (fun q hq => h q (List.mem_cons_of_mem _ hq))
  rw [List.append_nil] at hrest
  have hcount : ((((p :: items').length : Nat) : Int)).toNat - 1 = items'.length := by
    simp
  have hcount2 : ((((p :: items').length : Nat) : Int)).toNat =
      ([(⟨(p.1 : Int), p.2.operand1, p.2.operand2, uninit.result⟩ : and_job)] ++ items'.map
          (fun p => (⟨(p.1 : Int), p.2.operand1, p.2.operand2, uninit.result⟩ : and_job))).length := by
    simp
  have h1 : ¬ ((((p :: items').length : Nat) : Int) = -1) := by omega
  have h2 : ¬ ((((p :: items').length : Nat) : Int) < 1) := by
    simp only [List.length_cons]; omega
  simp only [List.map_cons, main_cycle]
  rw [recvandjob_item _ _ _ _ uninit hp.2.1 hp.2.2 hp.1 hn]
  simp only [h1, h2, if_false, hcount, hrest]
  rw [hcount2, andcalculation_all]
  have hs := sendresults_and_all
    (([(⟨(p.1 : Int), p.2.operand1, p.2.operand2, uninit.result⟩ : and_job)] ++ items'.map
      (fun p => (⟨(p.1 : Int), p.2.operand1, p.2.operand2, uninit.result⟩ : and_job))).map
      (fun job => { job with result := and_result job.operand1 job.operand2 })) (by
    intro job hjob
    simp only [List.singleton_append, List.map_cons, List.map_map, List.mem_cons,
      List.mem_map, Function.comp_apply] at hjob
    rcases hjob with rfl | ⟨q, hq, rfl⟩
    · refine ⟨p.1, hp.1, rfl, ?_⟩
      simp only [and_result_eq_computeAnd]
      exact le_trans (BitSpec.length_computeAnd_le _ _ hp.2.1.2.1 hp.2.2.2.1)
        (le_trans (min_le_left _ _) hp.2.1.2.2)
    · have hq' := h q (List.mem_cons_of_mem _ hq)
      refine ⟨q.1, hq'.1, rfl, ?_⟩
      simp only [and_result_eq_computeAnd]
      exact le_trans (BitSpec.length_computeAnd_le _ _ hq'.2.1.2.1 hq'.2.2.2.1)
        (le_trans (min_le_left _ _) hq'.2.1.2.2))
  rw [List.length_map] at hs
  rw [hs]
  simp [and_result_eq_computeAnd, Function.comp_def]

theorem responses_and_items (uninit : and_job) (items : List (Nat × Edge.job))
    (hn : items.length < 1000)
    (h : ∀ p ∈ items, p.1 < 1000 ∧ BitSpec.IsOperand p.2.operand1 ∧
        BitSpec.IsOperand p.2.operand2) :
    responses uninit
        (items.map (fun p => Edge.item_payload p.2.operand1 p.2.operand2 p.1 items.length)) =
      items.map (fun p => Edge.response p.1 (BitSpec.computeAnd p.2.operand1 p.2.operand2)) := by
  by_cases hne : items = []
  · subst hne
    rfl
  · rw [responses, main_cycle_and_items uninit items hne hn h]

end ServerAnd

/-! ### One turn of the OR server on the items of a cohort -/

namespace ServerOr

theorem recvorjob_item (a b : List Char) (i n : Nat) (slot : or_job)
    (ha : BitSpec.IsOperand a) (hb : BitSpec.IsOperand b) (hi : i < 1000) (hn : n < 1000) :
    recvorjob (Edge.item_payload a b i n) slot = ((n : Int), ⟨(i : Int), a, b, slot.result⟩) := by
  obtain ⟨r1, r2, r3, h1, h2, h3, h4⟩ := Edge.scan_item_payload a b i n ha hb hi hn
  have hlen : ((Edge.item_payload a b i n).take RECV_BYTES).length = RECV_BYTES := by
    rw [List.length_take, Edge.length_item_payload a b i n ha.2.2 hb.2.2 hi hn]
    decide
  unfold recvorjob
  simp only [hlen, ne_eq, not_true_eq_false, if_false]
  have h1' : LibC.scan_s (LibC.cstr ((Edge.item_payload a b i n).take RECV_BYTES))
      = some (a, r1) := h1
  rw [h1']
  simp only [h2, h3, h4]

/-- The job an item becomes in the array of the server. -/
theorem recv_remaining_or_items (uninit : or_job) (n : Nat) (hn : n < 1000) :
    ∀ (items : List (Nat × Edge.job)) (rest : List (List Char)) (acc : List or_job),
      (∀ p ∈ items, p.1 < 1000 ∧ BitSpec.IsOperand p.2.operand1 ∧
        BitSpec.IsOperand p.2.operand2) →
      recv_remaining uninit items.length
          (items.map (fun p => Edge.item_payload p.2.operand1 p.2.operand2 p.1 n) ++ rest) acc =
        some (acc ++ items.map
          (fun p => (⟨(p.1 : Int), p.2.operand1, p.2.operand2, uninit.result⟩ : or_job)), rest) := by
  intro items
  induction items with
  | nil => intro rest acc _; simp [recv_remaining]
  | cons p items ih =>
    intro rest acc h
    have hp := h p (List.mem_cons_self _ _)
    simp only [List.length_cons, List.map_cons, List.cons_append, recv_remaining]
    rw [recvorjob_item _ _ _ _ uninit hp.2.1 hp.2.2 hp.1 hn]
    simp only [ite_self, List.append_eq]
    rw [ih rest _ (fun q hq => h q (List.mem_cons_of_mem _ hq))]
    simp

theorem orcalculation_all (l : List or_job) :
    orcalculation l l.length =
      l.map (fun job => { job with result := or_result job.operand1 job.operand2 }) := by
  induction l with
  | nil => rfl
  | cons job l ih => simp [orcalculation, ih]

theorem sendresults_or_all (l : List or_job)
    (h : ∀ job ∈ l, ∃ i : Nat, i < 1000 ∧ job.job_number = (i : Int) ∧ job.result.length ≤ 10) :
    sendresults l l.length =
      (EXIT_SUCCESS, l.map (fun job => Edge.response job.job_number job.result)) := by
  induction l with
  | nil => rfl
  | cons job l ih =>
    obtain ⟨i, hi, hnum, hlen⟩ := h job (List.mem_cons_self _ _)
    have hl : (LibC.fmt_d 3 job.job_number ++ [' '] ++ LibC.fmt_s 10 job.result).length
        = SEND_BYTES := by
      have := Edge.length_response i job.result hi hlen
      rw [Edge.response, ← hnum] at this
      exact this
    simp only [List.length_cons, sendresults, hl, ne_eq, not_true_eq_false, if_false,
      ih (fun q hq => h q (List.mem_cons_of_mem _ hq)), List.map_cons, Edge.response]

/-- One turn of the server on the items of a cohort of `n >= 1` jobs, received
in the order given: one response per item, carrying the index of the item and
the result for its operands. -/
theorem main_cycle_or_items (uninit : or_job) (items : List (Nat × Edge.job))
    (hne : items ≠ []) (hn : items.length < 1000)
    (h : ∀ p ∈ items, p.1 < 1000 ∧ BitSpec.IsOperand p.2.operand1 ∧
        BitSpec.IsOperand p.2.operand2) :
    main_cycle uninit
        (items.map (fun p => Edge.item_payload p.2.operand1 p.2.operand2 p.1 items.length)) =
      Cycle.served EXIT_SUCCESS
        (items.map (fun p => (⟨(p.1 : Int), p.2.operand1, p.2.operand2,
          BitSpec.computeOr p.2.operand1 p.2.operand2⟩ : or_job)))
        (items.map (fun p => Edge.response p.1 (BitSpec.computeOr p.2.operand1 p.2.operand2)))
        [] := by
  obtain ⟨p, items', rfl⟩ := List.exists_cons_of_ne_nil hne
  have hp := h p (List.mem_cons_self _ _)
  have hrest := recv_remaining_or_items uninit (p :: items').length hn items' []
    [⟨(p.1 : Int), p.2.operand1, p.2.operand2, uninit.result⟩]
    (fun q hq => h q (List.mem_cons_of_mem _ hq))
  rw [List.append_nil] at hrest
  have hcount : ((((p :: items').length : Nat) : Int)).toNat - 1 = items'.length := by
    simp
  have hcount2 : ((((p :: items').length : Nat) : Int)).toNat =
      ([(⟨(p.1 : Int), p.2.operand1, p.2.operand2, uninit.result⟩ : or_job)] ++ items'.map
          (fun p => (⟨(p.1 : Int), p.2.operand1, p.2.operand2, uninit.result⟩ : or_job))).length := by
    simp
  have h1 : ¬ ((((p :: items').length : Nat) : Int) = -1) := by omega
  have h2 : ¬ ((((p :: items').length : Nat) : Int) < 1) := by
    simp only [List.length_cons]; omega
  simp only [List.map_cons, main_cycle]
  rw [recvorjob_item _ _ _ _ uninit hp.2.1 hp.2.2 hp.1 hn]
  simp only [h1, h2, if_false, hcount, hrest]
  rw [hcount2, orcalculation_all]
  have hs := sendresults_or_all
    (([(⟨(p.1 : Int), p.2.operand1, p.2.operand2, uninit.result⟩ : or_job)] ++ items'.map
      (fun p => (⟨(p.1 : Int), p.2.operand1, p.2.operand2, uninit.result⟩ : or_job))).map
      (fun job => { job with result := or_result job.operand1 job.operand2 })) (by
    intro job hjob
    simp only [List.singleton_append, List.map_cons, List.map_map, List.mem_cons,
      List.mem_map, Function.comp_apply] at hjob
    rcases hjob with rfl | ⟨q, hq, rfl⟩
    · refine ⟨p.1, hp.1, rfl, ?_⟩
      simp only [or_result_eq_computeOr]
      exact le_trans (BitSpec.length_computeOr_le _ _ hp.2.1.2.1)
        (max_le hp.2.1.2.2 hp.2.2.2.2)
    · have hq' := h q (List.mem_cons_of_mem _ hq)
      refine ⟨q.1, hq'.1, rfl, ?_⟩
      simp only [or_result_eq_computeOr]
      exact le_trans (BitSpec.length_computeOr_le _ _ hq'.2.1.2.1)
        (max_le hq'.2.1.2.2 hq'.2.2.2.2))
  rw [List.length_map] at hs
  rw [hs]
  simp [or_result_eq_computeOr, Function.comp_def]

theorem responses_or_items (uninit : or_job) (items : List (Nat × Edge.job))
    (hn : items.length < 1000)
    (h : ∀ p ∈ items, p.1 < 1000 ∧ BitSpec.IsOperand p.2.operand1 ∧
        BitSpec.IsOperand p.2.operand2) :
    responses uninit
        (items.map (fun p => Edge.item_payload p.2.operand1 p.2.operand2 p.1 items.length)) =
      items.map (fun p => Edge.response p.1 (BitSpec.computeOr p.2.operand1 p.2.operand2)) := by
  by_cases hne : items = []
  · subst hne
    rfl
  · rw [responses, main_cycle_or_items uninit items hne hn h]

end ServerOr

/-! ### The router on a valid batch -/

namespace Edge

theorem sendjobs_from_valid (na no : Nat) (hna : na < 1000) (hno : no < 1000) :
    ∀ (jobs : List job) (k : Nat), k + jobs.length ≤ 1000 → (∀ j ∈ jobs, ValidJob j) →
      sendjobs_from na no jobs (k : Int) =
        (EXIT_SUCCESS, (jobs.enumFrom k).map (dispatch na no)) := by
  intro jobs
  induction jobs with
  | nil => intro k _ _; rfl
  | cons j jobs ih =>
    intro k hk hv
    have hj := hv j (List.mem_cons_self _ _)
    have hk' : k < 1000 := by simp only [List.length_cons] at hk; omega
    have hrec := ih (k + 1) (by simp only [List.length_cons] at hk; omega)
      (fun q hq => hv q (List.mem_cons_of_mem _ hq))
    have hcast : ((k : Int) + 1) = ((k + 1 : Nat) : Int) := by push_cast; rfl
    have hl1 := length_item_payload j.operand1 j.operand2 k na hj.2.1.2.2 hj.2.2.2.2 hk' hna
    have hl2 := length_item_payload j.operand1 j.operand2 k no hj.2.1.2.2 hj.2.2.2.2 hk' hno
    unfold item_payload at hl1 hl2
    unfold sendjobs_from
    by_cases hand : j.operator = ['a', 'n', 'd']
    · simp only [hand, if_true, hl1, BACKEND_SEND_BYTES, ne_eq, not_true_eq_false, if_false]
      rw [hcast, hrec]
      simp [List.enumFrom_cons, dispatch, hand, item_payload]
    · have hor : j.operator = ['o', 'r'] := hj.1.resolve_left hand
      have hne : ¬ (['o', 'r'] = ['a', 'n', 'd']) := by decide
      simp only [hor, hne, if_true, hl2, BACKEND_SEND_BYTES, ne_eq, not_true_eq_false,
        if_false]
      rw [hcast, hrec]
      simp [List.enumFrom_cons, dispatch, hor, item_payload]

/-- The two conversions of `sscanf(buffer, "%d %s", ...)` on a response. -/
theorem scan_response (i : Nat) (r : List Char) (hi : i < 1000)
    (hr : BitSpec.IsBits r) (hne : r ≠ []) (hlen : r.length ≤ 10) :
    ∃ r1, LibC.scan_d (LibC.cstr ((response i r).take BACKEND_RECV_BYTES)) = some ((i : Int), r1) ∧
      LibC.scan_s r1 = some (r, []) := by
  have htake : (response i r).take BACKEND_RECV_BYTES = response i r :=
    List.take_of_length_le (by rw [length_response i r hi hlen]; decide)
  have hnul : ∀ c ∈ response i r, c.toNat ≠ 0 := by
    intro c hc
    simp only [response, List.mem_append, List.mem_singleton] at hc
    rcases hc with (hc | rfl) | hc
    · exact LibC.no_nul_fmt_d i hi c hc
    · decide
    · exact LibC.no_nul_justify 10 r hr.no_nul c hc
  have heq : response i r = LibC.fmt_d 3 (i : Int) ++ (' ' :: (LibC.fmt_s 10 r ++ [])) := by
    simp [response]
  rw [htake, LibC.cstr_of_no_nul _ hnul, heq]
  exact ⟨_, LibC.scan_d_fmt_d i hi _ (LibC.head_blank_not_digit _),
    LibC.scan_s_blank_fmt_s 10 r [] hne hr.not_space (LibC.head_nil_any _)⟩

end Edge

namespace Edge

theorem response_fields_response (i : Nat) (r : List Char) (hi : i < 1000)
    (hr : BitSpec.IsBits r) (hne : r ≠ []) (hlen : r.length ≤ 10) :
    response_fields (response i r) = some ((i : Int), r) := by
  obtain ⟨r1, h1, h2⟩ := scan_response i r hi hr hne hlen
  simp only [response_fields, h1, h2]

theorem store_response (jobs : List job) (i : Nat) (r : List Char) (hi : i < 1000)
    (hr : BitSpec.IsBits r) (hne : r ≠ []) (hlen : r.length ≤ 10) :
    store jobs (response i r) = jobs.modify (fun j => { j with result := r }) i := by
  simp only [store, response_fields_response i r hi hr hne hlen, Int.toNat_ofNat]

theorem length_store (jobs : List job) (d : List Char) : (store jobs d).length = jobs.length := by
  unfold store
  split <;> simp [List.length_modify]

theorem length_foldl_store (ds : List (List Char)) (jobs : List job) :
    (ds.foldl store jobs).length = jobs.length := by
  induction ds generalizing jobs with
  | nil => rfl
  | cons d ds ih => rw [List.foldl_cons, ih, length_store]

/-- The loop of `recvresults` on responses that are all well-formed and in
range: it returns `EXIT_SUCCESS` after storing the first `n` of them. -/
theorem recvresults_loop_good (N : Nat) (R : Nat → List Char) (hN : N ≤ 1000)
    (hR : ∀ k, k < N → BitSpec.IsBits (R k) ∧ R k ≠ [] ∧ (R k).length ≤ 10) :
    ∀ (n : Nat) (inbox : List (List Char)) (jobs : List job), jobs.length = N →
      n ≤ inbox.length → (∀ d ∈ inbox, GoodResponse N R d) →
      recvresults_loop n inbox jobs =
        Received.returned EXIT_SUCCESS ((inbox.take n).foldl store jobs) (inbox.drop n) := by
  intro n
  induction n with
  | zero => intro inbox jobs _ _ _; simp [recvresults_loop]
  | succ n ih =>
    intro inbox jobs hlen hn hgood
    cases inbox with
    | nil => simp at hn
    | cons d inbox =>
      obtain ⟨k, hk, rfl⟩ := hgood _ (List.mem_cons_self _ _)
      obtain ⟨hb, hne, hl⟩ := hR k hk
      obtain ⟨r1, h1, h2⟩ := scan_response k (R k) (by omega) hb hne hl
      have htl : ((response k (R k)).take BACKEND_RECV_BYTES).length = BACKEND_RECV_BYTES := by
        rw [List.length_take, length_response k (R k) (by omega) hl]
        decide
      have hrange : 0 ≤ (k : Int) ∧ (k : Int) < (jobs.length : Int) := by
        rw [hlen]; omega
      simp only [recvresults_loop, htl, ne_eq, not_true_eq_false, if_false, h1, h2, hrange,
        and_self, if_true, Int.toNat_ofNat, List.take_succ_cons, List.foldl_cons,
        List.drop_succ_cons]
      rw [ih inbox _ (by rw [List.length_modify, hlen]) (by simpa using hn)
        (fun e he => hgood e (List.mem_cons_of_mem _ he)),
        store_response jobs k (R k) (by omega) hb hne hl]

theorem response_index_inj (N : Nat) (R : Nat → List Char) (hN : N ≤ 1000)
    (hR : ∀ k, k < N → BitSpec.IsBits (R k) ∧ R k ≠ [] ∧ (R k).length ≤ 10)
    (i k : Nat) (hi : i < N) (hk : k < N) (h : response i (R i) = response k (R k)) : i = k := by
  have h1 := response_fields_response i (R i) (by omega) (hR i hi).1 (hR i hi).2.1 (hR i hi).2.2
  have h2 := response_fields_response k (R k) (by omega) (hR k hk).1 (hR k hk).2.1 (hR k hk).2.2
  rw [h] at h1
  rw [h1] at h2
  simp only [Option.some.injEq, Prod.mk.injEq] at h2
  exact_mod_cast h2.1

/-- After storing responses in any order, the job at an index holds the result
of that index when its response is among them, and is as before otherwise. -/
theorem foldl_store_getElem? (N : Nat) (R : Nat → List Char) (hN : N ≤ 1000)
    (hR : ∀ k, k < N → BitSpec.IsBits (R k) ∧ R k ≠ [] ∧ (R k).length ≤ 10)
    (i : Nat) (hi : i < N) :
    ∀ (ds : List (List Char)) (jobs : List job) (j : job), jobs[i]? = some j →
      (∀ d ∈ ds, GoodResponse N R d) →
      (ds.foldl store jobs)[i]? =
        some (if response i (R i) ∈ ds then { j with result := R i } else j) := by
  intro ds
  induction ds with
  | nil => intro jobs j hj _; simpa using hj
  | cons d ds ih =>
    intro jobs j hj hgood
    obtain ⟨k, hk, rfl⟩ := hgood _ (List.mem_cons_self _ _)
    obtain ⟨hb, hne, hl⟩ := hR k hk
    rw [List.foldl_cons, store_response jobs k (R k) (by omega) hb hne hl]
    have hmod : (jobs.modify (fun j => { j with result := R k }) k)[i]? =
        some (if k = i then { j with result := R k } else j) := by
      rw [List.getElem?_modify, hj]
      rfl
    rw [ih _ _ hmod (fun e he => hgood e (List.mem_cons_of_mem _ he))]
    by_cases hki : k = i
    · subst hki
      simp
    · have hne' : response i (R i) ≠ response k (R k) := fun h =>
        hki (response_index_inj N R hN hR i k hi hk h).symm
      simp [hki, hne']

end Edge

namespace Edge

theorem datagrams_to_and_dispatch (na no : Int) (l : List (Nat × job)) :
    datagrams_to Backend.and_addr (l.map (dispatch na no)) =
      (l.filter (fun p => decide (p.2.operator = ['a', 'n', 'd']))).map
        (fun p => item_payload p.2.operand1 p.2.operand2 p.1 na) := by
  induction l with
  | nil => rfl
  | cons p l ih =>
    unfold datagrams_to at ih ⊢
    by_cases h : p.2.operator = ['a', 'n', 'd']
    · simp [dispatch, h, List.filter_cons, ih]
    · simp [dispatch, h, List.filter_cons, ih]

theorem datagrams_to_or_dispatch (na no : Int) (l : List (Nat × job)) :
    datagrams_to Backend.or_addr (l.map (dispatch na no)) =
      (l.filter (fun p => !decide (p.2.operator = ['a', 'n', 'd']))).map
        (fun p => item_payload p.2.operand1 p.2.operand2 p.1 no) := by
  induction l with
  | nil => rfl
  | cons p l ih =>
    unfold datagrams_to at ih ⊢
    by_cases h : p.2.operator = ['a', 'n', 'd']
    · simp [dispatch, h, List.filter_cons, ih]
    · simp [dispatch, h, List.filter_cons, ih]

theorem length_filter_and_enumFrom (jobs : List job) (k : Nat) :
    ((jobs.enumFrom k).filter (fun p => decide (p.2.operator = ['a', 'n', 'd']))).length =
      jobs.countP (fun j => j.operator = ['a', 'n', 'd']) := by
  induction jobs generalizing k with
  | nil => rfl
  | cons j jobs ih =>
    by_cases h : j.operator = ['a', 'n', 'd']
    · simp [List.enumFrom_cons, List.filter_cons, h, ih (k + 1)]
    · simp [List.enumFrom_cons, List.filter_cons, h, ih (k + 1)]

theorem length_filter_or_enumFrom (jobs : List job) (k : Nat) (hv : ∀ j ∈ jobs, ValidJob j) :
    ((jobs.enumFrom k).filter (fun p => !decide (p.2.operator = ['a', 'n', 'd']))).length =
      jobs.countP (fun j => j.operator = ['o', 'r']) := by
  induction jobs generalizing k with
  | nil => rfl
  | cons j jobs ih =>
    have hj := (hv j (List.mem_cons_self _ _)).1
    have ih' := ih (k + 1) (fun q hq => hv q (List.mem_cons_of_mem _ hq))
    by_cases h : j.operator = ['a', 'n', 'd']
    · have hne : ¬ (j.operator = ['o', 'r']) := by rw [h]; decide
      simp [List.enumFrom_cons, List.filter_cons, h, ih']
    · have hor : j.operator = ['o', 'r'] := hj.resolve_left h
      simp [List.enumFrom_cons, List.filter_cons, h, hor, ih']

theorem length_and_items (jobs : List job) :
    ((and_items jobs).length : Int) = count_operator ['a', 'n', 'd'] jobs := by
  rw [and_items, length_filter_and_enumFrom, count_operator]

theorem length_or_items (jobs : List job) (hv : ∀ j ∈ jobs, ValidJob j) :
    ((or_items jobs).length : Int) = count_operator ['o', 'r'] jobs := by
  rw [or_items, length_filter_or_enumFrom jobs 0 hv, count_operator]

theorem length_items_add (jobs : List job) :
    (and_items jobs).length + (or_items jobs).length = jobs.length := by
  have := List.length_eq_length_filter_add (fun p : Nat × job =>
    decide (p.2.operator = ['a', 'n', 'd'])) (l := jobs.enumFrom 0)
  rw [List.enumFrom_length] at this
  rw [and_items, or_items]
  exact this.symm

theorem mem_enumFrom_zero (jobs : List job) (p : Nat × job) :
    p ∈ jobs.enumFrom 0 ↔ jobs[p.1]? = some p.2 := by
  obtain ⟨i, j⟩ := p
  rw [List.mk_mem_enumFrom_iff_le_and_getElem?_sub]
  simp

theorem mem_and_items (jobs : List job) (p : Nat × job) :
    p ∈ and_items jobs ↔ jobs[p.1]? = some p.2 ∧ p.2.operator = ['a', 'n', 'd'] := by
  rw [and_items, List.mem_filter, mem_enumFrom_zero]
  simp

theorem mem_or_items (jobs : List job) (p : Nat × job) :
    p ∈ or_items jobs ↔ jobs[p.1]? = some p.2 ∧ ¬ p.2.operator = ['a', 'n', 'd'] := by
  rw [or_items, List.mem_filter, mem_enumFrom_zero]
  simp

theorem getElem?_bounds (jobs : List job) (i : Nat) (j : job) (h : jobs[i]? = some j) :
    i < jobs.length ∧ j ∈ jobs := by
  rw [List.getElem?_eq_some_iff] at h
  obtain ⟨hi, rfl⟩ := h
  exact ⟨hi, List.getElem_mem _⟩

theorem sendresults_from_ok (l : List job) (h : ∀ j ∈ l, j.result.length ≤ 10) :
    sendresults_from l = (EXIT_SUCCESS, l.map (fun j => LibC.fmt_s 10 j.result)) := by
  induction l with
  | nil => rfl
  | cons j l ih =>
    have hl : (LibC.fmt_s 10 j.result).length = CLIENT_SEND_BYTES :=
      LibC.length_fmt_s 10 _ (h j (List.mem_cons_self _ _))
    simp only [sendresults_from, hl, ne_eq, not_true_eq_false, if_false,
      ih (fun q hq => h q (List.mem_cons_of_mem _ hq)), List.map_cons]

theorem expected_shape (j : job) (hj : ValidJob j) :
    BitSpec.IsBits (expected j) ∧ expected j ≠ [] ∧ (expected j).length ≤ 10 := by
  unfold expected
  split
  · exact ⟨BitSpec.isBits_computeAnd _ _, BitSpec.canonical_ne_nil _,
      le_trans (BitSpec.length_computeAnd_le _ _ hj.2.1.2.1 hj.2.2.2.1)
        (le_trans (min_le_left _ _) hj.2.1.2.2)⟩
  · exact ⟨BitSpec.isBits_computeOr _ _, BitSpec.canonical_ne_nil _,
      le_trans (BitSpec.length_computeOr_le _ _ hj.2.1.2.1) (max_le hj.2.1.2.2 hj.2.2.2.2)⟩

theorem expected_at_shape (jobs : List job) (hv : ∀ j ∈ jobs, ValidJob j) (k : Nat)
    (hk : k < jobs.length) :
    BitSpec.IsBits (expected_at jobs k) ∧ expected_at jobs k ≠ [] ∧
      (expected_at jobs k).length ≤ 10 := by
  have h : jobs[k]? = some jobs[k] := List.getElem?_eq_getElem hk
  simp only [expected_at, h]
  exact expected_shape _ (hv _ (List.getElem_mem _))

end Edge

namespace Edge

theorem sendjobs_valid (jobs : List job) (hN : jobs.length ≤ 100) (hv : ∀ j ∈ jobs, ValidJob j) :
    sendjobs jobs jobs.length (count_operator ['a', 'n', 'd'] jobs)
        (count_operator ['o', 'r'] jobs) =
      (EXIT_SUCCESS, (jobs.enumFrom 0).map
        (dispatch (count_operator ['a', 'n', 'd'] jobs) (count_operator ['o', 'r'] jobs))) := by
  have h1 : jobs.countP (fun j => j.operator = ['a', 'n', 'd']) ≤ jobs.length :=
    List.countP_le_length _
  have h2 : jobs.countP (fun j => j.operator = ['o', 'r']) ≤ jobs.length :=
    List.countP_le_length _
  have := sendjobs_from_valid (jobs.countP (fun j => j.operator = ['a', 'n', 'd']))
    (jobs.countP (fun j => j.operator = ['o', 'r'])) (by omega) (by omega) jobs 0 (by omega) hv
  simp only [sendjobs, count_operator, Int.toNat_ofNat, List.take_length]
  exact this

/-- What the two backend servers answer to the datagrams `sendjobs` sends for a
valid batch: one response per job, with the index of the job in the batch and
the AND, respectively the OR, of its operands. -/
theorem backend_responses (jobs : List job) (u1 : ServerAnd.and_job) (u2 : ServerOr.or_job)
    (hN : jobs.length ≤ 100) (hv : ∀ j ∈ jobs, ValidJob j) :
    ServerAnd.responses u1 (datagrams_to Backend.and_addr
        (sendjobs jobs jobs.length (count_operator ['a', 'n', 'd'] jobs)
          (count_operator ['o', 'r'] jobs)).2) =
      (and_items jobs).map
        (fun p => response p.1 (BitSpec.computeAnd p.2.operand1 p.2.operand2)) ∧
    ServerOr.responses u2 (datagrams_to Backend.or_addr
        (sendjobs jobs jobs.length (count_operator ['a', 'n', 'd'] jobs)
          (count_operator ['o', 'r'] jobs)).2) =
      (or_items jobs).map
        (fun p => response p.1 (BitSpec.computeOr p.2.operand1 p.2.operand2)) := by
  rw [sendjobs_valid jobs hN hv]
  simp only [datagrams_to_and_dispatch, datagrams_to_or_dispatch]
  have hla := length_and_items jobs
  have hlo := length_or_items jobs hv
  have hsum := length_items_add jobs
  rw [← hla, ← hlo]
  constructor
  · apply ServerAnd.responses_and_items u1 (and_items jobs) (by omega)
    intro p hp
    rw [mem_and_items] at hp
    obtain ⟨hlt, hmem⟩ := getElem?_bounds jobs p.1 p.2 hp.1
    exact ⟨by omega, (hv _ hmem).2.1, (hv _ hmem).2.2⟩
  · apply ServerOr.responses_or_items u2 (or_items jobs) (by omega)
    intro p hp
    rw [mem_or_items] at hp
    obtain ⟨hlt, hmem⟩ := getElem?_bounds jobs p.1 p.2 hp.1
    exact ⟨by omega, (hv _ hmem).2.1, (hv _ hmem).2.2⟩

theorem good_of_mem_responses (jobs : List job) (d : List Char)
    (h : d ∈ (and_items jobs).map
          (fun p => response p.1 (BitSpec.computeAnd p.2.operand1 p.2.operand2)) ++
        (or_items jobs).map
          (fun p => response p.1 (BitSpec.computeOr p.2.operand1 p.2.operand2))) :
    GoodResponse jobs.length (expected_at jobs) d := by
  rw [List.mem_append, List.mem_map, List.mem_map] at h
  rcases h with ⟨p, hp, rfl⟩ | ⟨p, hp, rfl⟩
  · rw [mem_and_items] at hp
    refine ⟨p.1, (getElem?_bounds jobs p.1 p.2 hp.1).1, ?_⟩
    simp only [expected_at, hp.1, expected, hp.2, if_true]
  · rw [mem_or_items] at hp
    refine ⟨p.1, (getElem?_bounds jobs p.1 p.2 hp.1).1, ?_⟩
    simp only [expected_at, hp.1, expected, hp.2, if_false]

theorem mem_responses_of_index (jobs : List job) (i : Nat) (hi : i < jobs.length) :
    response i (expected_at jobs i) ∈ (and_items jobs).map
          (fun p => response p.1 (BitSpec.computeAnd p.2.operand1 p.2.operand2)) ++
        (or_items jobs).map
          (fun p => response p.1 (BitSpec.computeOr p.2.operand1 p.2.operand2)) := by
  have h : jobs[i]? = some jobs[i] := List.getElem?_eq_getElem hi
  rw [List.mem_append, List.mem_map, List.mem_map]
  by_cases hand : jobs[i].operator = ['a', 'n', 'd']
  · left
    refine ⟨(i, jobs[i]), (mem_and_items jobs _).mpr ⟨h, hand⟩, ?_⟩
    simp only [expected_at, h, expected, hand, if_true]
  · right
    refine ⟨(i, jobs[i]), (mem_or_items jobs _).mpr ⟨h, hand⟩, ?_⟩
    simp only [expected_at, h, expected, hand, if_false]

/-- Storing the responses of a valid batch, in any order, fills every job with
the result the specification asks for it. -/
theorem foldl_store_all (jobs : List job) (arrivals : List (List Char))
    (hN : jobs.length ≤ 100) (hv : ∀ j ∈ jobs, ValidJob j)
    (hgood : ∀ d ∈ arrivals, GoodResponse jobs.length (expected_at jobs) d)
    (hall : ∀ i, i < jobs.length → response i (expected_at jobs i) ∈ arrivals) :
    arrivals.foldl store jobs = jobs.map (fun j => { j with result := expected j }) := by
  apply List.ext_getElem?
  intro i
  by_cases hi : i < jobs.length
  · have h : jobs[i]? = some jobs[i] := List.getElem?_eq_getElem hi
    rw [foldl_store_getElem? jobs.length (expected_at jobs) (by omega)
      (fun k hk => expected_at_shape jobs hv k hk) i hi arrivals jobs jobs[i] h hgood,
      if_pos (hall i hi), List.getElem?_map, h]
    simp only [expected_at, h, Option.map_some']
  · rw [List.getElem?_eq_none (by rw [length_foldl_store]; omega),
      List.getElem?_eq_none (by rw [List.length_map]; omega)]

end Edge

namespace Edge

/-- The child process on a valid batch, once the jobs are received: whatever
the order in which the responses of the two backend servers arrive, it reaches
its end with every job filled and one reply per job, in batch order. -/
theorem route_valid (jobs : List job) (arrivals : List (List Char))
    (hN : jobs.length ≤ 100) (hv : ∀ j ∈ jobs, ValidJob j)
    (harr : arrivals.Perm ((and_items jobs).map
          (fun p => response p.1 (BitSpec.computeAnd p.2.operand1 p.2.operand2)) ++
        (or_items jobs).map
          (fun p => response p.1 (BitSpec.computeOr p.2.operand1 p.2.operand2)))) :
    route jobs jobs.length (count_operator ['a', 'n', 'd'] jobs)
        (count_operator ['o', 'r'] jobs) arrivals =
      ⟨Ending.finished,
        (jobs.enumFrom 0).map
          (dispatch (count_operator ['a', 'n', 'd'] jobs) (count_operator ['o', 'r'] jobs)),
        jobs.map (fun j => { j with result := expected j }),
        jobs.map (fun j => LibC.fmt_s 10 (expected j))⟩ := by
  have hgood : ∀ d ∈ arrivals, GoodResponse jobs.length (expected_at jobs) d :=
    fun d hd => good_of_mem_responses jobs d (harr.mem_iff.mp hd)
  have hall : ∀ i, i < jobs.length → response i (expected_at jobs i) ∈ arrivals :=
    fun i hi => harr.mem_iff.mpr (mem_responses_of_index jobs i hi)
  have hsum := length_items_add jobs
  have hlen : arrivals.length = jobs.length := by
    rw [harr.length_eq, List.length_append, List.length_map, List.length_map, hsum]
  have hR := fun k hk => expected_at_shape jobs hv k hk
  have hrecv1 := recvresults_loop_good jobs.length (expected_at jobs) (by omega) hR
    (and_items jobs).length arrivals jobs rfl (by omega) hgood
  have hrecv2 := recvresults_loop_good jobs.length (expected_at jobs) (by omega) hR
    (or_items jobs).length (arrivals.drop (and_items jobs).length)
    ((arrivals.take (and_items jobs).length).foldl store jobs) (length_foldl_store _ _)
    (by rw [List.length_drop]; omega) (fun d hd => hgood d (List.mem_of_mem_drop hd))
  have htake : (arrivals.drop (and_items jobs).length).take (or_items jobs).length =
      arrivals.drop (and_items jobs).length :=
    List.take_of_length_le (by rw [List.length_drop]; omega)
  have hjobs2 : ((arrivals.drop (and_items jobs).length).take (or_items jobs).length).foldl store
      ((arrivals.take (and_items jobs).length).foldl store jobs) =
      jobs.map (fun j => { j with result := expected j }) := by
    rw [htake, ← List.foldl_append, List.take_append_drop]
    exact foldl_store_all jobs arrivals hN hv hgood hall
  rw [hjobs2] at hrecv2
  have hsend := sendresults_from_ok (jobs.map (fun j => { j with result := expected j })) (by
    intro j hj
    rw [List.mem_map] at hj
    obtain ⟨q, hq, rfl⟩ := hj
    exact (expected_shape q (hv q hq)).2.2)
  have htk : (jobs.map (fun j => ({ j with result := expected j } : job))).take jobs.length =
      jobs.map (fun j => { j with result := expected j }) :=
    List.take_of_length_le (by rw [List.length_map])
  have hf : ¬ (EXIT_SUCCESS = EXIT_FAILURE) := by decide
  unfold route
  rw [sendjobs_valid jobs hN hv]
  simp only [hf, if_false, recvresults, ← length_and_items jobs, ← length_or_items jobs hv,
    Int.toNat_ofNat, hrecv1, hrecv2, sendresults, htk, hsend, List.map_map, Function.comp_def]

end Edge

/-! ### Reassembly of the results in batch order -/

/-- C3: for every valid batch of `N` jobs (`1 <= N <= 100`, operators `and` or
`or`, operands bit-strings of length 1 to 10) and every order in which the
responses of the two backend servers arrive, the router (`sendjobs`,
`recvresults` for the AND server, `recvresults` for the OR server,
`sendresults`) reaches its end having sent exactly `N` results to the client,
the `i`-th being the AND or OR, per the operator of job `i`, of the operands of
job `i`: it is what `%s` reads from the `i`-th message. -/
theorem route_returns_results_in_order (jobs : List Edge.job)
    (u1 : ServerAnd.and_job) (u2 : ServerOr.or_job) (arrivals : List (List Char))
    (_hN1 : 1 ≤ jobs.length) (hN2 : jobs.length ≤ 100) (hv : ∀ j ∈ jobs, Edge.ValidJob j)
    (harr : arrivals.Perm
      (ServerAnd.responses u1 (Edge.datagrams_to Edge.Backend.and_addr
          (Edge.sendjobs jobs jobs.length (Edge.count_operator ['a', 'n', 'd'] jobs)
            (Edge.count_operator ['o', 'r'] jobs)).2) ++
        ServerOr.responses u2 (Edge.datagrams_to Edge.Backend.or_addr
          (Edge.sendjobs jobs jobs.length (Edge.count_operator ['a', 'n', 'd'] jobs)
            (Edge.count_operator ['o', 'r'] jobs)).2))) :
    (Edge.route jobs jobs.length (Edge.count_operator ['a', 'n', 'd'] jobs)
        (Edge.count_operator ['o', 'r'] jobs) arrivals).ending = Edge.Ending.finished ∧
    (Edge.route jobs jobs.length (Edge.count_operator ['a', 'n', 'd'] jobs)
        (Edge.count_operator ['o', 'r'] jobs) arrivals).replies.length = jobs.length ∧
    (Edge.route jobs jobs.length (Edge.count_operator ['a', 'n', 'd'] jobs)
        (Edge.count_operator ['o', 'r'] jobs) arrivals).replies =
      jobs.map (fun j => LibC.fmt_s 10 (Edge.expected j)) ∧
    ∀ (i : Nat) (j : Edge.job), jobs[i]? = some j →
      ((Edge.route jobs jobs.length (Edge.count_operator ['a', 'n', 'd'] jobs)
        (Edge.count_operator ['o', 'r'] jobs) arrivals).replies[i]?.bind
          (fun reply => LibC.scan_s (LibC.cstr reply))) = some (Edge.expected j, []) := by
  have hresp := Edge.backend_responses jobs u1 u2 hN2 hv
  rw [hresp.1, hresp.2] at harr
  rw [Edge.route_valid jobs arrivals hN2 hv harr]
  refine ⟨rfl, by simp, rfl, ?_⟩
  intro i j hj
  obtain ⟨hb, hne, hl⟩ := Edge.expected_shape j (hv j (Edge.getElem?_bounds jobs i j hj).2)
  simp only [List.getElem?_map, hj, Option.map_some', Option.some_bind]
  rw [LibC.cstr_of_no_nul (LibC.fmt_s 10 (Edge.expected j))
    (LibC.no_nul_justify 10 _ hb.no_nul)]
  have := LibC.scan_s_fmt_s 10 (Edge.expected j) [] hne hb.not_space (LibC.head_nil_any _)
  rwa [List.append_nil] at this

/-- The scenario of C3: the batch `and,1111,1; or,0,0; and,1,1`, the response of
the OR server arriving first and those of the AND server in reverse order; the
client is sent `1`, `0`, `1`. -/
theorem route_returns_results_in_order_witness :
    (Edge.route
        [⟨"and".toList, "1111".toList, "1".toList, []⟩, ⟨"or".toList, "0".toList, "0".toList, []⟩,
          ⟨"and".toList, "1".toList, "1".toList, []⟩] 3 2 1
        ["  1          0".toList, "  2          1".toList, "  0          1".toList]).replies =
      ["         1".toList, "         0".toList, "         1".toList] := by
  have h := route_returns_results_in_order
    [⟨"and".toList, "1111".toList, "1".toList, []⟩, ⟨"or".toList, "0".toList, "0".toList, []⟩,
      ⟨"and".toList, "1".toList, "1".toList, []⟩] ⟨0, [], [], []⟩ ⟨0, [], [], []⟩
    ["  1          0".toList, "  2          1".toList, "  0          1".toList]
    (by decide) (by decide) (by decide) (by decide)
  exact h.2.2.1.trans (by decide)

/-! ### Responses with an index outside the batch -/

namespace Edge

/-- The function `recvresults` has no test on the index it parses: a response
that parses and whose index is not an index of the job array makes the `strcpy`
of line 532 write outside the array; `recvresults` does not return
`EXIT_FAILURE` for it. -/
theorem recvresults_loop_out_of_range (n : Nat) (datagram : List Char)
    (inbox : List (List Char)) (jobs : List job) (job_number : Int) (result : List Char)
    (hlen : BACKEND_RECV_BYTES ≤ datagram.length)
    (hfields : response_fields datagram = some (job_number, result))
    (hrange : job_number < 0 ∨ (jobs.length : Int) ≤ job_number) :
    recvresults_loop (n + 1) (datagram :: inbox) jobs =
      Received.out_of_bounds job_number result jobs := by
  have htl : (datagram.take BACKEND_RECV_BYTES).length = BACKEND_RECV_BYTES := by
    rw [List.length_take]; omega
  have hnot : ¬ (0 ≤ job_number ∧ job_number < (jobs.length : Int)) := by omega
  unfold response_fields at hfields
  unfold recvresults_loop
  simp only [htl, ne_eq, not_true_eq_false, if_false]
  cases h1 : LibC.scan_d (LibC.cstr (datagram.take BACKEND_RECV_BYTES)) with
  | none => simp [h1] at hfields
  | some p1 =>
    obtain ⟨k, r1⟩ := p1
    simp only [h1] at hfields ⊢
    cases h2 : LibC.scan_s r1 with
    | none => simp [h2] at hfields
    | some p2 =>
      obtain ⟨r, r2⟩ := p2
      simp only [h2, Option.some.injEq, Prod.mk.injEq] at hfields ⊢
      obtain ⟨rfl, rfl⟩ := hfields
      rw [if_neg hnot]

end Edge

/-- C10 does not hold of the code: for a batch of one job, the response with
index 5 and the response with index -1 are not rejected by `recvresults`; the
result is copied to `jobs[5]`, respectively `jobs[-1]`, outside the job array of
one element, and the child process goes the same way. -/
theorem recvresults_writes_out_of_bounds :
    Edge.recvresults 1 ["  5          1".toList]
        [⟨"and".toList, "1".toList, "1".toList, []⟩] =
      Edge.Received.out_of_bounds 5 "1".toList [⟨"and".toList, "1".toList, "1".toList, []⟩] ∧
    Edge.recvresults 1 [" -1          1".toList]
        [⟨"and".toList, "1".toList, "1".toList, []⟩] =
      Edge.Received.out_of_bounds (-1) "1".toList
        [⟨"and".toList, "1".toList, "1".toList, []⟩] ∧
    (Edge.route [⟨"and".toList, "1".toList, "1".toList, []⟩] 1 1 0
        ["  5          1".toList]).ending = Edge.Ending.out_of_bounds := by
  decide

/-! ### What the backend servers answer to a cohort -/

/-- C12: for every cohort of `n >= 1` well-formed items (operands bit-strings of
length 1 to 10, index and size fields in 0..999, the size field equal to `n`)
received by the AND server, respectively the OR server, one turn of the server
sends exactly `n` responses, and the response for each item, in the order the
items were received, carries the index field of that item with the AND,
respectively the OR, of its two operands: these are the two fields `sscanf`
reads back from it. -/
theorem servers_answer_every_item (u1 : ServerAnd.and_job) (u2 : ServerOr.or_job)
    (items : List (Nat × List Char × List Char))
    (hn1 : 1 ≤ items.length) (hn2 : items.length ≤ 999)
    (h : ∀ t ∈ items, t.1 ≤ 999 ∧ BitSpec.IsOperand t.2.1 ∧ BitSpec.IsOperand t.2.2) :
    ServerAnd.main_cycle u1
        (items.map (fun t => Edge.item_payload t.2.1 t.2.2 t.1 items.length)) =
      ServerAnd.Cycle.served EXIT_SUCCESS
        (items.map (fun t => ⟨(t.1 : Int), t.2.1, t.2.2, BitSpec.computeAnd t.2.1 t.2.2⟩))
        (items.map (fun t => Edge.response t.1 (BitSpec.computeAnd t.2.1 t.2.2))) [] ∧
    ServerOr.main_cycle u2
        (items.map (fun t => Edge.item_payload t.2.1 t.2.2 t.1 items.length)) =
      ServerOr.Cycle.served EXIT_SUCCESS
        (items.map (fun t => ⟨(t.1 : Int), t.2.1, t.2.2, BitSpec.computeOr t.2.1 t.2.2⟩))
        (items.map (fun t => Edge.response t.1 (BitSpec.computeOr t.2.1 t.2.2))) [] ∧
    (items.map (fun t => Edge.response t.1 (BitSpec.computeAnd t.2.1 t.2.2))).length =
      items.length ∧
    (items.map (fun t => Edge.response t.1 (BitSpec.computeOr t.2.1 t.2.2))).length =
      items.length ∧
    ∀ t ∈ items,
      Edge.response_fields (Edge.response t.1 (BitSpec.computeAnd t.2.1 t.2.2)) =
        some ((t.1 : Int), BitSpec.computeAnd t.2.1 t.2.2) ∧
      Edge.response_fields (Edge.response t.1 (BitSpec.computeOr t.2.1 t.2.2)) =
        some ((t.1 : Int), BitSpec.computeOr t.2.1 t.2.2) := by
  have hne : items.map (fun t => ((t.1, ⟨[], t.2.1, t.2.2, []⟩) : Nat × Edge.job)) ≠ [] := by
    intro h0
    rw [List.map_eq_nil_iff] at h0
    rw [h0] at hn1
    simp at hn1
  have hval : ∀ p ∈ items.map (fun t => ((t.1, ⟨[], t.2.1, t.2.2, []⟩) : Nat × Edge.job)),
      p.1 < 1000 ∧ BitSpec.IsOperand p.2.operand1 ∧ BitSpec.IsOperand p.2.operand2 := by
    intro p hp
    rw [List.mem_map] at hp
    obtain ⟨t, ht, rfl⟩ := hp
    have := h t ht
    exact ⟨by omega, this.2.1, this.2.2⟩
  have hA := ServerAnd.main_cycle_and_items u1 _ hne (by rw [List.length_map]; omega) hval
  have hO := ServerOr.main_cycle_or_items u2 _ hne (by rw [List.length_map]; omega) hval
  simp only [List.map_map, List.length_map, Function.comp_def] at hA hO
  refine ⟨hA, hO, by simp, by simp, ?_⟩
  intro t ht
  obtain ⟨hi, ha, hb⟩ := h t ht
  constructor
  · exact Edge.response_fields_response t.1 _ (by omega) (BitSpec.isBits_computeAnd _ _)
      (BitSpec.canonical_ne_nil _)
      (le_trans (BitSpec.length_computeAnd_le _ _ ha.2.1 hb.2.1)
        (le_trans (min_le_left _ _) ha.2.2))
  · exact Edge.response_fields_response t.1 _ (by omega) (BitSpec.isBits_computeOr _ _)
      (BitSpec.canonical_ne_nil _)
      (le_trans (BitSpec.length_computeOr_le _ _ ha.2.1) (max_le ha.2.2 hb.2.2))

/-- An instance of C12: a cohort of two items with the indices 0 and 2. -/
theorem servers_answer_every_item_witness :
    ServerAnd.main_cycle ⟨0, [], [], []⟩
        [Edge.item_payload "1111".toList "1".toList 0 2,
          Edge.item_payload "1".toList "1".toList 2 2] =
      ServerAnd.Cycle.served EXIT_SUCCESS
        [⟨0, "1111".toList, "1".toList, "1".toList⟩, ⟨2, "1".toList, "1".toList, "1".toList⟩]
        ["  0          1".toList, "  2          1".toList] [] := by
  have h := (servers_answer_every_item ⟨0, [], [], []⟩ ⟨0, [], [], []⟩
    [(0, "1111".toList, "1".toList), (2, "1".toList, "1".toList)]
    (by decide) (by decide) (by decide)).1
  exact h.trans (by decide)

/-! ### Lengths of the messages and round trips on the two channels -/

namespace Client

theorem length_job_message (row : List Char) (n : Nat) (hrow : row.length ≤ 25)
    (hn : n < 1000) : (job_message row n).length = 29 := by
  simp only [job_message, List.length_append, LibC.length_fmt_s 25 row hrow,
    LibC.length_fmt_d n hn, List.length_singleton]

end Client

/-- C15: for operands and results that are bit-strings of length 1 to 10, index
and count fields in 0..999 and a job row of at most 25 characters, each of the
four messages has exactly its declared length (client to router 29 bytes, router
to server 29 bytes, server to router 14 bytes, router to client 10 bytes), so
that the function sending it finds the length it tests for and returns
`EXIT_SUCCESS`. -/
theorem messages_have_declared_length (row a b r : List Char) (idx size n : Nat)
    (hrow : row.length ≤ 25) (ha : BitSpec.IsOperand a) (hb : BitSpec.IsOperand b)
    (hr : BitSpec.IsOperand r) (hidx : idx ≤ 999) (hsize : size ≤ 999) (hn : n ≤ 999) :
    (Client.job_message row n).length = Client.SEND_BYTES ∧
    (Edge.item_payload a b idx size).length = Edge.BACKEND_SEND_BYTES ∧
    (Edge.response idx r).length = Edge.BACKEND_RECV_BYTES ∧
    (LibC.fmt_s 10 r).length = Edge.CLIENT_SEND_BYTES ∧
    Client.sendjobs_from n [row] = (EXIT_SUCCESS, [Client.job_message row n]) ∧
    Edge.sendjobs_from size size [⟨['a', 'n', 'd'], a, b, r⟩] idx =
      (EXIT_SUCCESS, [(Edge.Backend.and_addr, Edge.item_payload a b idx size)]) ∧
    Edge.sendjobs_from size size [⟨['o', 'r'], a, b, r⟩] idx =
      (EXIT_SUCCESS, [(Edge.Backend.or_addr, Edge.item_payload a b idx size)]) ∧
    ServerAnd.sendresults [⟨idx, a, b, r⟩] 1 = (EXIT_SUCCESS, [Edge.response idx r]) ∧
    ServerOr.sendresults [⟨idx, a, b, r⟩] 1 = (EXIT_SUCCESS, [Edge.response idx r]) ∧
    Edge.sendresults_from [⟨['a', 'n', 'd'], a, b, r⟩] = (EXIT_SUCCESS, [LibC.fmt_s 10 r]) := by
  have h1 := Client.length_job_message row n hrow (by omega)
  have h2 := Edge.length_item_payload a b idx size ha.2.2 hb.2.2 (by omega) (by omega)
  have h3 := Edge.length_response idx r (by omega) hr.2.2
  have h4 := LibC.length_fmt_s 10 r hr.2.2
  have hne : ¬ (['o', 'r'] = ['a', 'n', 'd']) := by decide
  have h2a := h2
  rw [Edge.item_payload] at h2a
  have h3a := h3
  rw [Edge.response] at h3a
  refine ⟨h1, h2, h3, h4, ?_, ?_, ?_, ?_, ?_, ?_⟩
  · simp only [Client.sendjobs_from, h1, Client.SEND_BYTES, ne_eq, not_true_eq_false, if_false]
  · simp only [Edge.sendjobs_from, h2a, Edge.BACKEND_SEND_BYTES, ne_eq,
      not_true_eq_false, if_false, if_true, Edge.item_payload]
  · simp only [Edge.sendjobs_from, h2a, hne, Edge.BACKEND_SEND_BYTES, ne_eq,
      not_true_eq_false, if_false, if_true, Edge.item_payload]
  · simp only [ServerAnd.sendresults, h3a, ServerAnd.SEND_BYTES, ne_eq, not_true_eq_false,
      if_false, Edge.response]
  · simp only [ServerOr.sendresults, h3a, ServerOr.SEND_BYTES, ne_eq, not_true_eq_false,
      if_false, Edge.response]
  · simp only [Edge.sendresults_from, h4, Edge.CLIENT_SEND_BYTES, ne_eq, not_true_eq_false,
      if_false]

/-- An instance of C15: the row `and 1010101 100` of a batch of 3, sent on as
item 0 of a cohort of 2, answered with `100`. -/
theorem messages_have_declared_length_witness :
    (Client.job_message "and 1010101 100".toList 3).length = 29 ∧
    (Edge.item_payload "1010101".toList "100".toList 0 2).length = 29 ∧
    (Edge.response 0 "100".toList).length = 14 ∧
    (LibC.fmt_s 10 "100".toList).length = 10 :=
  have h := messages_have_declared_length "and 1010101 100".toList "1010101".toList
    "100".toList "100".toList 0 2 3 (by decide) (by decide) (by decide) (by decide)
    (by decide) (by decide) (by decide)
  ⟨h.1, h.2.1, h.2.2.1, h.2.2.2.1⟩

namespace Edge

theorem recvresults_loop_response (n : Nat) (idx : Nat) (r : List Char)
    (inbox : List (List Char)) (jobs : List job) (hidx : idx < 1000)
    (hr : BitSpec.IsBits r) (hne : r ≠ []) (hlen : r.length ≤ 10) (hj : idx < jobs.length) :
    recvresults_loop (n + 1) (response idx r :: inbox) jobs =
      recvresults_loop n inbox (jobs.modify (fun j => { j with result := r }) idx) := by
  obtain ⟨r1, h1, h2⟩ := scan_response idx r hidx hr hne hlen
  have htl : ((response idx r).take BACKEND_RECV_BYTES).length = BACKEND_RECV_BYTES := by
    rw [List.length_take, length_response idx r hidx hlen]
    decide
  have hrange : 0 ≤ (idx : Int) ∧ (idx : Int) < (jobs.length : Int) := by omega
  simp only [recvresults_loop, htl, ne_eq, not_true_eq_false, if_false, h1, h2, hrange,
    and_self, if_true, Int.toNat_ofNat]

end Edge

/-- C16: round trip on the channel between router and backend servers. For
bit-strings `a`, `b`, `r` of length 1 to 10 and `0 <= idx, size <= 999`:
`recvandjob` and `recvorjob` (`sscanf` with `"%s %s %d %d"`) read exactly
`(a, b, idx, size)` from the item the router writes with `"%10s %10s %3d %3d"`,
and the router (`sscanf` with `"%d %s"`) reads exactly `(idx, r)` from the
response a server writes with `"%3d %10s"`, which `recvresults` stores in
`jobs[idx]`. -/
theorem router_server_round_trip (a b r : List Char) (idx size : Nat)
    (slot1 : ServerAnd.and_job) (slot2 : ServerOr.or_job)
    (ha : BitSpec.IsOperand a) (hb : BitSpec.IsOperand b) (hr : BitSpec.IsOperand r)
    (hidx : idx ≤ 999) (hsize : size ≤ 999) :
    ServerAnd.recvandjob (Edge.item_payload a b idx size) slot1 =
      ((size : Int), ⟨(idx : Int), a, b, slot1.result⟩) ∧
    ServerOr.recvorjob (Edge.item_payload a b idx size) slot2 =
      ((size : Int), ⟨(idx : Int), a, b, slot2.result⟩) ∧
    Edge.response_fields (Edge.response idx r) = some ((idx : Int), r) ∧
    ∀ (jobs : List Edge.job) (inbox : List (List Char)), idx < jobs.length →
      Edge.recvresults 1 (Edge.response idx r :: inbox) jobs =
        Edge.Received.returned EXIT_SUCCESS
          (jobs.modify (fun j => { j with result := r }) idx) inbox := by
  refine ⟨ServerAnd.recvandjob_item a b idx size slot1 ha hb (by omega) (by omega),
    ServerOr.recvorjob_item a b idx size slot2 ha hb (by omega) (by omega),
    Edge.response_fields_response idx r (by omega) hr.1 hr.ne_nil hr.2.2, ?_⟩
  intro jobs inbox hj
  have h1 : ((1 : Int)).toNat = 0 + 1 := rfl
  rw [Edge.recvresults, h1,
    Edge.recvresults_loop_response 0 idx r inbox jobs (by omega) hr.1 hr.ne_nil hr.2.2 hj]
  rfl

/-- An instance of C16: the item `(1111, 1, 7, 12)` and the response `(7, 1)`. -/
theorem router_server_round_trip_witness :
    ServerAnd.recvandjob "      1111          1   7  12".toList ⟨0, [], [], []⟩ =
      (12, ⟨7, "1111".toList, "1".toList, []⟩) ∧
    Edge.response_fields "  7          1".toList = some (7, "1".toList) := by
  have h := router_server_round_trip "1111".toList "1".toList "1".toList 7 12
    ⟨0, [], [], []⟩ ⟨0, [], [], []⟩ (by decide) (by decide) (by decide) (by decide) (by decide)
  exact ⟨h.1, h.2.2.1⟩

/-! ### Symmetry and leading zeros of the calculators -/

/-- C19: both calculators are commutative: for all strings `a`, `b` of length at
most 10 the AND result of `(a, b)` is that of `(b, a)` and the OR result of
`(a, b)` is that of `(b, a)`, also when the lengths are equal and the code takes
`operand1` as `large_op`. -/
theorem calculators_commute (a b : List Char) (_ha : a.length ≤ 10) (_hb : b.length ≤ 10) :
    ServerAnd.and_result a b = ServerAnd.and_result b a ∧
      ServerOr.or_result a b = ServerOr.or_result b a := by
  simp only [ServerAnd.and_result_eq_computeAnd, ServerOr.or_result_eq_computeOr]
  exact ⟨BitSpec.computeAnd_comm a b, BitSpec.computeOr_comm a b⟩

/-- An instance of C19 with operands of equal length: `110` and `011`. -/
theorem calculators_commute_witness :
    ServerAnd.and_result "110".toList "011".toList = "10".toList ∧
      ServerAnd.and_result "011".toList "110".toList = "10".toList ∧
      ServerOr.or_result "110".toList "011".toList =
        ServerOr.or_result "011".toList "110".toList := by
  have h := calculators_commute "110".toList "011".toList (by decide) (by decide)
  have h1 : ServerAnd.and_result "110".toList "011".toList = "10".toList := by decide
  exact ⟨h1, h.1 ▸ h1, h.2⟩

/-- C20: a leading zero on an operand does not change the result: for
bit-strings `a`, `b` with `len a <= 9` and `len b <= 10` the AND result of
`("0" ++ a, b)` is that of `(a, b)` and the OR result of `("0" ++ a, b)` is
that of `(a, b)`, also when the zero changes which operand is the longer. -/
theorem leading_zero_is_ignored (a b : List Char)
    (_ha : BitSpec.IsBits a) (_hb : BitSpec.IsBits b)
    (_hla : a.length ≤ 9) (_hlb : b.length ≤ 10) :
    ServerAnd.and_result ('0' :: a) b = ServerAnd.and_result a b ∧
      ServerOr.or_result ('0' :: a) b = ServerOr.or_result a b := by
  constructor
  · rw [ServerAnd.and_result_eq_computeAnd, ServerAnd.and_result_eq_computeAnd,
      BitSpec.computeAnd_eq_numeral, BitSpec.computeAnd_eq_numeral, BitSpec.value_cons_zero]
  · rw [ServerOr.or_result_eq_computeOr, ServerOr.or_result_eq_computeOr,
      BitSpec.computeOr_eq_numeral, BitSpec.computeOr_eq_numeral, BitSpec.value_cons_zero]

/-- An instance of C20 where the zero makes the first operand as long as the
second: `11` and `011` against `101`. -/
theorem leading_zero_is_ignored_witness :
    ServerAnd.and_result "011".toList "101".toList = "1".toList ∧
      ServerAnd.and_result "11".toList "101".toList = "1".toList ∧
      ServerOr.or_result "011".toList "101".toList = "111".toList ∧
      ServerOr.or_result "11".toList "101".toList = "111".toList := by
  have h := leading_zero_is_ignored "11".toList "101".toList (by decide) (by decide)
    (by decide) (by decide)
  have h1 : ServerAnd.and_result "11".toList "101".toList = "1".toList := by decide
  have h2 : ServerOr.or_result "11".toList "101".toList = "111".toList := by decide
  exact ⟨h.1.trans h1, h1, h.2.trans h2, h2⟩

/-! ### The index field of a dispatched job -/

/-- C11 fails as stated: in the valid batch `or,0,0; and,1,1` the first `and` job
(position 0 of its cohort) is the only item sent to the AND server, and the
index field the server reads from it is 1, its position in the batch. -/
theorem sendjobs_cohort_index_counterexample :
    (∀ j ∈ ([⟨"or".toList, "0".toList, "0".toList, []⟩,
        ⟨"and".toList, "1".toList, "1".toList, []⟩] : List Edge.job), Edge.ValidJob j) ∧
    (Edge.datagrams_to Edge.Backend.and_addr (Edge.sendjobs
        [⟨"or".toList, "0".toList, "0".toList, []⟩, ⟨"and".toList, "1".toList, "1".toList, []⟩]
        2 1 1).2).map (fun d => (ServerAnd.recvandjob d ⟨0, [], [], []⟩).2.job_number) = [1] ∧
    ¬ (∀ (k : Nat) (d : List Char),
        (Edge.datagrams_to Edge.Backend.and_addr (Edge.sendjobs
          [⟨"or".toList, "0".toList, "0".toList, []⟩,
            ⟨"and".toList, "1".toList, "1".toList, []⟩] 2 1 1).2)[k]? = some d →
        (ServerAnd.recvandjob d ⟨0, [], [], []⟩).2.job_number = (k : Int)) := by
  refine ⟨by decide, by decide, ?_⟩
  intro h
  have h0 := h 0 (Edge.item_payload "1".toList "1".toList 1 1) (by decide)
  revert h0
  decide

/-- C11, amended: for every valid batch, the index field `sendjobs` attaches to a
dispatched job is the 0-based position of the job in the batch. The datagram
sent for the job at position `i` goes to the server of its operator and carries
`i`; hence the `k`-th `and` job in submission order, at position `i` of the
batch, is the `k`-th item sent to the AND server and the server reads the index
`i` from it, and likewise for the `k`-th `or` job and the OR server. -/
theorem sendjobs_index_is_batch_position (jobs : List Edge.job)
    (u1 : ServerAnd.and_job) (u2 : ServerOr.or_job)
    (_hN1 : 1 ≤ jobs.length) (hN2 : jobs.length ≤ 100) (hv : ∀ j ∈ jobs, Edge.ValidJob j) :
    (∀ (i : Nat) (j : Edge.job), jobs[i]? = some j →
      (Edge.sendjobs jobs jobs.length (Edge.count_operator ['a', 'n', 'd'] jobs)
          (Edge.count_operator ['o', 'r'] jobs)).2[i]? =
        some (if j.operator = ['a', 'n', 'd'] then
            (Edge.Backend.and_addr, Edge.item_payload j.operand1 j.operand2 i
              (Edge.count_operator ['a', 'n', 'd'] jobs))
          else (Edge.Backend.or_addr, Edge.item_payload j.operand1 j.operand2 i
              (Edge.count_operator ['o', 'r'] jobs)))) ∧
    (∀ (k : Nat) (p : Nat × Edge.job), (Edge.and_items jobs)[k]? = some p →
      jobs[p.1]? = some p.2 ∧ p.2.operator = ['a', 'n', 'd'] ∧
      ∃ d, (Edge.datagrams_to Edge.Backend.and_addr
          (Edge.sendjobs jobs jobs.length (Edge.count_operator ['a', 'n', 'd'] jobs)
            (Edge.count_operator ['o', 'r'] jobs)).2)[k]? = some d ∧
        (ServerAnd.recvandjob d u1).2.job_number = (p.1 : Int)) ∧
    (∀ (k : Nat) (p : Nat × Edge.job), (Edge.or_items jobs)[k]? = some p →
      jobs[p.1]? = some p.2 ∧ p.2.operator = ['o', 'r'] ∧
      ∃ d, (Edge.datagrams_to Edge.Backend.or_addr
          (Edge.sendjobs jobs jobs.length (Edge.count_operator ['a', 'n', 'd'] jobs)
            (Edge.count_operator ['o', 'r'] jobs)).2)[k]? = some d ∧
        (ServerOr.recvorjob d u2).2.job_number = (p.1 : Int)) := by
  have hla := Edge.length_and_items jobs
  have hlo := Edge.length_or_items jobs hv
  have hsum := Edge.length_items_add jobs
  rw [Edge.sendjobs_valid jobs hN2 hv]
  simp only [Edge.datagrams_to_and_dispatch, Edge.datagrams_to_or_dispatch]
  refine ⟨?_, ?_, ?_⟩
  · intro i j hj
    rw [List.getElem?_map, List.getElem?_enumFrom, hj]
    simp [Edge.dispatch]
  · intro k p hp
    have hmem := (Edge.mem_and_items jobs p).mp (List.mem_iff_getElem?.mpr ⟨k, hp⟩)
    obtain ⟨hlt, hin⟩ := Edge.getElem?_bounds jobs p.1 p.2 hmem.1
    refine ⟨hmem.1, hmem.2, Edge.item_payload p.2.operand1 p.2.operand2 p.1
      (Edge.count_operator ['a', 'n', 'd'] jobs), ?_, ?_⟩
    · rw [List.getElem?_map]
      have : (List.filter (fun p : Nat × Edge.job => decide (p.2.operator = ['a', 'n', 'd']))
          (List.enumFrom 0 jobs))[k]? = some p := hp
      rw [this]
      rfl
    · rw [← hla, ServerAnd.recvandjob_item _ _ p.1 _ u1 (hv _ hin).2.1 (hv _ hin).2.2
        (by omega) (by omega)]
  · intro k p hp
    have hmem := (Edge.mem_or_items jobs p).mp (List.mem_iff_getElem?.mpr ⟨k, hp⟩)
    obtain ⟨hlt, hin⟩ := Edge.getElem?_bounds jobs p.1 p.2 hmem.1
    refine ⟨hmem.1, (hv _ hin).1.resolve_left hmem.2,
      Edge.item_payload p.2.operand1 p.2.operand2 p.1
        (Edge.count_operator ['o', 'r'] jobs), ?_, ?_⟩
    · rw [List.getElem?_map]
      have : (List.filter (fun p : Nat × Edge.job => !decide (p.2.operator = ['a', 'n', 'd']))
          (List.enumFrom 0 jobs))[k]? = some p := hp
      rw [this]
      rfl
    · rw [← hlo, ServerOr.recvorjob_item _ _ p.1 _ u2 (hv _ hin).2.1 (hv _ hin).2.2
        (by omega) (by omega)]

/-- The batch `or,0,0; and,1,1` again: the item for the job at position 1 goes
to the AND server with index 1. -/
theorem sendjobs_index_is_batch_position_witness :
    (Edge.sendjobs [⟨"or".toList, "0".toList, "0".toList, []⟩,
        ⟨"and".toList, "1".toList, "1".toList, []⟩] 2 1 1).2[1]? =
      some (Edge.Backend.and_addr, "         1          1   1   1".toList) := by
  have h := (sendjobs_index_is_batch_position
    [⟨"or".toList, "0".toList, "0".toList, []⟩, ⟨"and".toList, "1".toList, "1".toList, []⟩]
    ⟨0, [], [], []⟩ ⟨0, [], [], []⟩ (by decide) (by decide) (by decide)).1 1
    ⟨"and".toList, "1".toList, "1".toList, []⟩ rfl
  exact h.trans (by decide)

/-! ### A failed receive in the AND server -/

namespace ServerAnd

theorem recv_remaining_and_total (uninit : and_job) :
    ∀ (n : Nat) (inbox : List (List Char)) (acc : List and_job), n ≤ inbox.length →
      ∃ and_jobs, recv_remaining uninit n inbox acc = some (and_jobs, inbox.drop n) ∧
        and_jobs.length = acc.length + n := by
  intro n
  induction n with
  | zero => intro inbox acc _; exact ⟨acc, rfl, rfl⟩
  | succ n ih =>
    intro inbox acc h
    cases inbox with
    | nil => simp at h
    | cons d inbox =>
      obtain ⟨and_jobs, h1, h2⟩ := ih inbox (acc ++ [(recvandjob d uninit).2]) (by simpa using h)
      refine ⟨and_jobs, ?_, ?_⟩
      · simp only [recv_remaining, ite_self, List.drop_succ_cons]
        exact h1
      · rw [h2, List.length_append, List.length_singleton]
        omega

/-- Once the first `recvandjob` of a turn has returned a count `n >= 1`, the turn
is not abandoned, whatever the `n - 1` datagrams that follow are: the loop of
lines 134-141 goes on after a failed `recvandjob`, `andcalculation` runs on all
`n` array slots and `sendresults` is called. -/
theorem main_cycle_and_not_abandoned (uninit : and_job) (datagram : List Char)
    (inbox : List (List Char)) (h1 : 1 ≤ (recvandjob datagram uninit).1)
    (hlen : (recvandjob datagram uninit).1.toNat - 1 ≤ inbox.length) :
    ∃ status and_jobs sent, main_cycle uninit (datagram :: inbox) =
        Cycle.served status and_jobs sent
          (inbox.drop ((recvandjob datagram uninit).1.toNat - 1)) ∧
      and_jobs.length = (recvandjob datagram uninit).1.toNat := by
  obtain ⟨and_jobs, h2, h3⟩ := recv_remaining_and_total uninit _ inbox
    [(recvandjob datagram uninit).2] hlen
  have hn1 : ¬ ((recvandjob datagram uninit).1 = -1) := by omega
  have hn2 : ¬ ((recvandjob datagram uninit).1 < 1) := by omega
  refine ⟨(sendresults (andcalculation and_jobs (recvandjob datagram uninit).1.toNat)
      (recvandjob datagram uninit).1.toNat).1,
    andcalculation and_jobs (recvandjob datagram uninit).1.toNat,
    (sendresults (andcalculation and_jobs (recvandjob datagram uninit).1.toNat)
      (recvandjob datagram uninit).1.toNat).2, ?_, ?_⟩
  · simp only [main_cycle, hn1, hn2, if_false, h2]
  · rw [length_andcalculation, h3, List.length_singleton]
    omega

end ServerAnd

/-! ### A failed receive in the OR server -/

namespace ServerOr

theorem recv_remaining_or_total (uninit : or_job) :
    ∀ (n : Nat) (inbox : List (List Char)) (acc : List or_job), n ≤ inbox.length →
      ∃ or_jobs, recv_remaining uninit n inbox acc = some (or_jobs, inbox.drop n) ∧
        or_jobs.length = acc.length + n := by
  intro n
  induction n with
  | zero => intro inbox acc _; exact ⟨acc, rfl, rfl⟩
  | succ n ih =>
    intro inbox acc h
    cases inbox with
    | nil => simp at h
    | cons d inbox =>
      obtain ⟨or_jobs, h1, h2⟩ := ih inbox (acc ++ [(recvorjob d uninit).2]) (by simpa using h)
      refine ⟨or_jobs, ?_, ?_⟩
      · simp only [recv_remaining, ite_self, List.drop_succ_cons]
        exact h1
      · rw [h2, List.length_append, List.length_singleton]
        omega

/-- Once the first `recvorjob` of a turn has returned a count `n >= 1`, the turn
is not abandoned, whatever the `n - 1` datagrams that follow are: the loop of
lines 134-141 goes on after a failed `recvorjob`, `orcalculation` runs on all
`n` array slots and `sendresults` is called. -/
theorem main_cycle_or_not_abandoned (uninit : or_job) (datagram : List Char)
    (inbox : List (List Char)) (h1 : 1 ≤ (recvorjob datagram uninit).1)
    (hlen : (recvorjob datagram uninit).1.toNat - 1 ≤ inbox.length) :
    ∃ status or_jobs sent, main_cycle uninit (datagram :: inbox) =
        Cycle.served status or_jobs sent
          (inbox.drop ((recvorjob datagram uninit).1.toNat - 1)) ∧
      or_jobs.length = (recvorjob datagram uninit).1.toNat := by
  obtain ⟨or_jobs, h2, h3⟩ := recv_remaining_or_total uninit _ inbox
    [(recvorjob datagram uninit).2] hlen
  have hn1 : ¬ ((recvorjob datagram uninit).1 = -1) := by omega
  have hn2 : ¬ ((recvorjob datagram uninit).1 < 1) := by omega
  refine ⟨(sendresults (orcalculation or_jobs (recvorjob datagram uninit).1.toNat)
      (recvorjob datagram uninit).1.toNat).1,
    orcalculation or_jobs (recvorjob datagram uninit).1.toNat,
    (sendresults (orcalculation or_jobs (recvorjob datagram uninit).1.toNat)
      (recvorjob datagram uninit).1.toNat).2, ?_, ?_⟩
  · simp only [main_cycle, hn1, hn2, if_false, h2]
  · rw [length_orcalculation, h3, List.length_singleton]
    omega

end ServerOr

/-- C13 does not hold of the code for an item after the first. The AND server
receives the first item of a cohort of 2, then a datagram of 5 bytes for which
`recvandjob` returns -1: the turn is not abandoned, `andcalculation` runs on
both array slots, the second one never written, and two responses are sent. The
OR server does the same. (A failed first receive does make the server skip to
the next turn.) -/
theorem servers_go_on_after_failed_item :
    (ServerAnd.recvandjob "hello".toList ⟨0, [], [], []⟩).1 = -1 ∧
    ServerAnd.main_cycle ⟨0, [], [], []⟩
        [Edge.item_payload "1".toList "1".toList 0 2, "hello".toList] =
      ServerAnd.Cycle.served EXIT_SUCCESS
        [⟨0, "1".toList, "1".toList, "1".toList⟩, ⟨0, [], [], "0".toList⟩]
        ["  0          1".toList, "  0          0".toList] [] ∧
    ServerOr.main_cycle ⟨0, [], [], []⟩
        [Edge.item_payload "1".toList "1".toList 0 2, "hello".toList] =
      ServerOr.Cycle.served EXIT_SUCCESS
        [⟨0, "1".toList, "1".toList, "1".toList⟩, ⟨0, [], [], "0".toList⟩]
        ["  0          1".toList, "  0          0".toList] [] ∧
    ServerAnd.main_cycle ⟨0, [], [], []⟩
        ["hello".toList, Edge.item_payload "1".toList "1".toList 0 2] =
      ServerAnd.Cycle.skipped [Edge.item_payload "1".toList "1".toList 0 2] := by
  decide

/-! ### The cohort counts -/

namespace Edge

theorem recvjob_of_fields (received : List Char) (slot : job) (num_and_jobs num_or_jobs : Int)
    (f : List Char × List Char × List Char × Int)
    (hlen : received.length = CLIENT_RECV_BYTES) (hf : job_fields received = some f) :
    recvjob received slot num_and_jobs num_or_jobs =
      if f.1 = ['a', 'n', 'd'] then
        (f.2.2.2, { slot with operator := f.1, operand1 := f.2.1, operand2 := f.2.2.1 },
          num_and_jobs + 1, num_or_jobs)
      else if f.1 = ['o', 'r'] then
        (f.2.2.2, { slot with operator := f.1, operand1 := f.2.1, operand2 := f.2.2.1 },
          num_and_jobs, num_or_jobs + 1)
      else
        (-1, { slot with operator := f.1, operand1 := f.2.1, operand2 := f.2.2.1 },
          num_and_jobs, num_or_jobs) := by
  unfold recvjob
  simp only [hlen, ne_eq, not_true_eq_false, if_false]
  unfold job_fields at hf
  cases h1 : LibC.scan_s (LibC.cstr received) with
  | none => simp [h1] at hf
  | some p1 =>
    obtain ⟨operator, r1⟩ := p1
    simp only [h1] at hf ⊢
    cases h2 : LibC.scan_s r1 with
    | none => simp [h2] at hf
    | some p2 =>
      obtain ⟨operand1, r2⟩ := p2
      simp only [h2] at hf ⊢
      cases h3 : LibC.scan_s r2 with
      | none => simp [h3] at hf
      | some p3 =>
        obtain ⟨operand2, r3⟩ := p3
        simp only [h3] at hf ⊢
        cases h4 : LibC.scan_d r3 with
        | none => simp [h4] at hf
        | some p4 =>
          obtain ⟨n, r4⟩ := p4
          simp only [h4, Option.some.injEq] at hf ⊢
          subst hf
          rfl

theorem count_operator_cons (operator : List Char) (j : job) (jobs : List job) :
    count_operator operator (j :: jobs) =
      (if j.operator = operator then 1 else 0) + count_operator operator jobs := by
  unfold count_operator
  by_cases h : j.operator = operator
  · simp [List.countP_cons, h]; omega
  · simp [List.countP_cons, h]

/-- What `recvjob` does with a message it accepts. -/
theorem recvjob_of_accepted (received : List Char) (uninit : job)
    (num_and_jobs num_or_jobs : Int) (h : Accepted received) :
    (recvjob received uninit num_and_jobs num_or_jobs).1 ≠ -1 ∧
    (∀ f, job_fields received = some f →
      (recvjob received uninit num_and_jobs num_or_jobs).1 = f.2.2.2) ∧
    (recvjob received uninit num_and_jobs num_or_jobs).2.1 = job_of_message uninit received ∧
    (recvjob received uninit num_and_jobs num_or_jobs).2.2.1 =
      num_and_jobs + count_operator ['a', 'n', 'd'] [job_of_message uninit received] ∧
    (recvjob received uninit num_and_jobs num_or_jobs).2.2.2 =
      num_or_jobs + count_operator ['o', 'r'] [job_of_message uninit received] := by
  obtain ⟨hlen, f, hf, hop, hsize⟩ := h
  have hj : job_of_message uninit received =
      { uninit with operator := f.1, operand1 := f.2.1, operand2 := f.2.2.1 } := by
    simp only [job_of_message, hf]
  rw [recvjob_of_fields received uninit num_and_jobs num_or_jobs f hlen hf, hj]
  have hne : ¬ (['o', 'r'] = ['a', 'n', 'd']) := by decide
  have hne2 : ¬ (['a', 'n', 'd'] = ['o', 'r']) := by decide
  rcases hop with hop | hop
  · rw [if_pos hop]
    refine ⟨hsize, ?_, rfl, ?_, ?_⟩
    · intro g hg
      rw [hf] at hg
      simp only [Option.some.injEq] at hg
      rw [← hg]
    · simp [count_operator, hop]
    · simp [count_operator, hop, hne2]
  · have hnand : ¬ (f.1 = ['a', 'n', 'd']) := by rw [hop]; exact hne
    rw [if_neg hnand, if_pos hop]
    refine ⟨hsize, ?_, rfl, ?_, ?_⟩
    · intro g hg
      rw [hf] at hg
      simp only [Option.some.injEq] at hg
      rw [← hg]
    · simp [count_operator, hop, hne]
    · simp [count_operator, hop]

theorem count_operator_append (operator : List Char) (xs ys : List job) :
    count_operator operator (xs ++ ys) =
      count_operator operator xs + count_operator operator ys := by
  simp [count_operator, List.countP_append]

/-- The loop of `main` receiving the remaining jobs, on messages `recvjob` accepts:
every message becomes a job and is counted under its operator. -/
theorem recv_remaining_accepted (uninit : job) :
    ∀ (n : Nat) (messages : List (List Char)) (jobs : List job) (num_and_jobs num_or_jobs : Int),
      (∀ k, k < n → Accepted (messages.getD k [])) →
      recv_remaining uninit n messages jobs num_and_jobs num_or_jobs =
        some (jobs ++ (messages.take n).map (job_of_message uninit),
          num_and_jobs +
            count_operator ['a', 'n', 'd'] ((messages.take n).map (job_of_message uninit)),
          num_or_jobs +
            count_operator ['o', 'r'] ((messages.take n).map (job_of_message uninit))) := by
  intro n
  induction n with
  | zero => intro messages jobs na no _; simp [recv_remaining, count_operator]
  | succ n ih =>
    intro messages jobs na no h
    cases messages with
    | nil =>
      have := (h 0 (by omega)).1
      simp [CLIENT_RECV_BYTES] at this
    | cons m messages =>
      have hm : Accepted m := by simpa using h 0 (by omega)
      obtain ⟨h1, _, h3, h4, h5⟩ := recvjob_of_accepted m uninit na no hm
      have htail : ∀ k, k < n → Accepted (messages.getD k []) := by
        intro k hk
        simpa using h (k + 1) (by omega)
      simp only [recv_remaining, List.headD_cons, h1, if_false, List.tail_cons, h3, h4, h5,
        List.take_succ_cons, List.map_cons]
      rw [ih messages _ _ _ htail]
      simp only [List.append_assoc, List.singleton_append, Option.some.injEq, Prod.mk.injEq,
        true_and]
      have hnil : ∀ op, count_operator op [] = 0 := fun _ => rfl
      simp only [count_operator_cons, hnil]
      constructor <;> ring

theorem operator_job_of_message (uninit : job) (received : List Char) (h : Accepted received) :
    (job_of_message uninit received).operator = ['a', 'n', 'd'] ∨
      (job_of_message uninit received).operator = ['o', 'r'] := by
  obtain ⟨_, f, hf, hop, _⟩ := h
  simp only [job_of_message, hf]
  exact hop

theorem count_operators_add (jobs : List job)
    (h : ∀ j ∈ jobs, j.operator = ['a', 'n', 'd'] ∨ j.operator = ['o', 'r']) :
    count_operator ['a', 'n', 'd'] jobs + count_operator ['o', 'r'] jobs = jobs.length := by
  induction jobs with
  | nil => simp [count_operator]
  | cons j jobs ih =>
    have hne : ¬ (['o', 'r'] = ['a', 'n', 'd']) := by decide
    have hne2 : ¬ (['a', 'n', 'd'] = ['o', 'r']) := by decide
    have ih' := ih (fun q hq => h q (List.mem_cons_of_mem _ hq))
    rw [count_operator_cons, count_operator_cons, List.length_cons]
    rcases h j (List.mem_cons_self _ _) with hj | hj
    · simp only [hj, hne2, if_true, if_false]
      push_cast
      omega
    · simp only [hj, hne, if_true, if_false]
      push_cast
      omega

/-- Every datagram `sendjobs` hands to `sendto` is built with the count of the
server it goes to as its last field. -/
theorem sendjobs_from_size_field (num_and_jobs num_or_jobs : Int) :
    ∀ (jobs : List job) (i : Int) (p : Backend × List Char),
      p ∈ (sendjobs_from num_and_jobs num_or_jobs jobs i).2 →
      ∃ a b k, p.2 = item_payload a b k
        (if p.1 = Backend.and_addr then num_and_jobs else num_or_jobs) := by
  intro jobs
  induction jobs with
  | nil => intro i p hp; simp [sendjobs_from] at hp
  | cons j jobs ih =>
    intro i p hp
    unfold sendjobs_from at hp
    by_cases hand : j.operator = ['a', 'n', 'd']
    · simp only [hand, if_true] at hp
      split at hp
      · simp only [List.mem_singleton] at hp
        subst hp
        exact ⟨j.operand1, j.operand2, i, rfl⟩
      · simp only [List.mem_cons] at hp
        rcases hp with rfl | hp
        · exact ⟨j.operand1, j.operand2, i, rfl⟩
        · exact ih _ p hp
    · simp only [hand, if_false] at hp
      by_cases hor : j.operator = ['o', 'r']
      · simp only [hor, if_true] at hp
        split at hp
        · simp only [List.mem_singleton] at hp
          subst hp
          exact ⟨j.operand1, j.operand2, i, rfl⟩
        · simp only [List.mem_cons] at hp
          rcases hp with rfl | hp
          · exact ⟨j.operand1, j.operand2, i, rfl⟩
          · exact ih _ p hp
      · simp [hor] at hp

end Edge

namespace Edge

/-- A well-formed message whose batch size is not -1 is one `recvjob` accepts. -/
theorem accepted_of_wellformed (received : List Char) (h : WellFormed received)
    (hsize : ∀ f, job_fields received = some f → f.2.2.2 ≠ -1) : Accepted received := by
  obtain ⟨hlen, f, hf, hop, _⟩ := h
  exact ⟨hlen, f, hf, hop, hsize f hf⟩

end Edge

/-- C14 fails as stated: in the session of the two messages `and 1 1` with batch
size 2 and `or 0 0` with batch size -1, both well-formed, the first declaring
`N = 2`, the second `recvjob` returns the batch size -1, which `main` takes for
a failure: the child process exits before `sendjobs`, so it does not go on with
two jobs, `num_and_jobs = 1` and `num_or_jobs = 1`, and no item is dispatched. -/
theorem ingestion_size_minus_one_counterexample :
    Edge.WellFormed (Client.job_message "and 1 1".toList 2) ∧
    Edge.WellFormed (Client.job_message "or 0 0".toList (-1)) ∧
    Edge.job_fields (Client.job_message "and 1 1".toList 2) =
      some ("and".toList, "1".toList, "1".toList, 2) ∧
    Edge.job_fields (Client.job_message "or 0 0".toList (-1)) =
      some ("or".toList, "0".toList, "0".toList, -1) ∧
    Edge.child ⟨[], [], [], []⟩
        [Client.job_message "and 1 1".toList 2, Client.job_message "or 0 0".toList (-1)] [] =
      ⟨Edge.Ending.recvjob_failed, [], [], []⟩ ∧
    Edge.child ⟨[], [], [], []⟩
        [Client.job_message "and 1 1".toList 2, Client.job_message "or 0 0".toList (-1)] [] ≠
      Edge.route [⟨"and".toList, "1".toList, "1".toList, []⟩,
        ⟨"or".toList, "0".toList, "0".toList, []⟩] 2 1 1 [] := by
  refine ⟨⟨by decide, ("and".toList, "1".toList, "1".toList, 2), by decide, by decide,
      by decide, by decide, by decide⟩,
    ⟨by decide, ("or".toList, "0".toList, "0".toList, -1), by decide, by decide,
      by decide, by decide, by decide⟩, by decide, by decide, by decide, by decide⟩

/-- C14, amended: for every session whose first message declares the batch size
`N >= 1`, whose first `N` messages are well-formed (operator `and` or `or`,
operands of at most 10 characters, a batch size that fits an `int`) and none of
whose first `N` messages carries the batch size -1, the child process calls
`route` (hence `sendjobs` and the two `recvresults`) with the `N` jobs of the
messages, with `num_and_jobs` the number of `and` jobs and `num_or_jobs` the
number of `or` jobs among them; `num_and_jobs + num_or_jobs = N`; and every
datagram `sendjobs` sends to a server is built with the count of that server as
its size field. -/
theorem ingestion_counts_cohorts (uninit : Edge.job) (messages inbox : List (List Char))
    (N : Nat) (hN : 1 ≤ N)
    (hfirst : ∃ f, Edge.job_fields (messages.headD []) = some f ∧ f.2.2.2 = (N : Int))
    (hwf : ∀ k, k < N → Edge.WellFormed (messages.getD k []))
    (hsize : ∀ k, k < N → ∀ f, Edge.job_fields (messages.getD k []) = some f → f.2.2.2 ≠ -1) :
    Edge.child uninit messages inbox =
      Edge.route ((messages.take N).map (Edge.job_of_message uninit)) N
        (Edge.count_operator ['a', 'n', 'd'] ((messages.take N).map (Edge.job_of_message uninit)))
        (Edge.count_operator ['o', 'r'] ((messages.take N).map (Edge.job_of_message uninit)))
        inbox ∧
    ((messages.take N).map (Edge.job_of_message uninit)).length = N ∧
    Edge.count_operator ['a', 'n', 'd'] ((messages.take N).map (Edge.job_of_message uninit)) +
      Edge.count_operator ['o', 'r'] ((messages.take N).map (Edge.job_of_message uninit)) =
        (N : Int) ∧
    ∀ p ∈ (Edge.sendjobs ((messages.take N).map (Edge.job_of_message uninit)) N
        (Edge.count_operator ['a', 'n', 'd'] ((messages.take N).map (Edge.job_of_message uninit)))
        (Edge.count_operator ['o', 'r']
          ((messages.take N).map (Edge.job_of_message uninit)))).2,
      ∃ a b k, p.2 = Edge.item_payload a b k
        (if p.1 = Edge.Backend.and_addr then
          Edge.count_operator ['a', 'n', 'd'] ((messages.take N).map (Edge.job_of_message uninit))
        else
          Edge.count_operator ['o', 'r']
            ((messages.take N).map (Edge.job_of_message uninit))) := by
  have hacc : ∀ k, k < N → Edge.Accepted (messages.getD k []) :=
    fun k hk => Edge.accepted_of_wellformed _ (hwf k hk) (hsize k hk)
  obtain ⟨n, rfl⟩ : ∃ n, N = n + 1 := ⟨N - 1, by omega⟩
  cases messages with
  | nil =>
    have := (hacc 0 (by omega)).1
    simp [Edge.CLIENT_RECV_BYTES] at this
  | cons m ms =>
    have hm : Edge.Accepted m := by simpa using hacc 0 (by omega)
    have htail : ∀ k, k < n → Edge.Accepted (ms.getD k []) := by
      intro k hk
      simpa using hacc (k + 1) (by omega)
    have hlen : ((m :: ms).take (n + 1)).length = n + 1 := by
      have hall : ∀ k, k < n + 1 → k < (m :: ms).length := by
        intro k hk
        by_contra hcon
        have := (hacc k hk).1
        rw [List.getD_eq_default _ _ (by omega)] at this
        simp [Edge.CLIENT_RECV_BYTES] at this
      have := hall n (by omega)
      rw [List.length_take]
      omega
    obtain ⟨f, hf, hfN⟩ := hfirst
    obtain ⟨h1, h2, h3, h4, h5⟩ := Edge.recvjob_of_accepted m uninit 0 0 hm
    have hr1 : (Edge.recvjob m uninit 0 0).1 = ((n + 1 : Nat) : Int) := by
      rw [h2 f (by simpa using hf), hfN]
    have hjobs_wf : ∀ j ∈ ((m :: ms).take (n + 1)).map (Edge.job_of_message uninit),
        j.operator = ['a', 'n', 'd'] ∨ j.operator = ['o', 'r'] := by
      intro j hj
      rw [List.mem_map] at hj
      obtain ⟨x, hx, rfl⟩ := hj
      obtain ⟨k, hk⟩ := List.mem_iff_getElem?.mp hx
      have hk2 : k < n + 1 ∧ (m :: ms)[k]? = some x := by
        rw [List.getElem?_take] at hk
        split at hk
        · exact ⟨by assumption, hk⟩
        · simp at hk
      have := hacc k hk2.1
      rw [List.getD_eq_getElem?_getD, hk2.2] at this
      exact Edge.operator_job_of_message uninit x this
    refine ⟨?_, by rw [List.length_map, hlen], ?_, ?_⟩
    · have hn1 : ¬ (((n + 1 : Nat) : Int) = -1) := by omega
      have hn2 : ¬ (((n + 1 : Nat) : Int) < 1) := by omega
      have htn : (((n + 1 : Nat) : Int)).toNat - 1 = n := by simp
      have hnil : ∀ op, Edge.count_operator op [] = 0 := fun _ => rfl
      simp only [Edge.child, List.headD_cons, hr1, hn1, hn2, if_false, List.tail_cons, htn,
        h3, h4, h5, Edge.recv_remaining_accepted uninit n ms _ _ _ htail,
        List.take_succ_cons, List.map_cons, List.singleton_append,
        Edge.count_operator_cons, hnil]
      congr 1 <;> ring
    · have := Edge.count_operators_add _ hjobs_wf
      rw [List.length_map, hlen] at this
      exact this
    · intro p hp
      exact Edge.sendjobs_from_size_field _ _ _ _ p hp

/-- An instance of the amended C14: the scenario batch `and,1111,1; or,0,0;
and,1,1` is received as three jobs with `num_and_jobs = 2` and
`num_or_jobs = 1`. -/
theorem ingestion_counts_cohorts_witness :
    Edge.child ⟨[], [], [], []⟩
        [Client.job_message "and 1111 1".toList 3, Client.job_message "or 0 0".toList 3,
          Client.job_message "and 1 1".toList 3] [] =
      Edge.route [⟨"and".toList, "1111".toList, "1".toList, []⟩,
        ⟨"or".toList, "0".toList, "0".toList, []⟩,
        ⟨"and".toList, "1".toList, "1".toList, []⟩] 3 2 1 [] := by
  have f0 : Edge.job_fields (Client.job_message "and 1111 1".toList 3) =
      some ("and".toList, "1111".toList, "1".toList, 3) := by decide
  have f1 : Edge.job_fields (Client.job_message "or 0 0".toList 3) =
      some ("or".toList, "0".toList, "0".toList, 3) := by decide
  have f2 : Edge.job_fields (Client.job_message "and 1 1".toList 3) =
      some ("and".toList, "1".toList, "1".toList, 3) := by decide
  have h := (ingestion_counts_cohorts ⟨[], [], [], []⟩
    [Client.job_message "and 1111 1".toList 3, Client.job_message "or 0 0".toList 3,
      Client.job_message "and 1 1".toList 3] [] 3 (by decide)
    ⟨("and".toList, "1111".toList, "1".toList, 3), f0, by decide⟩
    (by
      intro k hk
      match k, hk with
      | 0, _ => exact ⟨by decide, _, f0, by decide, by decide, by decide, by decide⟩
      | 1, _ => exact ⟨by decide, _, f1, by decide, by decide, by decide, by decide⟩
      | 2, _ => exact ⟨by decide, _, f2, by decide, by decide, by decide, by decide⟩
      | k + 3, h => omega)
    (by
      intro k hk f hf
      match k, hk with
      | 0, _ =>
        have hf' : Edge.job_fields (Client.job_message "and 1111 1".toList 3) = some f := hf
        rw [f0] at hf'
        cases hf'
        decide
      | 1, _ =>
        have hf' : Edge.job_fields (Client.job_message "or 0 0".toList 3) = some f := hf
        rw [f1] at hf'
        cases hf'
        decide
      | 2, _ =>
        have hf' : Edge.job_fields (Client.job_message "and 1 1".toList 3) = some f := hf
        rw [f2] at hf'
        cases hf'
        decide
      | k + 3, h => omega)).1
  exact h.trans (by decide)

/-! ### Reading the input file -/

namespace Client

theorem fgets_chars_line (l rest : List Char) (hnl : ∀ c ∈ l, c ≠ newline) :
    ∀ k, l.length < k → fgets_chars k (l ++ newline :: rest) = (l ++ [newline], rest) := by
  induction l with
  | nil =>
    intro k hk
    obtain ⟨k, rfl⟩ : ∃ j, k = j + 1 := ⟨k - 1, by simp at hk; omega⟩
    simp [fgets_chars]
  | cons c l ih =>
    intro k hk
    obtain ⟨k, rfl⟩ : ∃ j, k = j + 1 := ⟨k - 1, by simp at hk; omega⟩
    have hc : c ≠ newline := hnl c (List.mem_cons_self _ _)
    have := ih (fun d hd => hnl d (List.mem_cons_of_mem _ hd)) k (by simp at hk; omega)
    simp [fgets_chars, hc, this]

/-- The call of `fgets` in `readjobs` on a file that starts with a line of at
most 25 characters and its newline: the line with the newline is stored. -/
theorem fgets_line (l rest : List Char) (hl : IsLine l) :
    fgets (MAX_ROW_BYTES + 1) (l ++ newline :: rest) = some (l ++ [newline], rest) := by
  have hne : l ++ newline :: rest ≠ [] := by simp
  have := fgets_chars_line l rest hl.1 26 (by have := hl.2.2; omega)
  simp only [fgets, hne, if_false, MAX_ROW_BYTES]
  exact congrArg some this

/-- The body of the loop of `readjobs` on a line stored with its newline. -/
theorem store_row_line (l : List Char) (hl : IsLine l) :
    store_row (l ++ [newline]) = if l = [] then none else some (commas_to_spaces l) := by
  have hnul : ∀ c ∈ l ++ [newline], c.toNat ≠ 0 := by
    intro c hc
    rw [List.mem_append, List.mem_singleton] at hc
    rcases hc with hc | rfl
    · exact hl.2.1 c hc
    · decide
  simp only [store_row, LibC.cstr_of_no_nul _ hnul, List.dropLast_concat, commas_to_spaces]
  by_cases h : l = []
  · simp [h]
  · have : l.length ≠ 0 := fun h0 => h (List.length_eq_zero.mp h0)
    simp [h, this]

theorem length_file_of_lines (lines : List (List Char)) :
    lines.length ≤ (file_of_lines lines).length := by
  induction lines with
  | nil => simp [file_of_lines]
  | cons l ls ih => simp [file_of_lines]; omega

/-- The loop of `readjobs` on a file whose lines are all terminated by a newline:
every non-empty line is stored, in order, with its commas replaced by spaces. -/
theorem readjobs_loop_lines :
    ∀ (lines : List (List Char)) (fuel : Nat) (rows : List (List Char)),
      lines.length < fuel → (∀ l ∈ lines, IsLine l) →
      readjobs_loop fuel (file_of_lines lines) rows =
        rows ++ (lines.filter (fun l => decide (l ≠ []))).map commas_to_spaces := by
  intro lines
  induction lines with
  | nil =>
    intro fuel rows hf _
    obtain ⟨fuel, rfl⟩ : ∃ j, fuel = j + 1 := ⟨fuel - 1, by simp at hf; omega⟩
    simp [readjobs_loop, file_of_lines, fgets]
  | cons l ls ih =>
    intro fuel rows hf hl
    obtain ⟨fuel, rfl⟩ : ∃ j, fuel = j + 1 := ⟨fuel - 1, by simp at hf; omega⟩
    have hl0 := hl l (List.mem_cons_self _ _)
    have ih' := fun rows => ih fuel rows (by simp at hf; omega)
      (fun q hq => hl q (List.mem_cons_of_mem _ hq))
    simp only [readjobs_loop, file_of_lines, fgets_line l _ hl0, store_row_line l hl0]
    by_cases h : l = []
    · simp [h, ih']
    · simp [h, ih']

theorem readjobs_lines (lines : List (List Char)) (hl : ∀ l ∈ lines, IsLine l) :
    readjobs (some (file_of_lines lines)) =
      ((((lines.filter (fun l => decide (l ≠ []))).length : Nat) : Int),
        (lines.filter (fun l => decide (l ≠ []))).map commas_to_spaces) := by
  have := readjobs_loop_lines lines ((file_of_lines lines).length + 1) []
    (by have := length_file_of_lines lines; omega) hl
  simp only [readjobs, this, List.nil_append, List.length_map]

end Client

/-- C18 does not hold of the code for a last line without a newline: `readjobs`
overwrites the last character of every string `fgets` stores, newline or not.
The file `and,1,1` gives the row `and 1 ` and not `and 1 1`; in the file of
the two lines `or,101,110` and `and,1,1`, the second not terminated, the second
row loses its last character; the file `a` gives no row at all. (With the
newline at its end the file gives the rows the claim describes.) -/
theorem readjobs_drops_last_character :
    Client.readjobs (some "and,1,1".toList) = (1, ["and 1 ".toList]) ∧
    Client.readjobs (some ("or,101,110".toList ++ [Client.newline] ++ "and,1,1".toList)) =
      (2, ["or 101 110".toList, "and 1 ".toList]) ∧
    Client.readjobs (some "a".toList) = (0, []) ∧
    Client.readjobs (some ("or,101,110".toList ++ [Client.newline] ++ "and,1,1".toList ++
        [Client.newline])) =
      (2, ["or 101 110".toList, "and 1 1".toList]) := by
  decide

/-! ### Round trip on the channel between client and router -/

namespace LibC

theorem scan_s_blank_word (w rest : List Char) (hne : w ≠ [])
    (hw : ∀ c ∈ w, isspace c = false) (hrest : ∀ c, rest.head? = some c → isspace c = true) :
    scan_s (' ' :: (w ++ rest)) = some (w, rest) := by
  have := scan_s_justified 1 w rest hne hw hrest
  simpa using this

end LibC

namespace Client

theorem commas_to_spaces_bits (s : List Char) (h : BitSpec.IsBits s) :
    commas_to_spaces s = s := by
  induction s with
  | nil => rfl
  | cons c s ih =>
    rw [BitSpec.isBits_cons] at h
    have ih' := ih h.2
    unfold commas_to_spaces at ih' ⊢
    rw [List.map_cons, ih']
    rcases h.1 with rfl | rfl <;> simp

theorem isLine_of_bits (s : List Char) (h : BitSpec.IsBits s) :
    (∀ c ∈ s, c ≠ newline) ∧ (∀ c ∈ s, c.toNat ≠ 0) := by
  constructor
  · intro c hc
    rcases h c hc with rfl | rfl <;> decide
  · exact h.no_nul

/-- The fields `sscanf` reads back from the message built for the row
`op a b` and the batch size `N`. -/
theorem job_fields_job_message (op a b : List Char) (N : Nat)
    (hop : op = ['a', 'n', 'd'] ∨ op = ['o', 'r'])
    (ha : BitSpec.IsOperand a) (hb : BitSpec.IsOperand b) (hN : N < 1000) :
    (job_message (op ++ ' ' :: (a ++ ' ' :: b)) N).length = 29 ∧
      Edge.job_fields (job_message (op ++ ' ' :: (a ++ ' ' :: b)) N) =
        some (op, a, b, (N : Int)) := by
  have hopl : op.length ≤ 3 := by rcases hop with rfl | rfl <;> decide
  have hopne : op ≠ [] := by rcases hop with rfl | rfl <;> decide
  have hopsp : ∀ c ∈ op, LibC.isspace c = false := by rcases hop with rfl | rfl <;> decide
  have hopnul : ∀ c ∈ op, c.toNat ≠ 0 := by rcases hop with rfl | rfl <;> decide
  have hrowlen : (op ++ ' ' :: (a ++ ' ' :: b)).length ≤ 25 := by
    have := ha.2.2
    have := hb.2.2
    simp only [List.length_append, List.length_cons]
    omega
  have hlen := length_job_message _ N hrowlen hN
  refine ⟨hlen, ?_⟩
  have hnul : ∀ c ∈ job_message (op ++ ' ' :: (a ++ ' ' :: b)) N, c.toNat ≠ 0 := by
    intro c hc
    simp only [job_message, List.mem_append, List.mem_singleton] at hc
    rcases hc with (hc | rfl) | hc
    · refine LibC.no_nul_justify 25 _ ?_ c hc
      intro d hd
      simp only [List.mem_append, List.mem_cons] at hd
      rcases hd with hd | rfl | hd | rfl | hd
      · exact hopnul d hd
      · decide
      · exact ha.1.no_nul d hd
      · decide
      · exact hb.1.no_nul d hd
    · decide
    · exact LibC.no_nul_fmt_d N hN c hc
  have heq : job_message (op ++ ' ' :: (a ++ ' ' :: b)) N =
      List.replicate (25 - (op ++ ' ' :: (a ++ ' ' :: b)).length) ' ' ++
        (op ++ (' ' :: (a ++ (' ' :: (b ++ (' ' :: (LibC.fmt_d 3 (N : Int) ++ []))))))) := by
    simp [job_message, LibC.fmt_s, LibC.justify]
  unfold Edge.job_fields
  rw [LibC.cstr_of_no_nul _ hnul, heq,
    LibC.scan_s_justified _ op _ hopne hopsp (LibC.head_blank_space _)]
  simp only
  rw [LibC.scan_s_blank_word a _ ha.ne_nil ha.1.not_space (LibC.head_blank_space _)]
  simp only
  rw [LibC.scan_s_blank_word b _ hb.ne_nil hb.1.not_space (LibC.head_blank_space _)]
  simp only
  rw [LibC.scan_d_blank_fmt_d N hN _ (LibC.head_nil_any _)]

/-- The receiving loop of `recvresults` of client.c on one result message. -/
theorem recvresults_one (r : List Char) (hr : BitSpec.IsOperand r) :
    recvresults [LibC.fmt_s 10 r] 1 = (EXIT_SUCCESS, [r]) := by
  have hlen : (LibC.fmt_s 10 r).length = RECV_BYTES := LibC.length_fmt_s 10 r hr.2.2
  have hscan : LibC.scan_s (LibC.cstr (LibC.fmt_s 10 r)) = some (r, []) := by
    rw [LibC.cstr_of_no_nul (LibC.fmt_s 10 r) (LibC.no_nul_justify 10 _ hr.1.no_nul)]
    have := LibC.scan_s_fmt_s 10 r [] hr.ne_nil hr.1.not_space (LibC.head_nil_any _)
    rwa [List.append_nil] at this
  have h1 : ((1 : Int)).toNat = 1 := rfl
  simp only [recvresults, h1, recvresults_loop, List.headD_cons, hlen, ne_eq,
    not_true_eq_false, if_false, hscan, List.nil_append]

end Client

/-- C17: round trip on the channel between client and router. For a job line
`op,a,b` ended by a newline (`op` is `and` or `or`, `a` and `b` bit-strings of
length 1 to 10) and a batch size `1 <= N <= 100`: `fgets` stores the line,
`readjobs` makes it the row `op a b`, and from the message `sendjobs` builds
with `"%25s %3d"` the router's `recvjob` reads the operator `op`, the operands
`a` and `b` and returns the batch size `N`, counting the job under its operator;
and from the 10-byte message the router builds for a bit-string `r` the client's
`recvresults` reads exactly `r`. -/
theorem client_router_round_trip (op a b r rest : List Char) (N : Nat) (slot : Edge.job)
    (num_and_jobs num_or_jobs : Int)
    (hop : op = ['a', 'n', 'd'] ∨ op = ['o', 'r'])
    (ha : BitSpec.IsOperand a) (hb : BitSpec.IsOperand b) (hr : BitSpec.IsOperand r)
    (_hN1 : 1 ≤ N) (hN2 : N ≤ 100) :
    Client.fgets (Client.MAX_ROW_BYTES + 1)
        ((op ++ ',' :: (a ++ ',' :: b)) ++ Client.newline :: rest) =
      some ((op ++ ',' :: (a ++ ',' :: b)) ++ [Client.newline], rest) ∧
    Client.store_row ((op ++ ',' :: (a ++ ',' :: b)) ++ [Client.newline]) =
      some (op ++ ' ' :: (a ++ ' ' :: b)) ∧
    Edge.recvjob (Client.job_message (op ++ ' ' :: (a ++ ' ' :: b)) N) slot
        num_and_jobs num_or_jobs =
      ((N : Int), { slot with operator := op, operand1 := a, operand2 := b },
        num_and_jobs + (if op = ['a', 'n', 'd'] then 1 else 0),
        num_or_jobs + (if op = ['o', 'r'] then 1 else 0)) ∧
    Client.recvresults [LibC.fmt_s 10 r] 1 = (EXIT_SUCCESS, [r]) := by
  have hopline : (∀ c ∈ op, c ≠ Client.newline) ∧ (∀ c ∈ op, c.toNat ≠ 0) ∧
      Client.commas_to_spaces op = op ∧ op.length ≤ 3 := by
    rcases hop with rfl | rfl <;> decide
  have hline : Client.IsLine (op ++ ',' :: (a ++ ',' :: b)) := by
    have hal := Client.isLine_of_bits a ha.1
    have hbl := Client.isLine_of_bits b hb.1
    refine ⟨?_, ?_, ?_⟩
    · intro c hc
      simp only [List.mem_append, List.mem_cons] at hc
      rcases hc with hc | rfl | hc | rfl | hc
      · exact hopline.1 c hc
      · decide
      · exact hal.1 c hc
      · decide
      · exact hbl.1 c hc
    · intro c hc
      simp only [List.mem_append, List.mem_cons] at hc
      rcases hc with hc | rfl | hc | rfl | hc
      · exact hopline.2.1 c hc
      · decide
      · exact hal.2 c hc
      · decide
      · exact hbl.2 c hc
    · have := ha.2.2
      have := hb.2.2
      have := hopline.2.2.2
      simp only [List.length_append, List.length_cons]
      omega
  have hrow : Client.commas_to_spaces (op ++ ',' :: (a ++ ',' :: b)) =
      op ++ ' ' :: (a ++ ' ' :: b) := by
    have h1 := hopline.2.2.1
    have h2 := Client.commas_to_spaces_bits a ha.1
    have h3 := Client.commas_to_spaces_bits b hb.1
    unfold Client.commas_to_spaces at h1 h2 h3 ⊢
    simp only [List.map_append, List.map_cons, h1, h2, h3, if_true]
  have hne : op ++ ',' :: (a ++ ',' :: b) ≠ [] := by simp
  obtain ⟨hlen, hfields⟩ := Client.job_fields_job_message op a b N hop ha hb (by omega)
  have hne1 : ¬ (['o', 'r'] = ['a', 'n', 'd']) := by decide
  have hne2 : ¬ (['a', 'n', 'd'] = ['o', 'r']) := by decide
  refine ⟨Client.fgets_line _ rest hline, ?_, ?_, Client.recvresults_one r hr⟩
  · rw [Client.store_row_line _ hline, if_neg hne, hrow]
  · rw [Edge.recvjob_of_fields _ slot num_and_jobs num_or_jobs _ hlen hfields]
    rcases hop with rfl | rfl
    · simp [hne2]
    · simp [hne1]

/-- An instance of C17: the line `and,1010101,100` of a batch of 3, and the
result `100`. -/
theorem client_router_round_trip_witness :
    Client.store_row ("and,1010101,100".toList ++ [Client.newline]) =
      some "and 1010101 100".toList ∧
    Edge.recvjob "          and 1010101 100   3".toList ⟨[], [], [], []⟩ 0 0 =
      (3, ⟨"and".toList, "1010101".toList, "100".toList, []⟩, 1, 0) ∧
    Client.recvresults ["       100".toList] 1 = (EXIT_SUCCESS, ["100".toList]) := by
  have h := client_router_round_trip "and".toList "1010101".toList "100".toList "100".toList []
    3 ⟨[], [], [], []⟩ 0 0 (by decide) (by decide) (by decide) (by decide) (by decide)
    (by decide)
  exact ⟨h.2.1, h.2.2.1, h.2.2.2⟩

/-! ### The indices of a batch and the effect of one response -/

namespace Edge

theorem items_perm_enumFrom (jobs : List job) :
    (and_items jobs ++ or_items jobs).Perm (jobs.enumFrom 0) :=
  List.filter_append_perm _ _

/-- The batch positions of the `and` jobs followed by those of the other jobs
are the numbers `0 .. N-1`, each once. -/
theorem items_positions_perm (jobs : List job) :
    ((and_items jobs).map (fun p => (p.1 : Int)) ++
        (or_items jobs).map (fun p => (p.1 : Int))).Perm
      ((List.range jobs.length).map (fun i : Nat => (i : Int))) := by
  have h := (items_perm_enumFrom jobs).map (fun p : Nat × job => (p.1 : Int))
  rw [List.map_append] at h
  have hfst : (jobs.enumFrom 0).map (fun p : Nat × job => (p.1 : Int)) =
      (List.range jobs.length).map (fun i : Nat => (i : Int)) := by
    rw [List.range_eq_range', ← List.enumFrom_map_fst 0 jobs, List.map_map]
    rfl
  rwa [hfst] at h

theorem and_indices_valid (jobs : List job) (u1 : ServerAnd.and_job)
    (hN : jobs.length ≤ 100) (hv : ∀ j ∈ jobs, ValidJob j) :
    and_indices u1 (sendjobs jobs jobs.length (count_operator ['a', 'n', 'd'] jobs)
        (count_operator ['o', 'r'] jobs)).2 =
      (and_items jobs).map (fun p => (p.1 : Int)) := by
  have hla := length_and_items jobs
  have hsum := length_items_add jobs
  rw [and_indices, sendjobs_valid jobs hN hv, datagrams_to_and_dispatch, List.map_map]
  apply List.map_congr_left
  intro p hp0
  have hp := (mem_and_items jobs p).mp hp0
  obtain ⟨hlt, hin⟩ := getElem?_bounds jobs p.1 p.2 hp.1
  simp only [Function.comp_apply]
  rw [← hla, ServerAnd.recvandjob_item _ _ p.1 _ u1 (hv _ hin).2.1 (hv _ hin).2.2
    (by omega) (by omega)]

theorem or_indices_valid (jobs : List job) (u2 : ServerOr.or_job)
    (hN : jobs.length ≤ 100) (hv : ∀ j ∈ jobs, ValidJob j) :
    or_indices u2 (sendjobs jobs jobs.length (count_operator ['a', 'n', 'd'] jobs)
        (count_operator ['o', 'r'] jobs)).2 =
      (or_items jobs).map (fun p => (p.1 : Int)) := by
  have hlo := length_or_items jobs hv
  have hsum := length_items_add jobs
  rw [or_indices, sendjobs_valid jobs hN hv, datagrams_to_or_dispatch, List.map_map]
  apply List.map_congr_left
  intro p hp0
  have hp := (mem_or_items jobs p).mp hp0
  obtain ⟨hlt, hin⟩ := getElem?_bounds jobs p.1 p.2 hp.1
  simp only [Function.comp_apply]
  rw [← hlo, ServerOr.recvorjob_item _ _ p.1 _ u2 (hv _ hin).2.1 (hv _ hin).2.2
    (by omega) (by omega)]

/-- The job numbers the router reads from the responses of the two servers to
a valid batch are the batch positions of the jobs. -/
theorem response_targets_valid (jobs : List job) (hN : jobs.length ≤ 100)
    (hv : ∀ j ∈ jobs, ValidJob j) :
    response_targets ((and_items jobs).map
          (fun p => response p.1 (BitSpec.computeAnd p.2.operand1 p.2.operand2)) ++
        (or_items jobs).map
          (fun p => response p.1 (BitSpec.computeOr p.2.operand1 p.2.operand2))) =
      ((and_items jobs).map (fun p => (p.1 : Int)) ++
        (or_items jobs).map (fun p => (p.1 : Int))).map some := by
  rw [response_targets, List.map_append, List.map_append, List.map_map, List.map_map,
    List.map_map, List.map_map]
  congr 1
  · apply List.map_congr_left
    intro p hp
    rw [mem_and_items] at hp
    obtain ⟨hlt, hin⟩ := getElem?_bounds jobs p.1 p.2 hp.1
    have ha := (hv _ hin).2.1
    have hb := (hv _ hin).2.2
    simp only [Function.comp_apply]
    rw [response_fields_response p.1 _ (by omega) (BitSpec.isBits_computeAnd _ _)
      (BitSpec.canonical_ne_nil _)
      (le_trans (BitSpec.length_computeAnd_le _ _ ha.2.1 hb.2.1)
        (le_trans (min_le_left _ _) ha.2.2))]
    rfl
  · apply List.map_congr_left
    intro p hp
    rw [mem_or_items] at hp
    obtain ⟨hlt, hin⟩ := getElem?_bounds jobs p.1 p.2 hp.1
    have ha := (hv _ hin).2.1
    have hb := (hv _ hin).2.2
    simp only [Function.comp_apply]
    rw [response_fields_response p.1 _ (by omega) (BitSpec.isBits_computeOr _ _)
      (BitSpec.canonical_ne_nil _)
      (le_trans (BitSpec.length_computeOr_le _ _ ha.2.1) (max_le ha.2.2 hb.2.2))]
    rfl

theorem nodup_range_cast (n : Nat) : ((List.range n).map (fun i : Nat => (i : Int))).Nodup :=
  (List.nodup_range n).map (fun a b h => by exact_mod_cast h)

end Edge

/-- C21: for every valid batch of `N` jobs, the index values `sendjobs` sends to
the AND server and those it sends to the OR server (as the servers read them)
are disjoint and together are exactly `0 .. N-1`, each sent exactly once; hence
the job numbers the router reads from the responses of the two servers, which
echo these indices, are again `0 .. N-1`, each once: no two responses target the
same job and every job receives a response. -/
theorem dispatched_indices_partition_batch (jobs : List Edge.job)
    (u1 : ServerAnd.and_job) (u2 : ServerOr.or_job)
    (_hN1 : 1 ≤ jobs.length) (hN2 : jobs.length ≤ 100) (hv : ∀ j ∈ jobs, Edge.ValidJob j) :
    (Edge.and_indices u1 (Edge.sendjobs jobs jobs.length
        (Edge.count_operator ['a', 'n', 'd'] jobs) (Edge.count_operator ['o', 'r'] jobs)).2).Disjoint
      (Edge.or_indices u2 (Edge.sendjobs jobs jobs.length
        (Edge.count_operator ['a', 'n', 'd'] jobs) (Edge.count_operator ['o', 'r'] jobs)).2) ∧
    (Edge.and_indices u1 (Edge.sendjobs jobs jobs.length
        (Edge.count_operator ['a', 'n', 'd'] jobs) (Edge.count_operator ['o', 'r'] jobs)).2 ++
      Edge.or_indices u2 (Edge.sendjobs jobs jobs.length
        (Edge.count_operator ['a', 'n', 'd'] jobs) (Edge.count_operator ['o', 'r'] jobs)).2).Nodup ∧
    (Edge.and_indices u1 (Edge.sendjobs jobs jobs.length
        (Edge.count_operator ['a', 'n', 'd'] jobs) (Edge.count_operator ['o', 'r'] jobs)).2 ++
      Edge.or_indices u2 (Edge.sendjobs jobs jobs.length
        (Edge.count_operator ['a', 'n', 'd'] jobs) (Edge.count_operator ['o', 'r'] jobs)).2).Perm
      ((List.range jobs.length).map (fun i : Nat => (i : Int))) ∧
    (Edge.response_targets
      (ServerAnd.responses u1 (Edge.datagrams_to Edge.Backend.and_addr
          (Edge.sendjobs jobs jobs.length (Edge.count_operator ['a', 'n', 'd'] jobs)
            (Edge.count_operator ['o', 'r'] jobs)).2) ++
        ServerOr.responses u2 (Edge.datagrams_to Edge.Backend.or_addr
          (Edge.sendjobs jobs jobs.length (Edge.count_operator ['a', 'n', 'd'] jobs)
            (Edge.count_operator ['o', 'r'] jobs)).2))).Nodup ∧
    (Edge.response_targets
      (ServerAnd.responses u1 (Edge.datagrams_to Edge.Backend.and_addr
          (Edge.sendjobs jobs jobs.length (Edge.count_operator ['a', 'n', 'd'] jobs)
            (Edge.count_operator ['o', 'r'] jobs)).2) ++
        ServerOr.responses u2 (Edge.datagrams_to Edge.Backend.or_addr
          (Edge.sendjobs jobs jobs.length (Edge.count_operator ['a', 'n', 'd'] jobs)
            (Edge.count_operator ['o', 'r'] jobs)).2))).Perm
      ((List.range jobs.length).map (fun i : Nat => some (i : Int))) ∧
    ∀ i, i < jobs.length → some (i : Int) ∈ Edge.response_targets
      (ServerAnd.responses u1 (Edge.datagrams_to Edge.Backend.and_addr
          (Edge.sendjobs jobs jobs.length (Edge.count_operator ['a', 'n', 'd'] jobs)
            (Edge.count_operator ['o', 'r'] jobs)).2) ++
        ServerOr.responses u2 (Edge.datagrams_to Edge.Backend.or_addr
          (Edge.sendjobs jobs jobs.length (Edge.count_operator ['a', 'n', 'd'] jobs)
            (Edge.count_operator ['o', 'r'] jobs)).2)) := by
  have hperm := Edge.items_positions_perm jobs
  have hnodup : ((Edge.and_items jobs).map (fun p => (p.1 : Int)) ++
      (Edge.or_items jobs).map (fun p => (p.1 : Int))).Nodup :=
    hperm.nodup_iff.mpr (Edge.nodup_range_cast jobs.length)
  have hresp := Edge.backend_responses jobs u1 u2 hN2 hv
  have hperm2 : (((Edge.and_items jobs).map (fun p => (p.1 : Int)) ++
      (Edge.or_items jobs).map (fun p => (p.1 : Int))).map some).Perm
      ((List.range jobs.length).map (fun i : Nat => some (i : Int))) := by
    have := hperm.map some
    rwa [List.map_map] at this
  rw [Edge.and_indices_valid jobs u1 hN2 hv, Edge.or_indices_valid jobs u2 hN2 hv,
    hresp.1, hresp.2, Edge.response_targets_valid jobs hN2 hv]
  refine ⟨List.disjoint_of_nodup_append hnodup, hnodup, hperm,
    hnodup.map (Option.some_injective _), hperm2, ?_⟩
  intro i hi
  rw [hperm2.mem_iff, List.mem_map]
  exact ⟨i, List.mem_range.mpr hi, rfl⟩

/-- The scenario batch `and,1111,1; or,0,0; and,1,1` for C21: the AND server is
sent the indices 0 and 2, the OR server the index 1. -/
theorem dispatched_indices_partition_batch_witness :
    Edge.and_indices ⟨0, [], [], []⟩ (Edge.sendjobs
        [⟨"and".toList, "1111".toList, "1".toList, []⟩, ⟨"or".toList, "0".toList, "0".toList, []⟩,
          ⟨"and".toList, "1".toList, "1".toList, []⟩] 3 2 1).2 = [0, 2] ∧
    Edge.or_indices ⟨0, [], [], []⟩ (Edge.sendjobs
        [⟨"and".toList, "1111".toList, "1".toList, []⟩, ⟨"or".toList, "0".toList, "0".toList, []⟩,
          ⟨"and".toList, "1".toList, "1".toList, []⟩] 3 2 1).2 = [1] ∧
    ([0, 2] ++ [1] : List Int).Perm [0, 1, 2] := by
  have h := (dispatched_indices_partition_batch
    [⟨"and".toList, "1111".toList, "1".toList, []⟩, ⟨"or".toList, "0".toList, "0".toList, []⟩,
      ⟨"and".toList, "1".toList, "1".toList, []⟩] ⟨0, [], [], []⟩ ⟨0, [], [], []⟩
    (by decide) (by decide) (by decide)).2.2.1
  have h1 : Edge.and_indices ⟨0, [], [], []⟩ (Edge.sendjobs
      [⟨"and".toList, "1111".toList, "1".toList, []⟩, ⟨"or".toList, "0".toList, "0".toList, []⟩,
        ⟨"and".toList, "1".toList, "1".toList, []⟩] 3 2 1).2 = [0, 2] := by decide
  have h2 : Edge.or_indices ⟨0, [], [], []⟩ (Edge.sendjobs
      [⟨"and".toList, "1111".toList, "1".toList, []⟩, ⟨"or".toList, "0".toList, "0".toList, []⟩,
        ⟨"and".toList, "1".toList, "1".toList, []⟩] 3 2 1).2 = [1] := by decide
  refine ⟨h1, h2, ?_⟩
  have h3 : (Edge.and_indices ⟨0, [], [], []⟩ (Edge.sendjobs
      [⟨"and".toList, "1111".toList, "1".toList, []⟩, ⟨"or".toList, "0".toList, "0".toList, []⟩,
        ⟨"and".toList, "1".toList, "1".toList, []⟩] 3 2 1).2 ++
      Edge.or_indices ⟨0, [], [], []⟩ (Edge.sendjobs
      [⟨"and".toList, "1111".toList, "1".toList, []⟩, ⟨"or".toList, "0".toList, "0".toList, []⟩,
        ⟨"and".toList, "1".toList, "1".toList, []⟩] 3 2 1).2).Perm
      ((List.range 3).map (fun i : Nat => (i : Int))) := h
  rw [h1, h2] at h3
  exact h3

/-- C22: processing one well-formed response `(idx, r)` with `0 <= idx < N` in
`recvresults` (one turn of its loop) changes only the result of job `idx`: the
job array keeps its length, every job keeps its operator and operands, every job
other than `idx` keeps its result, and job `idx` gets the result `r`. -/
theorem recvresults_changes_only_result (jobs : List Edge.job) (inbox : List (List Char))
    (idx n : Nat) (r : List Char)
    (hidx : idx < jobs.length) (hidx2 : idx ≤ 999) (hr : BitSpec.IsOperand r) :
    Edge.recvresults 1 (Edge.response idx r :: inbox) jobs =
      Edge.Received.returned EXIT_SUCCESS
        (jobs.modify (fun j => { j with result := r }) idx) inbox ∧
    Edge.recvresults_loop (n + 1) (Edge.response idx r :: inbox) jobs =
      Edge.recvresults_loop n inbox (jobs.modify (fun j => { j with result := r }) idx) ∧
    (jobs.modify (fun j => { j with result := r }) idx).length = jobs.length ∧
    ∀ (i : Nat) (j : Edge.job), jobs[i]? = some j →
      ∃ j', (jobs.modify (fun j => { j with result := r }) idx)[i]? = some j' ∧
        j'.operator = j.operator ∧ j'.operand1 = j.operand1 ∧ j'.operand2 = j.operand2 ∧
        (i ≠ idx → j'.result = j.result) ∧ (i = idx → j'.result = r) := by
  have hstep := fun m => Edge.recvresults_loop_response m idx r inbox jobs (by omega)
    hr.1 hr.ne_nil hr.2.2 hidx
  have h1 : ((1 : Int)).toNat = 0 + 1 := rfl
  refine ⟨?_, hstep n, List.length_modify _ _ _, ?_⟩
  · rw [Edge.recvresults, h1, hstep 0]
    rfl
  · intro i j hj
    rw [List.getElem?_modify, hj]
    by_cases hi : idx = i
    · refine ⟨{ j with result := r }, by simp [hi], rfl, rfl, rfl, ?_, fun _ => rfl⟩
      intro hne
      exact absurd hi.symm hne
    · refine ⟨j, by simp [hi], rfl, rfl, rfl, fun _ => rfl, ?_⟩
      intro heq
      exact absurd heq.symm hi

/-- An instance of C22: the response `(1, 0)` on the scenario batch writes the
result of the second job only. -/
theorem recvresults_changes_only_result_witness :
    Edge.recvresults 1 ["  1          0".toList]
        [⟨"and".toList, "1111".toList, "1".toList, []⟩, ⟨"or".toList, "0".toList, "0".toList, []⟩,
          ⟨"and".toList, "1".toList, "1".toList, []⟩] =
      Edge.Received.returned EXIT_SUCCESS
        [⟨"and".toList, "1111".toList, "1".toList, []⟩,
          ⟨"or".toList, "0".toList, "0".toList, "0".toList⟩,
          ⟨"and".toList, "1".toList, "1".toList, []⟩] [] := by
  have h := (recvresults_changes_only_result
    [⟨"and".toList, "1111".toList, "1".toList, []⟩, ⟨"or".toList, "0".toList, "0".toList, []⟩,
      ⟨"and".toList, "1".toList, "1".toList, []⟩] [] 1 0 "0".toList
    (by decide) (by decide) (by decide)).1
  exact h.trans (by decide)
